import Mathlib

/-! # LSH over packed bit vectors: embedding of `DOIT/vector.cpp` and `DOIT/table.cpp`

The development follows the two translation units of the library.

* `lsh.vector` is the packed bit vector of `vector.cpp`: a logical size and a
  list of 32-bit words.
* `lsh.table` is the lookup table of `table.cpp`: the masks, one bucket map per
  mask, the identifier-to-vector store and the identifier counter.

Conventions of the embedding.

* Words are natural numbers reduced modulo `2 ^ 32` wherever the source
  computes one (`unsigned int`).
* The identifier counter `next_id_` is an `unsigned int` and wraps modulo
  `2 ^ 32`; this is modelled, because the counter counts calls, not storage.
* Sizes, bit indices and distances are kept in `Nat`: they are bounded by the
  number of bits held in memory, which stays far below `2 ^ 32`.
* An operation that may throw returns `Except Error _`; an operation that
  mutates the table returns the outcome together with the table as it is left.
* What the translation units take from `vector.hpp` and `table.hpp` enters as
  follows: the packing width `chunk_size_` is a parameter `c`, the hash functor
  `std::hash<unsigned int>` is a parameter `hasher`, and the container types
  are association lists (see their doc comments).
-/

namespace lsh

/-- Exceptions thrown by the library: `std::invalid_argument` and
`std::out_of_range`. -/
inductive Error where
  | invalid_argument
  | out_of_range
deriving DecidableEq, Repr

deriving instance DecidableEq for Except

/-- Largest value of an `unsigned int`. -/
def UINT_MAX : Nat := 2 ^ 32 - 1

/-- Modelled from the spec: `__builtin_popcount` is a compiler builtin, the
population count of a 32-bit word, that is the number of its 1-bits. -/
def popcount (x : Nat) : Nat :=
  (List.range 32).countP (fun k => x.testBit k)

/-- A packed bit vector: `size_` logical bits held in `components_`. -/
structure vector where
  size_ : Nat
  components_ : List Nat
deriving DecidableEq, Repr

/-- The constructor `vector(const std::vector<unsigned int>& cs, unsigned int s)`:
the words are copied as they are. -/
def vector.ofChunks (cs : List Nat) (s : Nat) : vector :=
  { size_ := s, components_ := cs }

/-- The inner loop of the packing constructor,
`for (j = 0; j < b; j++) e |= cs[i + j] << (b - j - 1);` starting from `e = 0`. -/
def chunkWord (cs : List Bool) (i b : Nat) : Nat :=
  (List.range b).foldl
    (fun e j => e ||| (((cs.getD (i + j) false).toNat <<< (b - j - 1)) % 2 ^ 32)) 0

/-- The outer loop `while (i < s)` of the packing constructor, with `acc` the
words pushed so far. The loop does not advance when `c = 0`; the fuel bounds the
number of iterations and `none` stands for a loop that has not finished. -/
def packLoop (c : Nat) (cs : List Bool) : Nat → Nat → List Nat → Option (List Nat)
  | 0, i, acc => if i < cs.length then none else some acc
  | fuel + 1, i, acc =>
    if i < cs.length then
      let b := if i + c > cs.length then cs.length - i else c
      packLoop c cs fuel (i + b) (acc ++ [chunkWord cs i b])
    else some acc

/-- The constructor `vector(const std::vector<bool>& cs)` for packing width `c`.
Every iteration consumes at least one bit when `c > 0`, so `cs.size()`
iterations are enough. -/
def vector.ofBools (c : Nat) (cs : List Bool) : Option vector :=
  (packLoop c cs cs.length 0 []).map (fun ws => { size_ := cs.length, components_ := ws })

/-- The accessor `vector::size`. -/
def vector.size (v : vector) : Nat := v.size_

/-- The accessor `vector::get` for packing width `c`. The subtraction
`b - (i % s) - 1` is an `unsigned int` subtraction and wraps; a shift by 32 or
more positions is undefined in C++ and yields 0 here. -/
def vector.get (c : Nat) (v : vector) (i : Nat) : Except Error Bool :=
  let s := v.size_
  if i ≥ s then .error .out_of_range
  else
    let d := i / s
    let j := d * s
    let b := if j + c > s then s - j else c
    let sh := (b + 2 ^ 32 - (i % s) - 1) % 2 ^ 32
    .ok (((v.components_.getD d 0) >>> sh) % 2 == 1)

/-- The static function `vector::distance`: the population count of the
word-wise XOR, summed over the words of `u`. -/
def vector.distance (u v : vector) : Except Error Nat :=
  if u.size ≠ v.size then .error .invalid_argument
  else
    .ok ((List.range u.components_.length).foldl
      (fun d i => d + popcount (u.components_.getD i 0 ^^^ v.components_.getD i 0)) 0)

/-- The comparison `vector::operator==`. -/
def vector.eq (u v : vector) : Bool :=
  if u.size ≠ v.size then false
  else
    match vector.distance u v with
    | .ok d => d == 0
    | .error _ => false

/-- The comparison `vector::operator!=`. -/
def vector.ne (u v : vector) : Bool := !(vector.eq u v)

/-- The dot product `vector::operator*`. -/
def vector.dot (u v : vector) : Except Error Nat :=
  if u.size ≠ v.size then .error .invalid_argument
  else
    .ok ((List.range u.components_.length).foldl
      (fun d i => d + popcount (u.components_.getD i 0 &&& v.components_.getD i 0)) 0)

/-- The bitwise conjunction `vector::operator&`. -/
def vector.and (u v : vector) : Except Error vector :=
  if u.size ≠ v.size then .error .invalid_argument
  else
    .ok (vector.ofChunks
      ((List.range u.components_.length).map
        (fun i => u.components_.getD i 0 &&& v.components_.getD i 0))
      u.size_)

/-- Width in bits of `unsigned long`, the type of the accumulator of
`vector::hash` (LP64). -/
def ULONG_BITS : Nat := 64

/-- The function `vector::hash`. The accumulator is an `unsigned long`, the
result is truncated to `unsigned int`; `h_b` is the constant 0. -/
def vector.hash (hasher : Nat → Nat) (v : vector) : Nat :=
  let h := (List.range v.components_.length).foldl
    (fun h i =>
      h ^^^ ((hasher (v.components_.getD i 0) + (h <<< 6) % 2 ^ ULONG_BITS + (h >>> 2))
        % 2 ^ ULONG_BITS)) 0
  (h ^^^ 0) % 2 ^ 32

/-- Modelled from the spec: the type `bucket` is declared in `table.hpp`; it is
an "ordered-insertion list of vector identifiers". -/
abbrev bucket := List Nat

/-- Modelled from the spec: the type `partition` is declared in `table.hpp`; it
is a "mapping from an unsigned integer hash key to a Bucket". The map is an
association list in iteration order, with at most one entry per key. -/
abbrev partition := List (Nat × bucket)

/-- Modelled from the spec: the type of `vectors_` is declared in `table.hpp`;
it is the Vector Store, a "mapping from identifier to the full BitVector that was
inserted". The map is an association list with at most one entry per
identifier; the order of the list stands for the iteration order of the map,
which is the order of insertion here. -/
abbrev store := List (Nat × vector)

/-- The lookup `p.find(k)` of a bucket map. -/
def partition.find (p : partition) (k : Nat) : Option bucket :=
  (p.find? (fun it => it.1 == k)).map (fun it => it.2)

/-- The statement `p[k].push_back(u)`: `operator[]` creates an empty bucket for
a key that is not in the map yet. -/
def partition.push : partition → Nat → Nat → partition
  | [], k, u => [(k, [u])]
  | (k0, b) :: rest, k, u =>
    if k0 = k then (k0, b ++ [u]) :: rest else (k0, b) :: partition.push rest k u

/-- The call `vectors_.insert(\x7bu, v\x7d)`: a map keeps the entry it already
holds for a key. -/
def store.insert (vs : store) (u : Nat) (v : vector) : store :=
  if vs.any (fun it => it.1 == u) then vs else vs ++ [(u, v)]

/-- The call `vectors_.erase(u)`. -/
def store.erase (vs : store) (u : Nat) : store :=
  vs.filter (fun it => !(it.1 == u))

/-- The call `vectors_.at(u)`, which throws `std::out_of_range` for a key that
is not in the map. -/
def store.at (vs : store) (u : Nat) : Except Error vector :=
  match vs.find? (fun it => it.1 == u) with
  | some it => .ok it.2
  | none => .error .out_of_range

/-- Modelled from the spec: the initial value of `next_id_` is set in
`table.hpp`; the Vector Store is keyed by a "monotonically increasing unsigned
counter, starting at 0". -/
def NEXT_ID_INIT : Nat := 0

/-- The lookup table. -/
structure table where
  dimensions_ : Nat
  masks_ : List vector
  partitions_ : List partition
  vectors_ : store
  next_id_ : Nat
deriving DecidableEq, Repr

/-- The result of `table::stats`. -/
structure statistics where
  partitions : Nat
  buckets : Nat
  vectors : Nat
deriving DecidableEq, Repr

/-- The accessor `table::size`. -/
def table.size (t : table) : Nat := t.vectors_.length

/-- The loop of `table::insert` over the partitions, `masks` and the partitions
walked in step. It returns the partitions as the loop leaves them, also when
`operator&` throws half way. Reading `masks_[i]` past the end of `masks_` is
undefined in C++ and reported as `out_of_range` here. -/
def table.insertLoop (hasher : Nat → Nat) (v : vector) (u : Nat) :
    List vector → List partition → Except Error Unit × List partition
  | _, [] => (.ok (), [])
  | [], p :: ps => (.error .out_of_range, p :: ps)
  | m :: ms, p :: ps =>
    match vector.and m v with
    | .error e => (.error e, p :: ps)
    | .ok k =>
      let r := table.insertLoop hasher v u ms ps
      (r.1, partition.push p (vector.hash hasher k) u :: r.2)

/-- The method `table::insert`: the outcome and the table as it is left. -/
def table.insert (hasher : Nat → Nat) (t : table) (v : vector) : Except Error Unit × table :=
  if t.dimensions_ ≠ v.size then (.error .invalid_argument, t)
  else
    let u := t.next_id_
    let r := table.insertLoop hasher v u t.masks_ t.partitions_
    (r.1, { t with
      next_id_ := (t.next_id_ + 1) % 2 ^ 32
      vectors_ := store.insert t.vectors_ u v
      partitions_ := r.2 })

/-- The first loop of `table::erase`: the identifier of the first stored vector
equal to `v`, and the initial value `u = 0` when there is none. -/
def table.findId (vs : store) (v : vector) : Nat :=
  match vs.find? (fun it => vector.eq it.2 v) with
  | some it => it.1
  | none => 0

/-- The method `table::erase`: the outcome and the table as it is left. In each
bucket of each partition the first occurrence of `u` is removed. -/
def table.erase (t : table) (v : vector) : Except Error Unit × table :=
  if t.dimensions_ ≠ v.size then (.error .invalid_argument, t)
  else
    let u := table.findId t.vectors_ v
    (.ok (), { t with
      vectors_ := store.erase t.vectors_ u
      partitions_ := t.partitions_.map (fun p => p.map (fun it => (it.1, it.2.erase u))) })

/-- The loop of `table::query` over one bucket; the state is the best candidate
(`none` for the null pointer) and its distance. -/
def table.scanBucket (vs : store) (v : vector) :
    bucket → Option vector × Nat → Except Error (Option vector × Nat)
  | [], best => .ok best
  | u :: us, best =>
    match store.at vs u with
    | .error e => .error e
    | .ok c =>
      match vector.distance v c with
      | .error e => .error e
      | .ok d =>
        if d < best.2 then table.scanBucket vs v us (some c, d)
        else table.scanBucket vs v us best

/-- The loop of `table::query` over the partitions, `masks` and the partitions
walked in step. -/
def table.queryLoop (hasher : Nat → Nat) (vs : store) (v : vector) :
    List vector → List partition → Option vector × Nat → Except Error (Option vector × Nat)
  | _, [], best => .ok best
  | [], _ :: _, _ => .error .out_of_range
  | m :: ms, p :: ps, best =>
    match vector.and m v with
    | .error e => .error e
    | .ok k =>
      match partition.find p (vector.hash hasher k) with
      | none => table.queryLoop hasher vs v ms ps best
      | some b =>
        match table.scanBucket vs v b best with
        | .error e => .error e
        | .ok best1 => table.queryLoop hasher vs v ms ps best1

/-- The method `table::query`; `vector(\x7b\x7d)` is the vector of size 0. -/
def table.query (hasher : Nat → Nat) (t : table) (v : vector) : Except Error vector :=
  if t.dimensions_ ≠ v.size then .error .invalid_argument
  else
    match table.queryLoop hasher t.vectors_ v t.masks_ t.partitions_ (none, UINT_MAX) with
    | .error e => .error e
    | .ok (some c, _) => .ok c
    | .ok (none, _) => .ok (vector.ofChunks [] 0)

/-- The method `table::stats`. -/
def table.stats (t : table) : statistics :=
  let r := t.partitions_.foldl
    (fun (acc : Nat × Nat) p => (acc.1 + p.length, p.foldl (fun vs it => vs + it.2.length) acc.2))
    (0, 0)
  { partitions := t.partitions_.length, buckets := r.1, vectors := r.2 }

/-- The constructor `table(const brute&)` for packing width `c`: one all-zero
mask and one empty partition. -/
def table.brute (c d : Nat) : Option table :=
  (vector.ofBools c (List.replicate d false)).map (fun m =>
    { dimensions_ := d, masks_ := [m], partitions_ := [[]], vectors_ := [],
      next_id_ := NEXT_ID_INIT })

/-- A call of a mutating method. -/
inductive Op where
  | insert (v : vector)
  | erase (v : vector)
deriving DecidableEq, Repr

/-- The table left by one call; an exception is left to the caller. -/
def table.step (hasher : Nat → Nat) (t : table) : Op → table
  | .insert v => (table.insert hasher t v).2
  | .erase v => (table.erase t v).2

/-- The table left by a sequence of calls. -/
def table.run (hasher : Nat → Nat) (t : table) (ops : List Op) : table :=
  ops.foldl (table.step hasher) t

/-- The number of `insert` calls in a sequence of calls. -/
def inserts (ops : List Op) : Nat :=
  ops.countP (fun op => match op with | .insert _ => true | .erase _ => false)

/-- The chunks `(i, b)` visited by the loop of the packing constructor for a
sequence of `s` bits: first bit and number of bits of each word. -/
def chunkList (c s : Nat) : Nat → Nat → List (Nat × Nat)
  | 0, _ => []
  | fuel + 1, i =>
    if i < s then
      let b := if i + c > s then s - i else c
      (i, b) :: chunkList c s fuel (i + b)
    else []

/-- The number of positions at which two boolean sequences differ, counted
over the positions of the first. -/
def hamming (a b : List Bool) : Nat :=
  (List.range a.length).countP (fun i => a.getD i false != b.getD i false)

/-- The function `vector::random` for packing width `c`; `bits` is the outcome
of the `d` random draws. -/
def vector.random (c d : Nat) (bits : Nat → Bool) : Option vector :=
  vector.ofBools c ((List.range d).map bits)

/-- The sequence `c` of one iteration of the constructor `table(const classic&)`:
`d` zeros in which the `s` drawn positions `draw 0`, ..., `draw (s - 1)` are
set. -/
def classicBits (d s : Nat) (draw : Nat → Nat) : List Bool :=
  (List.range s).foldl (fun cs k => cs.set (draw k) true) (List.replicate d false)

/-- The masks pushed by the loop of the constructor `table(const classic&)` for
the partitions listed; `draws i k` is the `k`-th position drawn for partition `i`. -/
def classicMasks (c d s : Nat) (draws : Nat → Nat → Nat) : List Nat → Option (List vector)
  | [] => some []
  | i :: is =>
    match vector.ofBools c (classicBits d s (draws i)) with
    | none => none
    | some m =>
      match classicMasks c d s draws is with
      | none => none
      | some ms => some (m :: ms)

/-- The constructor `table(const classic&)` for packing width `c`. -/
def table.classic (c d s p : Nat) (draws : Nat → Nat → Nat) : Option table :=
  (classicMasks c d s draws (List.range p)).map (fun ms =>
    { dimensions_ := d, masks_ := ms, partitions_ := ms.map (fun _ => []),
      vectors_ := [], next_id_ := NEXT_ID_INIT })

/-- The sequence `v` of the constructor `table(const covering&)`:
`v[j] = (i >> (x - j - 1)) & 1` for `j < x`. -/
def coveringBits (x i : Nat) : List Bool :=
  (List.range x).map (fun j => (i >>> (x - j - 1)) % 2 == 1)

/-- The random selectors `m` of the constructor `table(const covering&)`;
`sel j` is the outcome of the draws of selector `j`. -/
def coveringSelectors (c x : Nat) (sel : Nat → Nat → Bool) : List Nat → Option (List vector)
  | [] => some []
  | j :: js =>
    match vector.random c x (sel j) with
    | none => none
    | some mj =>
      match coveringSelectors c x sel js with
      | none => none
      | some ms => some (mj :: ms)

/-- The loop `c[j] = (m[j] * v) % 2` of the constructor `table(const covering&)`
over the selectors; `v` is converted to a packed vector at each product. -/
def coveringRow (c : Nat) (v : List Bool) : List vector → Option (Except Error (List Bool))
  | [] => some (.ok [])
  | mj :: ms =>
    match vector.ofBools c v with
    | none => none
    | some pv =>
      match vector.dot mj pv with
      | .error e => some (.error e)
      | .ok k =>
        match coveringRow c v ms with
        | none => none
        | some (.error e) => some (.error e)
        | some (.ok bs) => some (.ok ((k % 2 == 1) :: bs))

/-- The masks pushed by the loop `for (i = 1; i < n; i++)` of the constructor
`table(const covering&)` for the values of `i` listed. -/
def coveringMasks (c x : Nat) (m : List vector) : List Nat → Option (Except Error (List vector))
  | [] => some (.ok [])
  | i :: is =>
    match coveringRow c (coveringBits x i) m with
    | none => none
    | some (.error e) => some (.error e)
    | some (.ok cb) =>
      match vector.ofBools c cb with
      | none => none
      | some mask =>
        match coveringMasks c x m is with
        | none => none
        | some (.error e) => some (.error e)
        | some (.ok rest) => some (.ok (mask :: rest))

/-- The constructor `table(const covering&)` for packing width `c`; `n = 1 << x`
is an `unsigned int`. -/
def table.covering (c d r : Nat) (sel : Nat → Nat → Bool) : Option (Except Error table) :=
  let x := r + 1
  let n := (1 <<< x) % 2 ^ 32
  match coveringSelectors c x sel (List.range d) with
  | none => none
  | some m =>
    match coveringMasks c x m (List.range' 1 (n - 1)) with
    | none => none
    | some (.error e) => some (.error e)
    | some (.ok masks) =>
      some (.ok { dimensions_ := d, masks_ := masks, partitions_ := masks.map (fun _ => []),
                  vectors_ := [], next_id_ := NEXT_ID_INIT })

/-- A table as one of the three constructors leaves it, for packing width `c`. -/
def table.Built (c : Nat) (t : table) : Prop :=
  (∃ d, table.brute c d = some t) ∨
  (∃ d r sel, table.covering c d r sel = some (.ok t)) ∨
  (∃ d s p draws, table.classic c d s p draws = some t)

/-- The identifiers held by the buckets of a partition, bucket after bucket. -/
def partition.ids (p : partition) : List Nat :=
  (p.map (fun it => it.2)).flatten

/-- The invariant tying one partition to its mask and to the vector store: one
bucket per key, the identifiers of the buckets are those of the store, each
once, and each lies in the bucket keyed by the hash of its masked vector. -/
def partition.Inv (hasher : Nat → Nat) (vs : store) (m : vector) (p : partition) : Prop :=
  (p.map (fun it => it.1)).Nodup ∧
  (partition.ids p).Perm (vs.map (fun it => it.1)) ∧
  ∀ it ∈ p, ∀ u ∈ it.2, ∃ w k, (u, w) ∈ vs ∧ vector.and m w = .ok k ∧
    it.1 = vector.hash hasher k

/-- The table invariant: masks and stored vectors have the table's size, the
store holds one entry per identifier, and every partition satisfies
`partition.Inv` with its mask. -/
structure table.Inv (hasher : Nat → Nat) (t : table) : Prop where
  masks_size : ∀ m ∈ t.masks_, m.size = t.dimensions_
  keys_nodup : (t.vectors_.map (fun it => it.1)).Nodup
  vec_size : ∀ it ∈ t.vectors_, it.2.size = t.dimensions_
  parts : List.Forall₂ (partition.Inv hasher t.vectors_) t.masks_ t.partitions_

/-- The state of a table right after construction: no stored vector, the
counter at 0, one empty partition per mask and masks of the table's size. -/
def table.Initial (t : table) : Prop :=
  t.vectors_ = [] ∧ t.next_id_ = 0 ∧ t.partitions_ = t.masks_.map (fun _ => []) ∧
    ∀ m ∈ t.masks_, m.size = t.dimensions_

/-- The calls `insert(w); erase(w)` repeated `n` times. -/
def churn (w : vector) (n : Nat) : List Op :=
  (List.replicate n [Op.insert w, Op.erase w]).flatten

/-- The brute-force table of dimension 8 that holds the vector `10101010` under
identifier 0, with the counter at `k`. -/
def wrapState (k : Nat) : table :=
  { dimensions_ := 8, masks_ := [⟨8, [0]⟩], partitions_ := [[(0, [0])]],
    vectors_ := [(0, ⟨8, [170]⟩)], next_id_ := k }

/-- A vector holds `ceil(size / c)` words, as every vector built by the library
for packing width `c` does. -/
def vector.wf (c : Nat) (v : vector) : Prop :=
  v.components_.length = (v.size + c - 1) / c

instance (c : Nat) (v : vector) : Decidable (vector.wf c v) := by
  unfold vector.wf
  infer_instance

/-- The identifiers visited by `table::query` for the query `v`: in partition
order, the bucket keyed by the hash of the masked query, in bucket order. -/
def table.candidates (hasher : Nat → Nat) (v : vector) :
    List vector → List partition → List Nat
  | m :: ms, p :: ps =>
    (match vector.and m v with
      | .ok k => (partition.find p (vector.hash hasher k)).getD []
      | .error _ => []) ++ table.candidates hasher v ms ps
  | _, _ => []

/-- The vector that the packing constructor builds from `bs` when `c > 0`: one
word per chunk of `chunkList`. -/
def packed (c : Nat) (bs : List Bool) : vector :=
  { size_ := bs.length
    components_ := (chunkList c bs.length bs.length 0).map (fun p => chunkWord bs p.1 p.2) }

/-- The parity of the dot product of selector `j` with the `x`-bit
representation of `i`, most significant bit first. -/
def coveringEntry (x : Nat) (sel : Nat → Nat → Bool) (i j : Nat) : Bool :=
  (List.range x).countP (fun k => sel j k && ((i >>> (x - k - 1)) % 2 == 1)) % 2 == 1

/-- The most-significant-bit-first binary value of a boolean sequence. -/
def valBE (l : List Bool) : Nat :=
  l.foldl (fun a x => 2 * a + x.toNat) 0

/-- The number of `insert` calls in a sequence of calls whose vector has the
size `d`, that is the number of insertions that succeed in a table of
dimension `d`. -/
def successes (d : Nat) (ops : List Op) : Nat :=
  ops.countP (fun op => match op with | .insert w => decide (w.size = d) | .erase _ => false)

/-- The number of buckets, summed over the partitions, that hold at least one
identifier. -/
def table.occupied (t : table) : Nat :=
  (t.partitions_.map (fun p => p.countP (fun it => !it.2.isEmpty))).sum

/-! ## Words -/

theorem testBit_foldl_lor (f : Nat → Nat) (k : Nat) (L : List Nat) (e : Nat) :
    (L.foldl (fun e j => e ||| f j) e).testBit k
      = (e.testBit k || L.any (fun j => (f j).testBit k)) := by
  induction L generalizing e with
  | nil => simp
  | cons j L ih => simp [ih, Nat.testBit_or, Bool.or_assoc]

theorem chunkWord_testBit (cs : List Bool) (i b k : Nat) (hb : b ≤ 32) :
    (chunkWord cs i b).testBit k = (decide (k < b) && cs.getD (i + (b - 1 - k)) false) := by
  unfold chunkWord
  rw [testBit_foldl_lor (fun j => ((cs.getD (i + j) false).toNat <<< (b - j - 1)) % 2 ^ 32)]
  simp only [Nat.zero_testBit, Bool.false_or]
  rw [Bool.eq_iff_iff]
  simp only [List.any_eq_true, List.mem_range, Nat.testBit_mod_two_pow, Nat.testBit_shiftLeft,
    Nat.testBit_bool_to_nat, Bool.and_eq_true, decide_eq_true_eq]
  constructor
  · rintro ⟨j, hj, hk32, hge, hz, hc⟩
    have hjk : b - 1 - k = j := by omega
    rw [hjk]
    exact ⟨by omega, hc⟩
  · rintro ⟨hk, hc⟩
    exact ⟨b - 1 - k, by omega, by omega, by omega, by omega, hc⟩

theorem countP_range_flip (D : Nat → Bool) (b n : Nat) (hb : b ≤ n) :
    (List.range n).countP (fun k => decide (k < b) && D (b - 1 - k))
      = (List.range b).countP D := by
  obtain ⟨m, rfl⟩ := Nat.exists_eq_add_of_le hb
  rw [List.range_add, List.countP_append]
  have h2 : List.countP (fun k => decide (k < b) && D (b - 1 - k))
      (List.map (fun x => b + x) (List.range m)) = 0 := by
    rw [List.countP_eq_zero]
    intro a ha
    simp only [List.mem_map, List.mem_range] at ha
    obtain ⟨x, _, rfl⟩ := ha
    simp
  have h1 : List.countP (fun k => decide (k < b) && D (b - 1 - k)) (List.range b)
      = List.countP (D ∘ (fun k => b - 1 - k)) (List.range b) := by
    apply List.countP_congr
    intro x hx
    simp only [List.mem_range] at hx
    simp [hx]
  rw [h1, h2, ← List.countP_map, Nat.add_zero]
  have h3 : List.map (fun k => b - 1 - k) (List.range b) = (List.range b).reverse := by
    rw [List.range_eq_range', List.reverse_range']
    simp [List.range_eq_range']
  rw [h3]
  exact (List.reverse_perm _).countP_eq _

theorem popcount_chunk_xor (a a1 : List Bool) (i b : Nat) (hb : b ≤ 32) :
    popcount (chunkWord a i b ^^^ chunkWord a1 i b)
      = (List.range b).countP (fun j => a.getD (i + j) false != a1.getD (i + j) false) := by
  unfold popcount
  rw [← countP_range_flip (fun j => a.getD (i + j) false != a1.getD (i + j) false) b 32 hb]
  apply List.countP_congr
  intro k _
  rw [Nat.testBit_xor, chunkWord_testBit a i b k hb, chunkWord_testBit a1 i b k hb]
  by_cases hk : k < b <;> simp [hk]

theorem popcount_chunk_and (a a1 : List Bool) (i b : Nat) (hb : b ≤ 32) :
    popcount (chunkWord a i b &&& chunkWord a1 i b)
      = (List.range b).countP (fun j => a.getD (i + j) false && a1.getD (i + j) false) := by
  unfold popcount
  rw [← countP_range_flip (fun j => a.getD (i + j) false && a1.getD (i + j) false) b 32 hb]
  apply List.countP_congr
  intro k _
  rw [Nat.testBit_and, chunkWord_testBit a i b k hb, chunkWord_testBit a1 i b k hb]
  by_cases hk : k < b <;> simp [hk]

/-! ## Packing -/

theorem packLoop_eq (c : Nat) (hc : 0 < c) (cs : List Bool) :
    ∀ (fuel i : Nat) (acc : List Nat), cs.length - i ≤ fuel →
      packLoop c cs fuel i acc
        = some (acc ++ (chunkList c cs.length fuel i).map (fun p => chunkWord cs p.1 p.2)) := by
  intro fuel
  induction fuel with
  | zero =>
    intro i acc h
    have : ¬ i < cs.length := by omega
    simp [packLoop, chunkList, this]
  | succ f ih =>
    intro i acc h
    by_cases hi : i < cs.length
    · simp only [packLoop, chunkList, hi, if_true]
      rw [ih]
      · simp
      · split <;> omega
    · simp [packLoop, chunkList, hi]

theorem ofBools_eq (c : Nat) (hc : 0 < c) (cs : List Bool) :
    vector.ofBools c cs = some
      { size_ := cs.length
        components_ := (chunkList c cs.length cs.length 0).map (fun p => chunkWord cs p.1 p.2) } := by
  unfold vector.ofBools
  rw [packLoop_eq c hc cs cs.length 0 [] (by omega)]
  simp

theorem chunkList_le (c s : Nat) :
    ∀ (fuel i : Nat), ∀ p ∈ chunkList c s fuel i, p.2 ≤ c := by
  intro fuel
  induction fuel with
  | zero => intro i p hp; simp [chunkList] at hp
  | succ f ih =>
    intro i p hp
    by_cases hi : i < s
    · simp only [chunkList, hi, if_true, List.mem_cons] at hp
      rcases hp with rfl | hp
      · simp only; split <;> omega
      · exact ih _ p hp
    · simp [chunkList, hi] at hp

theorem chunkList_countP (c s : Nat) (hc : 0 < c) (D : Nat → Bool) :
    ∀ (fuel i : Nat), s - i ≤ fuel →
      ((chunkList c s fuel i).map (fun p => (List.range p.2).countP (fun j => D (p.1 + j)))).sum
        = (List.range (s - i)).countP (fun j => D (i + j)) := by
  intro fuel
  induction fuel with
  | zero =>
    intro i h
    have : s - i = 0 := by omega
    simp [chunkList, this]
  | succ f ih =>
    intro i h
    by_cases hi : i < s
    · simp only [chunkList, hi, if_true, List.map_cons, List.sum_cons]
      by_cases hic : i + c > s
      · simp only [hic, if_true]
        rw [ih (i + (s - i)) (by omega)]
        have : s - (i + (s - i)) = 0 := by omega
        simp [this]
      · simp only [hic, if_false]
        rw [ih (i + c) (by omega)]
        have hs : s - i = c + (s - (i + c)) := by omega
        rw [hs, List.range_add, List.countP_append, List.countP_map]
        congr 1
        simp only [Function.comp_def, Nat.add_assoc]
    · have : s - i = 0 := by omega
      simp [chunkList, hi, this]

theorem foldl_range_map {α : Type} (g : Nat → Nat → Nat) (f1 f2 : α → Nat) (L : List α) :
    (List.range (L.map f1).length).foldl
        (fun d i => d + g ((L.map f1).getD i 0) ((L.map f2).getD i 0)) 0
      = (L.map (fun p => g (f1 p) (f2 p))).sum := by
  have hsum : ∀ (h : Nat → Nat) (n : Nat),
      (List.range n).foldl (fun d i => d + h i) 0 = ((List.range n).map h).sum := by
    intro h n
    induction n with
    | zero => simp
    | succ n ih => simp [List.range_succ, List.foldl_append, ih]
  rw [hsum (fun i => g ((L.map f1).getD i 0) ((L.map f2).getD i 0))]
  congr 1
  apply List.ext_getElem
  · simp
  · intro n h1 h2
    simp only [List.length_map, List.length_range] at h1 h2
    simp [List.getD_eq_getElem, h1, h2]

theorem distance_packed (c : Nat) (hc : 0 < c) (hc32 : c ≤ 32) (a b : List Bool)
    (hab : a.length = b.length) :
    vector.distance
        { size_ := a.length
          components_ := (chunkList c a.length a.length 0).map (fun p => chunkWord a p.1 p.2) }
        { size_ := b.length
          components_ := (chunkList c b.length b.length 0).map (fun p => chunkWord b p.1 p.2) }
      = .ok (hamming a b) := by
  unfold vector.distance
  simp only [vector.size, hab, ne_eq, not_true_eq_false, if_false]
  rw [foldl_range_map (fun x y => popcount (x ^^^ y))]
  congr 1
  have hmap : (chunkList c b.length b.length 0).map
        (fun p => popcount (chunkWord a p.1 p.2 ^^^ chunkWord b p.1 p.2))
      = (chunkList c b.length b.length 0).map
        (fun p => (List.range p.2).countP
          (fun j => a.getD (p.1 + j) false != b.getD (p.1 + j) false)) := by
    apply List.map_congr_left
    intro p hp
    exact popcount_chunk_xor a b p.1 p.2 (le_trans (chunkList_le c _ _ _ p hp) hc32)
  rw [hmap, chunkList_countP c b.length hc
    (fun j => a.getD j false != b.getD j false) b.length 0 (by omega)]
  simp [hamming, hab]

theorem countP_le_add {α : Type} (p q r : α → Bool) (L : List α)
    (h : ∀ x, p x = true → q x = true ∨ r x = true) :
    L.countP p ≤ L.countP q + L.countP r := by
  induction L with
  | nil => simp
  | cons x L ih =>
    simp only [List.countP_cons]
    have hx := h x
    cases hp : p x <;> cases hq : q x <;> cases hr : r x <;> simp_all <;> omega

theorem distance_ok (u v : vector) (h : u.size = v.size) :
    vector.distance u v = .ok ((List.range u.components_.length).foldl
      (fun d i => d + popcount (u.components_.getD i 0 ^^^ v.components_.getD i 0)) 0) := by
  simp [vector.distance, h]

theorem popcount_xor_triangle (x y w : Nat) :
    popcount (x ^^^ y) ≤ popcount (x ^^^ w) + popcount (w ^^^ y) := by
  unfold popcount
  apply countP_le_add
  intro k
  simp only [Nat.testBit_xor]
  cases x.testBit k <;> cases y.testBit k <;> cases w.testBit k <;> simp

theorem foldl_range_le (f g h : Nat → Nat) (hle : ∀ i, f i ≤ g i + h i) (n : Nat) :
    (List.range n).foldl (fun d i => d + f i) 0
      ≤ (List.range n).foldl (fun d i => d + g i) 0
        + (List.range n).foldl (fun d i => d + h i) 0 := by
  induction n with
  | zero => simp
  | succ n ih =>
    simp only [List.range_succ, List.foldl_append, List.foldl_cons, List.foldl_nil]
    have := hle n
    omega

/-- C10: for vectors `u`, `v`, `w` of equal size, each holding
`ceil(size / c)` words, the three distances are defined and
`distance(u, v) <= distance(u, w) + distance(w, v)`. -/
theorem distance_triangle (c : Nat) (u v w : vector)
    (huv : u.size = v.size) (huw : u.size = w.size)
    (hu : u.components_.length = (u.size + c - 1) / c)
    (hv : v.components_.length = (v.size + c - 1) / c)
    (hw : w.components_.length = (w.size + c - 1) / c) :
    ∃ duv duw dwv, vector.distance u v = .ok duv ∧ vector.distance u w = .ok duw ∧
      vector.distance w v = .ok dwv ∧ duv ≤ duw + dwv := by
  have hlen : w.components_.length = u.components_.length := by rw [hu, hw, huw]
  have _hlen : v.components_.length = u.components_.length := by rw [hu, hv, huv]
  have hwv : w.size = v.size := by rw [← huw, huv]
  refine ⟨_, _, _, distance_ok u v huv, distance_ok u w huw, distance_ok w v hwv, ?_⟩
  rw [hlen]
  exact foldl_range_le _ _ _ (fun i => popcount_xor_triangle _ _ _) _

/-- Witness of C10 at width 32 for three vectors of 40 bits in two words. -/
theorem distance_triangle_witness :
    ((⟨40, [5, 255]⟩ : vector).size = (⟨40, [4294967295, 0]⟩ : vector).size ∧
      (⟨40, [5, 255]⟩ : vector).size = (⟨40, [6, 1]⟩ : vector).size ∧
      (⟨40, [5, 255]⟩ : vector).components_.length = (40 + 32 - 1) / 32) ∧
    ∃ duv duw dwv,
      vector.distance ⟨40, [5, 255]⟩ ⟨40, [4294967295, 0]⟩ = .ok duv ∧
      vector.distance ⟨40, [5, 255]⟩ ⟨40, [6, 1]⟩ = .ok duw ∧
      vector.distance ⟨40, [6, 1]⟩ ⟨40, [4294967295, 0]⟩ = .ok dwv ∧ duv ≤ duw + dwv :=
  ⟨by decide,
    distance_triangle 32 ⟨40, [5, 255]⟩ ⟨40, [4294967295, 0]⟩ ⟨40, [6, 1]⟩
      (by decide) (by decide) (by decide) (by decide) (by decide)⟩

/-- C6 (the accessor at a vector of three words): for the 96-bit sequence whose
only 1-bit is at position 32, packed with width 32, `get(32)` answers `false`
although bit 32 of the sequence is `true`. -/
theorem get_second_word_misread :
    vector.ofBools 32 (List.replicate 32 false ++ true :: List.replicate 63 false)
      = some ⟨96, [0, 2147483648, 0]⟩ ∧
    vector.get 32 ⟨96, [0, 2147483648, 0]⟩ 32 = .ok false ∧
    (List.replicate 32 false ++ true :: List.replicate 63 false).getD 32 false = true := by
  refine ⟨by decide, by decide, by decide⟩

/-! ## Bucket maps -/

theorem push_keys (p : partition) (k u : Nat) :
    (partition.push p k u).map (fun it => it.1)
      = if k ∈ p.map (fun it => it.1) then p.map (fun it => it.1)
        else p.map (fun it => it.1) ++ [k] := by
  induction p with
  | nil => simp [partition.push]
  | cons hd tl ih =>
    obtain ⟨k0, b⟩ := hd
    by_cases h : k0 = k
    · subst h; simp [partition.push]
    · have h1 : ¬ k = k0 := fun e => h e.symm
      simp only [partition.push, h, if_false, List.map_cons, ih, List.mem_cons, h1, false_or]
      split <;> simp

theorem push_keys_nodup (p : partition) (k u : Nat) (h : (p.map (fun it => it.1)).Nodup) :
    ((partition.push p k u).map (fun it => it.1)).Nodup := by
  rw [push_keys]
  split
  · exact h
  · rename_i hk
    rw [List.nodup_append]
    refine ⟨h, by simp, ?_⟩
    intro a ha hb
    simp only [List.mem_singleton] at hb
    subst hb
    exact hk ha

theorem push_ids (p : partition) (k u : Nat) :
    (partition.ids (partition.push p k u)).Perm (u :: partition.ids p) := by
  induction p with
  | nil => simp [partition.push, partition.ids]
  | cons hd tl ih =>
    obtain ⟨k0, b⟩ := hd
    by_cases h : k0 = k
    · subst h
      simp only [partition.push, if_true, partition.ids, List.map_cons, List.flatten_cons,
        List.append_assoc]
      exact List.perm_middle
    · simp only [partition.push, h, if_false, partition.ids, List.map_cons, List.flatten_cons]
      have ih1 : ((partition.push tl k u).map (fun it => it.2)).flatten.Perm
          (u :: (tl.map (fun it => it.2)).flatten) := ih
      exact ((List.Perm.append_left b ih1).trans List.perm_middle)

theorem push_mem (p : partition) (k u : Nat) :
    ∀ it ∈ partition.push p k u, ∀ x ∈ it.2,
      (x = u ∧ it.1 = k) ∨ ∃ it0 ∈ p, it0.1 = it.1 ∧ x ∈ it0.2 := by
  induction p with
  | nil =>
    intro it hit x hx
    simp only [partition.push, List.mem_singleton] at hit
    subst hit
    simp only [List.mem_singleton] at hx
    exact Or.inl ⟨hx, rfl⟩
  | cons hd tl ih =>
    obtain ⟨k0, b⟩ := hd
    intro it hit x hx
    by_cases h : k0 = k
    · subst h
      simp only [partition.push, if_true, List.mem_cons] at hit
      rcases hit with rfl | hit
      · simp only [List.mem_append, List.mem_singleton] at hx
        rcases hx with hx | hx
        · exact Or.inr ⟨(k0, b), by simp, rfl, hx⟩
        · exact Or.inl ⟨hx, rfl⟩
      · exact Or.inr ⟨it, by simp [hit], rfl, hx⟩
    · simp only [partition.push, h, if_false, List.mem_cons] at hit
      rcases hit with rfl | hit
      · exact Or.inr ⟨(k0, b), by simp, rfl, hx⟩
      · rcases ih it hit x hx with h1 | ⟨it0, h0, h1, h2⟩
        · exact Or.inl h1
        · exact Or.inr ⟨it0, by simp [h0], h1, h2⟩

theorem push_find (p : partition) (k u : Nat) :
    ∃ b, partition.find (partition.push p k u) k = some b ∧ u ∈ b := by
  induction p with
  | nil => exact ⟨[u], by simp [partition.push, partition.find]⟩
  | cons hd tl ih =>
    obtain ⟨k0, b⟩ := hd
    by_cases h : k0 = k
    · subst h
      exact ⟨b ++ [u], by simp [partition.push, partition.find]⟩
    · obtain ⟨b1, h1, h2⟩ := ih
      refine ⟨b1, ?_, h2⟩
      simp only [partition.find] at h1
      simp [partition.push, partition.find, h, h1]

/-! ## The table invariant -/

theorem and_ok (m v : vector) (h : m.size = v.size) :
    vector.and m v = .ok (vector.ofChunks
      ((List.range m.components_.length).map
        (fun i => m.components_.getD i 0 &&& v.components_.getD i 0)) m.size_) := by
  simp [vector.and, h]

theorem store_insert_fresh (vs : store) (u : Nat) (v : vector)
    (hu : u ∉ vs.map (fun it => it.1)) : store.insert vs u v = vs ++ [(u, v)] := by
  unfold store.insert
  have : vs.any (fun it => it.1 == u) = false := by
    rw [Bool.eq_false_iff]
    intro h
    simp only [List.any_eq_true, beq_iff_eq] at h
    obtain ⟨it, hit, rfl⟩ := h
    exact hu (List.mem_map_of_mem _ hit)
  simp [this]

theorem insertLoop_inv (hasher : Nat → Nat) (vs : store) (v : vector) (u : Nat)
    (masks : List vector) (parts : List partition)
    (hsize : ∀ m ∈ masks, m.size = v.size)
    (h : List.Forall₂ (partition.Inv hasher vs) masks parts) :
    (table.insertLoop hasher v u masks parts).1 = .ok () ∧
      List.Forall₂ (partition.Inv hasher (vs ++ [(u, v)])) masks
        (table.insertLoop hasher v u masks parts).2 ∧
      List.Forall₂ (fun m p => ∃ k b, vector.and m v = .ok k ∧
          partition.find p (vector.hash hasher k) = some b ∧ u ∈ b) masks
        (table.insertLoop hasher v u masks parts).2 := by
  induction h with
  | nil => simp [table.insertLoop]
  | @cons m p ms ps hmp _ ih =>
    have hm : m.size = v.size := hsize m (by simp)
    obtain ⟨ih1, ih2, ih3⟩ := ih (fun m0 h0 => hsize m0 (by simp [h0]))
    simp only [table.insertLoop, and_ok m v hm]
    refine ⟨ih1, List.Forall₂.cons ?_ ih2, List.Forall₂.cons ?_ ih3⟩
    · obtain ⟨hk, hper, hmem⟩ := hmp
      refine ⟨push_keys_nodup p _ u hk, ?_, ?_⟩
      · refine (push_ids p _ u).trans ?_
        rw [List.map_append]
        exact ((List.Perm.cons u hper).trans (List.perm_append_singleton u _).symm)
      · intro it hit x hx
        rcases push_mem p _ u it hit x hx with ⟨rfl, hkey⟩ | ⟨it0, h0, h1, h2⟩
        · exact ⟨v, _, by simp, and_ok m v hm, hkey⟩
        · obtain ⟨w, k, hw, hand, hkey⟩ := hmem it0 h0 x h2
          exact ⟨w, k, by simp [hw], hand, h1 ▸ hkey⟩
    · obtain ⟨b, hb1, hb2⟩ := push_find p
        (vector.hash hasher (vector.ofChunks
          ((List.range m.components_.length).map
            (fun i => m.components_.getD i 0 &&& v.components_.getD i 0)) m.size_)) u
      exact ⟨_, b, and_ok m v hm, hb1, hb2⟩

theorem insert_inv (hasher : Nat → Nat) (t : table) (v : vector) (hI : table.Inv hasher t)
    (hv : v.size = t.dimensions_) (hu : t.next_id_ ∉ t.vectors_.map (fun it => it.1)) :
    (table.insert hasher t v).1 = .ok () ∧ table.Inv hasher (table.insert hasher t v).2 ∧
      (table.insert hasher t v).2.vectors_ = t.vectors_ ++ [(t.next_id_, v)] ∧
      (table.insert hasher t v).2.masks_ = t.masks_ ∧
      (table.insert hasher t v).2.dimensions_ = t.dimensions_ ∧
      (table.insert hasher t v).2.next_id_ = (t.next_id_ + 1) % 2 ^ 32 ∧
      List.Forall₂ (fun m p => ∃ k b, vector.and m v = .ok k ∧
          partition.find p (vector.hash hasher k) = some b ∧ t.next_id_ ∈ b) t.masks_
        (table.insert hasher t v).2.partitions_ := by
  obtain ⟨h1, h2, h3⟩ := insertLoop_inv hasher t.vectors_ v t.next_id_ t.masks_ t.partitions_
    (fun m hm => (hI.masks_size m hm).trans hv.symm) hI.parts
  have hne : ¬ t.dimensions_ ≠ v.size := fun h => h hv.symm
  simp only [table.insert, hne, if_false, store_insert_fresh _ _ _ hu]
  refine ⟨h1, ⟨hI.masks_size, ?_, ?_, h2⟩, trivial, trivial, trivial, trivial, h3⟩
  · simp only [List.map_append, List.map_cons, List.map_nil]
    rw [List.nodup_append]
    refine ⟨hI.keys_nodup, by simp, ?_⟩
    intro a ha hb
    simp only [List.mem_singleton] at hb
    subst hb
    exact hu ha
  · intro it hit
    simp only [List.mem_append, List.mem_singleton] at hit
    rcases hit with hit | rfl
    · exact hI.vec_size it hit
    · exact hv

theorem erase_ids (p : partition) (u : Nat) (h : (partition.ids p).Nodup) :
    partition.ids (p.map (fun it => (it.1, it.2.erase u)))
      = (partition.ids p).filter (fun x => x != u) := by
  induction p with
  | nil => simp [partition.ids]
  | cons hd tl ih =>
    simp only [partition.ids, List.map_cons, List.flatten_cons, List.filter_append] at h ⊢
    rw [List.nodup_append] at h
    obtain ⟨h1, h2, _⟩ := h
    have ih1 := ih h2
    simp only [partition.ids] at ih1
    rw [ih1, List.Nodup.erase_eq_filter h1]

theorem erase_keys (vs : store) (u : Nat) :
    (store.erase vs u).map (fun it => it.1)
      = (vs.map (fun it => it.1)).filter (fun x => x != u) := by
  unfold store.erase
  induction vs with
  | nil => simp
  | cons hd tl ih =>
    by_cases h : hd.1 = u
    · simp [h, ih]
    · simp [h, ih]

theorem erase_part_inv (hasher : Nat → Nat) (vs : store) (u : Nat) (m : vector) (p : partition)
    (hvs : (vs.map (fun it => it.1)).Nodup) (h : partition.Inv hasher vs m p) :
    partition.Inv hasher (store.erase vs u) m (p.map (fun it => (it.1, it.2.erase u))) := by
  obtain ⟨hk, hper, hmem⟩ := h
  have hnd : (partition.ids p).Nodup := hper.nodup_iff.mpr hvs
  refine ⟨?_, ?_, ?_⟩
  · simpa [List.map_map, Function.comp_def] using hk
  · rw [erase_ids p u hnd, erase_keys]
    exact hper.filter _
  · intro it hit x hx
    simp only [List.mem_map] at hit
    obtain ⟨it0, h0, rfl⟩ := hit
    simp only at hx ⊢
    have hb : it0.2.Nodup := by
      have hsub : List.Sublist it0.2 (partition.ids p) := by
        unfold partition.ids
        exact List.sublist_flatten_of_mem (List.mem_map_of_mem _ h0)
      exact hsub.nodup hnd
    rw [hb.mem_erase_iff] at hx
    obtain ⟨w, k, hw, hand, hkey⟩ := hmem it0 h0 x hx.2
    refine ⟨w, k, ?_, hand, hkey⟩
    simp only [store.erase, List.mem_filter, hw, true_and]
    simpa using hx.1

theorem erase_inv (hasher : Nat → Nat) (t : table) (v : vector) (hI : table.Inv hasher t) :
    table.Inv hasher (table.erase t v).2 := by
  unfold table.erase
  split
  · exact hI
  · refine ⟨hI.masks_size, ?_, ?_, ?_⟩
    · simp only
      rw [erase_keys]
      exact hI.keys_nodup.filter _
    · intro it hit
      simp only [store.erase, List.mem_filter] at hit
      exact hI.vec_size it hit.1
    · simp only
      rw [List.forall₂_map_right_iff]
      exact hI.parts.imp (fun m p hmp => erase_part_inv hasher _ _ m p hI.keys_nodup hmp)

/-! ## Construction -/

theorem ofBools_size (c : Nat) (bs : List Bool) (v : vector)
    (h : vector.ofBools c bs = some v) : v.size = bs.length := by
  unfold vector.ofBools at h
  simp only [Option.map_eq_some'] at h
  obtain ⟨ws, _, rfl⟩ := h
  rfl

theorem classicBits_length (d s : Nat) (draw : Nat → Nat) :
    (classicBits d s draw).length = d := by
  unfold classicBits
  have : ∀ (L : List Nat) (cs : List Bool),
      (L.foldl (fun cs k => cs.set (draw k) true) cs).length = cs.length := by
    intro L
    induction L with
    | nil => intro cs; rfl
    | cons k L ih => intro cs; simp [ih]
  rw [this]
  simp

theorem classicMasks_size (c d s : Nat) (draws : Nat → Nat → Nat) :
    ∀ (is : List Nat) (ms : List vector), classicMasks c d s draws is = some ms →
      ∀ m ∈ ms, m.size = d := by
  intro is
  induction is with
  | nil =>
    intro ms h m hm
    simp only [classicMasks, Option.some.injEq] at h
    subst h
    simp at hm
  | cons i is ih =>
    intro ms h m hm
    simp only [classicMasks] at h
    split at h
    · simp at h
    · rename_i m0 h0
      split at h
      · simp at h
      · rename_i ms0 h1
        simp only [Option.some.injEq] at h
        subst h
        simp only [List.mem_cons] at hm
        rcases hm with rfl | hm
        · rw [ofBools_size c _ _ h0, classicBits_length]
        · exact ih ms0 h1 m hm

theorem coveringSelectors_length (c x : Nat) (sel : Nat → Nat → Bool) :
    ∀ (js : List Nat) (m : List vector), coveringSelectors c x sel js = some m →
      m.length = js.length := by
  intro js
  induction js with
  | nil =>
    intro m h
    simp only [coveringSelectors, Option.some.injEq] at h
    subst h
    rfl
  | cons j js ih =>
    intro m h
    simp only [coveringSelectors] at h
    split at h
    · simp at h
    · split at h
      · simp at h
      · rename_i ms0 h1
        simp only [Option.some.injEq] at h
        subst h
        simp [ih ms0 h1]

theorem coveringRow_length (c : Nat) (v : List Bool) :
    ∀ (m : List vector) (bs : List Bool), coveringRow c v m = some (.ok bs) →
      bs.length = m.length := by
  intro m
  induction m with
  | nil =>
    intro bs h
    simp only [coveringRow, Option.some.injEq, Except.ok.injEq] at h
    subst h
    rfl
  | cons mj ms ih =>
    intro bs h
    simp only [coveringRow] at h
    split at h
    · simp at h
    · split at h
      · simp at h
      · split at h
        · simp at h
        · simp at h
        · rename_i bs0 h1
          simp only [Option.some.injEq, Except.ok.injEq] at h
          subst h
          simp [ih bs0 h1]

theorem coveringMasks_size (c x : Nat) (m : List vector) :
    ∀ (is : List Nat) (ms : List vector), coveringMasks c x m is = some (.ok ms) →
      ∀ mask ∈ ms, mask.size = m.length := by
  intro is
  induction is with
  | nil =>
    intro ms h mask hm
    simp only [coveringMasks, Option.some.injEq, Except.ok.injEq] at h
    subst h
    simp at hm
  | cons i is ih =>
    intro ms h mask hm
    simp only [coveringMasks] at h
    split at h
    · simp at h
    · simp at h
    · rename_i cb h0
      split at h
      · simp at h
      · rename_i mask0 h1
        split at h
        · simp at h
        · simp at h
        · rename_i rest h2
          simp only [Option.some.injEq, Except.ok.injEq] at h
          subst h
          simp only [List.mem_cons] at hm
          rcases hm with rfl | hm
          · rw [ofBools_size c _ _ h1, coveringRow_length c _ m cb h0]
          · exact ih rest h2 mask hm

theorem built_initial (c : Nat) (t : table) (h : table.Built c t) : table.Initial t := by
  rcases h with ⟨d, h⟩ | ⟨d, r, sel, h⟩ | ⟨d, s, p, draws, h⟩
  · simp only [table.brute, Option.map_eq_some'] at h
    obtain ⟨m, hm, rfl⟩ := h
    refine ⟨rfl, rfl, rfl, ?_⟩
    intro m0 h0
    simp only [List.mem_singleton] at h0
    subst h0
    simp [ofBools_size c _ _ hm]
  · simp only [table.covering] at h
    split at h
    · simp at h
    · rename_i m hm
      split at h
      · simp at h
      · simp at h
      · rename_i masks h1
        simp only [Option.some.injEq, Except.ok.injEq] at h
        subst h
        refine ⟨rfl, rfl, rfl, ?_⟩
        intro m0 h0
        rw [coveringMasks_size c _ m _ masks h1 m0 h0,
          coveringSelectors_length c _ sel _ m hm]
        simp
  · simp only [table.classic, Option.map_eq_some'] at h
    obtain ⟨ms, hms, rfl⟩ := h
    exact ⟨rfl, rfl, rfl, classicMasks_size c d s draws _ ms hms⟩

theorem initial_inv (hasher : Nat → Nat) (t : table) (h : table.Initial t) :
    table.Inv hasher t := by
  obtain ⟨h1, _, h3, h4⟩ := h
  refine ⟨h4, by simp [h1], by simp [h1], ?_⟩
  rw [h3, h1, List.forall₂_map_right_iff]
  apply List.forall₂_same.mpr
  intro m _
  exact ⟨by simp, by simp [partition.ids], by simp⟩

/-! ## Sequences of calls -/

theorem erase_fields (t : table) (v : vector) :
    (table.erase t v).2.masks_ = t.masks_ ∧
      (table.erase t v).2.dimensions_ = t.dimensions_ ∧
      (table.erase t v).2.next_id_ = t.next_id_ ∧
      ∀ it ∈ (table.erase t v).2.vectors_, it ∈ t.vectors_ := by
  unfold table.erase
  split
  · exact ⟨rfl, rfl, rfl, fun _ h => h⟩
  · refine ⟨rfl, rfl, rfl, ?_⟩
    intro it hit
    simp only [store.erase, List.mem_filter] at hit
    exact hit.1

theorem run_inv (hasher : Nat → Nat) :
    ∀ (ops : List Op) (t : table) (k : Nat), table.Inv hasher t →
      (∀ it ∈ t.vectors_, it.1 < k) → t.next_id_ = k % 2 ^ 32 → k + inserts ops ≤ 2 ^ 32 →
      ∃ k1, k1 ≤ k + inserts ops ∧
        table.Inv hasher (table.run hasher t ops) ∧
        (∀ it ∈ (table.run hasher t ops).vectors_, it.1 < k1) ∧
        (table.run hasher t ops).next_id_ = k1 % 2 ^ 32 ∧
        (table.run hasher t ops).masks_ = t.masks_ ∧
        (table.run hasher t ops).dimensions_ = t.dimensions_ := by
  intro ops
  induction ops with
  | nil =>
    intro t k hI hk hn _
    exact ⟨k, by simp [inserts], hI, hk, hn, rfl, rfl⟩
  | cons op ops ih =>
    intro t k hI hk hn hle
    cases op with
    | insert v =>
      have hins : inserts (Op.insert v :: ops) = inserts ops + 1 := by
        simp [inserts, List.countP_cons]
      rw [hins] at hle
      by_cases hv : v.size = t.dimensions_
      · have hk32 : k < 2 ^ 32 := by omega
        have hnk : t.next_id_ = k := by rw [hn, Nat.mod_eq_of_lt hk32]
        have hfresh : t.next_id_ ∉ t.vectors_.map (fun it => it.1) := by
          intro hmem
          simp only [List.mem_map] at hmem
          obtain ⟨it, hit, he⟩ := hmem
          have := hk it hit
          omega
        obtain ⟨_, h2, h3, h4, h5, h6, _⟩ := insert_inv hasher t v hI hv hfresh
        obtain ⟨k1, hk1, hI1, hlt1, hn1, hm1, hd1⟩ :=
          ih (table.insert hasher t v).2 (k + 1) h2
            (by
              intro it hit
              rw [h3] at hit
              simp only [List.mem_append, List.mem_singleton] at hit
              rcases hit with hit | rfl
              · have := hk it hit; omega
              · simp only; omega)
            (by rw [h6, hnk]) (by omega)
        refine ⟨k1, by omega, hI1, hlt1, hn1, ?_, ?_⟩
        · simp only [table.run, List.foldl_cons, table.step] at hm1 ⊢
          rw [hm1, h4]
        · simp only [table.run, List.foldl_cons, table.step] at hd1 ⊢
          rw [hd1, h5]
      · have hne : t.dimensions_ ≠ v.size := fun h => hv h.symm
        have hstep : (table.insert hasher t v).2 = t := by simp [table.insert, hne]
        obtain ⟨k1, hk1, hI1, hlt1, hn1, hm1, hd1⟩ := ih t k hI hk hn (by omega)
        refine ⟨k1, by omega, ?_⟩
        simp only [table.run, List.foldl_cons, table.step, hstep]
        exact ⟨hI1, hlt1, hn1, hm1, hd1⟩
    | erase v =>
      have hins : inserts (Op.erase v :: ops) = inserts ops := by
        simp [inserts, List.countP_cons]
      rw [hins] at hle ⊢
      obtain ⟨e1, e2, e3, e4⟩ := erase_fields t v
      obtain ⟨k1, hk1, hI1, hlt1, hn1, hm1, hd1⟩ :=
        ih (table.erase t v).2 k (erase_inv hasher t v hI)
          (fun it hit => hk it (e4 it hit)) (by rw [e3, hn]) hle
      refine ⟨k1, hk1, hI1, hlt1, hn1, ?_, ?_⟩
      · simp only [table.run, List.foldl_cons, table.step] at hm1 ⊢
        rw [hm1, e1]
      · simp only [table.run, List.foldl_cons, table.step] at hd1 ⊢
        rw [hd1, e2]

theorem reach_inv (hasher : Nat → Nat) (c : Nat) (t0 : table) (ops : List Op)
    (hb : table.Built c t0) (hn : inserts ops ≤ 2 ^ 32) :
    ∃ k, k ≤ inserts ops ∧
      table.Inv hasher (table.run hasher t0 ops) ∧
      (∀ it ∈ (table.run hasher t0 ops).vectors_, it.1 < k) ∧
      (table.run hasher t0 ops).next_id_ = k % 2 ^ 32 ∧
      (table.run hasher t0 ops).masks_ = t0.masks_ ∧
      (table.run hasher t0 ops).dimensions_ = t0.dimensions_ := by
  have hi := built_initial c t0 hb
  obtain ⟨k, h1, h2⟩ := run_inv hasher ops t0 0 (initial_inv hasher t0 hi)
    (by simp [hi.1]) (by simp [hi.2.1]) (by omega)
  exact ⟨k, by omega, h2⟩

/-! ## Statistics -/

theorem stats_fold (ps : List partition) (a b : Nat) :
    ps.foldl
        (fun (acc : Nat × Nat) p =>
          (acc.1 + p.length, p.foldl (fun vs it => vs + it.2.length) acc.2)) (a, b)
      = (a + (ps.map List.length).sum,
          b + (ps.map (fun p => (partition.ids p).length)).sum) := by
  have inner : ∀ (p : partition) (b : Nat),
      p.foldl (fun vs it => vs + it.2.length) b = b + (partition.ids p).length := by
    intro p
    induction p with
    | nil => intro b; simp [partition.ids]
    | cons hd tl ih =>
      intro b
      simp only [List.foldl_cons, ih, partition.ids, List.map_cons, List.flatten_cons,
        List.length_append]
      omega
  simp only [inner]
  induction ps generalizing a b with
  | nil => simp
  | cons p ps ih =>
    simp only [List.foldl_cons, ih, List.map_cons, List.sum_cons]
    congr 1 <;> omega

theorem stats_of_inv (hasher : Nat → Nat) (t : table) (hI : table.Inv hasher t) :
    (table.stats t).vectors = (table.stats t).partitions * table.size t := by
  simp only [table.stats, stats_fold, table.size, Nat.zero_add]
  have h := hI.parts
  generalize t.masks_ = ms at h
  generalize t.partitions_ = ps at h
  induction h with
  | nil => simp
  | @cons m p ms ps hmp _ ih =>
    have hl : (partition.ids p).length = t.vectors_.length := by
      rw [hmp.2.1.length_eq, List.length_map]
    simp only [List.map_cons, List.sum_cons, List.length_cons, ih, hl]
    ring

/-! ## The identifier counter after `2 ^ 32` insertions -/

theorem wrap_and_one : vector.and ⟨8, [0]⟩ ⟨8, [1]⟩ = .ok ⟨8, [0]⟩ := by decide

theorem wrap_hash_zero : vector.hash id ⟨8, [0]⟩ = 0 := by decide

theorem wrap_eq_170_1 : vector.eq ⟨8, [170]⟩ ⟨8, [1]⟩ = false := by decide

theorem wrap_eq_1_1 : vector.eq ⟨8, [1]⟩ ⟨8, [1]⟩ = true := by decide

theorem churn_step (k : Nat) (h0 : 0 < k) (h1 : k < 2 ^ 32) :
    table.run id (wrapState k) [Op.insert ⟨8, [1]⟩, Op.erase ⟨8, [1]⟩]
      = wrapState ((k + 1) % 2 ^ 32) := by
  have hk : ¬ (0 = k) := by omega
  have hk' : ¬ (k = 0) := by omega
  simp [table.run, table.step, table.insert, table.erase, wrapState, vector.size,
    table.insertLoop, wrap_and_one, wrap_hash_zero, partition.push,
    store.insert, store.erase, table.findId, wrap_eq_170_1, wrap_eq_1_1, hk, hk']

/-! ## Query -/

theorem scan_append (vs : store) (v : vector) (b1 b2 : bucket) :
    ∀ best, table.scanBucket vs v (b1 ++ b2) best
      = match table.scanBucket vs v b1 best with
        | .error e => .error e
        | .ok best1 => table.scanBucket vs v b2 best1 := by
  induction b1 with
  | nil => intro best; simp [table.scanBucket]
  | cons u us ih =>
    intro best
    simp only [List.cons_append, table.scanBucket]
    cases store.at vs u with
    | error e => rfl
    | ok c =>
      simp only
      cases vector.distance v c with
      | error e => rfl
      | ok d =>
        simp only
        split <;> exact ih _

theorem queryLoop_eq_scan (hasher : Nat → Nat) (vs : store) (v : vector) :
    ∀ (masks : List vector) (parts : List partition), masks.length = parts.length →
      (∀ m ∈ masks, m.size = v.size) →
      ∀ best, table.queryLoop hasher vs v masks parts best
        = table.scanBucket vs v (table.candidates hasher v masks parts) best := by
  intro masks
  induction masks with
  | nil =>
    intro parts hl _ best
    cases parts with
    | nil => simp [table.queryLoop, table.candidates, table.scanBucket]
    | cons p ps => simp at hl
  | cons m ms ih =>
    intro parts hl hs best
    cases parts with
    | nil => simp at hl
    | cons p ps =>
      have hm : m.size = v.size := hs m (by simp)
      have hl1 : ms.length = ps.length := by simpa using hl
      have hs1 : ∀ m0 ∈ ms, m0.size = v.size := fun m0 h0 => hs m0 (by simp [h0])
      simp only [table.queryLoop, table.candidates, and_ok m v hm, scan_append]
      cases partition.find p (vector.hash hasher (vector.ofChunks
          ((List.range m.components_.length).map
            (fun i => m.components_.getD i 0 &&& v.components_.getD i 0)) m.size_)) with
      | none => simp [table.scanBucket, ih ps hl1 hs1]
      | some b =>
        simp only [Option.getD_some]
        cases table.scanBucket vs v b best with
        | error e => rfl
        | ok best1 => exact ih ps hl1 hs1 best1

theorem store_at_of_mem (vs : store) (u : Nat) (w : vector)
    (hnd : (vs.map (fun it => it.1)).Nodup) (h : (u, w) ∈ vs) : store.at vs u = .ok w := by
  induction vs with
  | nil => simp at h
  | cons hd tl ih =>
    simp only [List.map_cons, List.nodup_cons] at hnd
    simp only [List.mem_cons] at h
    rcases h with rfl | h
    · simp [store.at]
    · have hne : ¬ hd.1 = u := by
        intro he
        exact hnd.1 (he ▸ List.mem_map_of_mem (fun it => it.1) h)
      have := ih hnd.2 h
      simp only [store.at] at this ⊢
      simp [List.find?_cons, hne, this]

theorem scan_spec (vs : store) (v : vector) (L : List Nat)
    (hL : ∀ u ∈ L, ∃ w, store.at vs u = .ok w ∧ w.size = v.size) :
    ∀ best, ∃ best1, table.scanBucket vs v L best = .ok best1 ∧ best1.2 ≤ best.2 ∧
      (best1 = best ∨ ∃ u ∈ L, ∃ w, store.at vs u = .ok w ∧ best1.1 = some w ∧
        vector.distance v w = .ok best1.2) ∧
      (∀ u ∈ L, ∀ w d, store.at vs u = .ok w → vector.distance v w = .ok d → best1.2 ≤ d) := by
  induction L with
  | nil =>
    intro best
    exact ⟨best, by simp [table.scanBucket], le_refl _, Or.inl rfl, by simp⟩
  | cons u us ih =>
    intro best
    obtain ⟨w, hat, hw⟩ := hL u (by simp)
    have hd := distance_ok v w hw.symm
    have ih1 := ih (fun x hx => hL x (by simp [hx]))
    simp only [table.scanBucket, hat, hd]
    split
    · rename_i hlt
      obtain ⟨best1, h1, h2, h3, h4⟩ := ih1 (some w, _)
      refine ⟨best1, h1, by simp only at h2; omega, ?_, ?_⟩
      · rcases h3 with rfl | ⟨x, hx, w1, hx1, hx2, hx3⟩
        · exact Or.inr ⟨u, by simp, w, hat, rfl, hd⟩
        · exact Or.inr ⟨x, by simp [hx], w1, hx1, hx2, hx3⟩
      · intro x hx w1 d1 hx1 hx2
        simp only [List.mem_cons] at hx
        rcases hx with rfl | hx
        · rw [hat] at hx1
          cases hx1
          rw [hd] at hx2
          cases hx2
          exact h2
        · exact h4 x hx w1 d1 hx1 hx2
    · rename_i hge
      obtain ⟨best1, h1, h2, h3, h4⟩ := ih1 best
      refine ⟨best1, h1, h2, ?_, ?_⟩
      · rcases h3 with rfl | ⟨x, hx, w1, hx1, hx2, hx3⟩
        · exact Or.inl rfl
        · exact Or.inr ⟨x, by simp [hx], w1, hx1, hx2, hx3⟩
      · intro x hx w1 d1 hx1 hx2
        simp only [List.mem_cons] at hx
        rcases hx with rfl | hx
        · rw [hat] at hx1
          cases hx1
          rw [hd] at hx2
          cases hx2
          omega
        · exact h4 x hx w1 d1 hx1 hx2

theorem find_mem (p : partition) (k : Nat) (b : bucket) (h : partition.find p k = some b) :
    (k, b) ∈ p := by
  unfold partition.find at h
  simp only [Option.map_eq_some'] at h
  obtain ⟨it, hit, rfl⟩ := h
  have h1 := List.find?_some hit
  have h2 := List.mem_of_find?_eq_some hit
  simp only [beq_iff_eq] at h1
  subst h1
  exact h2

theorem candidates_stored (hasher : Nat → Nat) (vs : store) (v : vector)
    (masks : List vector) (parts : List partition)
    (h : List.Forall₂ (partition.Inv hasher vs) masks parts) :
    ∀ u ∈ table.candidates hasher v masks parts, ∃ w, (u, w) ∈ vs := by
  induction h with
  | nil => intro u hu; simp [table.candidates] at hu
  | @cons m p ms ps hmp _ ih =>
    intro u hu
    simp only [table.candidates, List.mem_append] at hu
    rcases hu with hu | hu
    · cases hand : vector.and m v with
      | error e => simp [hand] at hu
      | ok k =>
        simp only [hand] at hu
        cases hf : partition.find p (vector.hash hasher k) with
        | none => simp [hf] at hu
        | some b =>
          simp only [hf, Option.getD_some] at hu
          obtain ⟨w, _, hw, _⟩ := hmp.2.2 _ (find_mem p _ b hf) u hu
          exact ⟨w, hw⟩
    · exact ih u hu

theorem query_spec (hasher : Nat → Nat) (t : table) (v : vector) (hI : table.Inv hasher t)
    (hv : v.size = t.dimensions_) :
    ∃ best, table.scanBucket t.vectors_ v
        (table.candidates hasher v t.masks_ t.partitions_) (none, UINT_MAX) = .ok best ∧
      table.query hasher t v
        = .ok (match best.1 with | some c => c | none => vector.ofChunks [] 0) ∧
      ((best.1 = none ∧ best.2 = UINT_MAX) ∨
        ∃ u w, (u, w) ∈ t.vectors_ ∧ best.1 = some w ∧ vector.distance v w = .ok best.2) ∧
      (∀ u ∈ table.candidates hasher v t.masks_ t.partitions_, ∀ w, (u, w) ∈ t.vectors_ →
        ∃ d, vector.distance v w = .ok d ∧ best.2 ≤ d) := by
  have hat : ∀ u w, (u, w) ∈ t.vectors_ → store.at t.vectors_ u = .ok w :=
    fun u w h => store_at_of_mem _ u w hI.keys_nodup h
  have hL : ∀ u ∈ table.candidates hasher v t.masks_ t.partitions_,
      ∃ w, store.at t.vectors_ u = .ok w ∧ w.size = v.size := by
    intro u hu
    obtain ⟨w, hw⟩ := candidates_stored hasher _ v _ _ hI.parts u hu
    exact ⟨w, hat u w hw, (hI.vec_size _ hw).trans hv.symm⟩
  obtain ⟨best, h1, _, h3, h4⟩ := scan_spec t.vectors_ v _ hL (none, UINT_MAX)
  refine ⟨best, h1, ?_, ?_, ?_⟩
  · have hne : ¬ t.dimensions_ ≠ v.size := fun h => h hv.symm
    simp only [table.query, hne, if_false]
    rw [queryLoop_eq_scan hasher _ v _ _ hI.parts.length_eq
      (fun m hm => (hI.masks_size m hm).trans hv.symm), h1]
    obtain ⟨b1, b2⟩ := best
    cases b1 <;> rfl
  · rcases h3 with rfl | ⟨u, hu, w, hw1, hw2, hw3⟩
    · exact Or.inl ⟨rfl, rfl⟩
    · obtain ⟨w1, hw4⟩ := candidates_stored hasher _ v _ _ hI.parts u hu
      have := hat u w1 hw4
      rw [hw1] at this
      cases this
      exact Or.inr ⟨u, w, hw4, hw2, hw3⟩
  · intro u hu w hw
    have hd := distance_ok v w ((hI.vec_size _ hw).trans hv.symm).symm
    exact ⟨_, hd, h4 u hu w _ (hat u w hw) hd⟩

theorem stored_from_ops (hasher : Nat → Nat) :
    ∀ (ops : List Op) (t : table), ∀ it ∈ (table.run hasher t ops).vectors_,
      it ∈ t.vectors_ ∨ Op.insert it.2 ∈ ops := by
  intro ops
  induction ops with
  | nil => intro t it hit; exact Or.inl hit
  | cons op ops ih =>
    intro t it hit
    simp only [table.run, List.foldl_cons] at hit
    rcases ih _ it hit with h | h
    · cases op with
      | insert v =>
        simp only [table.step, table.insert] at h
        split at h
        · exact Or.inl h
        · simp only [store.insert] at h
          split at h
          · exact Or.inl h
          · simp only [List.mem_append, List.mem_singleton] at h
            rcases h with h | rfl
            · exact Or.inl h
            · exact Or.inr (by simp)
      | erase v => exact Or.inl ((erase_fields t v).2.2.2 it h)
    · exact Or.inr (by simp [h])

theorem distance_comm (u v : vector) (hs : u.size = v.size)
    (hl : u.components_.length = v.components_.length) :
    vector.distance u v = vector.distance v u := by
  rw [distance_ok u v hs, distance_ok v u hs.symm, hl]
  simp only [Nat.xor_comm]

theorem popcount_zero : popcount 0 = 0 := by decide

theorem distance_self (v : vector) : vector.distance v v = .ok 0 := by
  rw [distance_ok v v rfl]
  simp only [Nat.xor_self, popcount_zero, Nat.add_zero]
  congr 1
  induction (List.range v.components_.length) with
  | nil => rfl
  | cons _ _ ih => simp [ih]

theorem wf_length (c : Nat) (u v : vector) (hu : vector.wf c u) (hv : vector.wf c v)
    (hs : u.size = v.size) : u.components_.length = v.components_.length := by
  unfold vector.wf at hu hv
  rw [hu, hv, hs]

/-- C1 (as amended): for a table left by a constructor with at least one
partition, after any sequence of calls with fewer than `2 ^ 32` insertions of
vectors holding `ceil(size / c)` words, and for every such vector `v` of the
table's size, `insert(v)` succeeds and `query(v)` then returns a vector `r` of
the table's size with `distance(r, v) = 0`. -/
theorem insert_then_query_self (hasher : Nat → Nat) (c : Nat) (t0 : table) (ops : List Op)
    (v : vector) (hb : table.Built c t0) (hp : 1 ≤ t0.partitions_.length)
    (hn : inserts ops < 2 ^ 32) (hwf : ∀ w, Op.insert w ∈ ops → vector.wf c w)
    (hv : v.size = t0.dimensions_) (hvwf : vector.wf c v) :
    (table.insert hasher (table.run hasher t0 ops) v).1 = .ok () ∧
    ∃ r, table.query hasher (table.insert hasher (table.run hasher t0 ops) v).2 v = .ok r ∧
      r.size = t0.dimensions_ ∧ vector.distance r v = .ok 0 := by
  obtain ⟨k, hk, hI, hlt, hnext, hmasks, hdim⟩ := reach_inv hasher c t0 ops hb (by omega)
  have hinit := built_initial c t0 hb
  have hk32 : k < 2 ^ 32 := by omega
  have hnk : (table.run hasher t0 ops).next_id_ = k := by rw [hnext, Nat.mod_eq_of_lt hk32]
  have hfresh : (table.run hasher t0 ops).next_id_
      ∉ (table.run hasher t0 ops).vectors_.map (fun it => it.1) := by
    intro hmem
    simp only [List.mem_map] at hmem
    obtain ⟨it, hit, he⟩ := hmem
    have := hlt it hit
    omega
  have hv1 : v.size = (table.run hasher t0 ops).dimensions_ := by rw [hdim, hv]
  obtain ⟨h1, hI1, hvs1, hm1, hd1, _, hholds⟩ :=
    insert_inv hasher (table.run hasher t0 ops) v hI hv1 hfresh
  refine ⟨h1, ?_⟩
  have hv2 : v.size = (table.insert hasher (table.run hasher t0 ops) v).2.dimensions_ := by
    rw [hd1, hv1]
  obtain ⟨best, _, hq, hbest, hmin⟩ := query_spec hasher _ v hI1 hv2
  have hcand : (table.run hasher t0 ops).next_id_ ∈ table.candidates hasher v
      (table.insert hasher (table.run hasher t0 ops) v).2.masks_
      (table.insert hasher (table.run hasher t0 ops) v).2.partitions_ := by
    rw [hm1]
    have hlen : 1 ≤ (table.run hasher t0 ops).masks_.length := by
      rw [hmasks]
      have := congrArg List.length hinit.2.2.1
      simp only [List.length_map] at this
      omega
    revert hlen hholds
    generalize (table.run hasher t0 ops).masks_ = ms0
    generalize (table.insert hasher (table.run hasher t0 ops) v).2.partitions_ = ps0
    intro hholds hlen
    cases hholds with
    | nil => simp at hlen
    | @cons m p ms ps hmp _ =>
      obtain ⟨k1, b, hand, hfind, hmem⟩ := hmp
      simp [table.candidates, hand, hfind, hmem]
  have hstored : ((table.run hasher t0 ops).next_id_, v)
      ∈ (table.insert hasher (table.run hasher t0 ops) v).2.vectors_ := by
    rw [hvs1]; simp
  obtain ⟨d, hd, hle⟩ := hmin _ hcand v hstored
  rw [distance_self] at hd
  cases hd
  have hzero : best.2 = 0 := by omega
  rcases hbest with ⟨_, hmax⟩ | ⟨u, w, hw, hbw, hdw⟩
  · rw [hzero] at hmax
    exact absurd hmax (by decide)
  · refine ⟨w, by rw [hq, hbw], ?_, ?_⟩
    · rw [hI1.vec_size _ hw, hd1, hdim]
    · have hws : w.size = v.size := by rw [hI1.vec_size _ hw, hv2]
      have hwwf : vector.wf c w := by
        rw [hvs1] at hw
        simp only [List.mem_append, List.mem_singleton, Prod.mk.injEq] at hw
        rcases hw with hw | ⟨_, rfl⟩
        · rcases stored_from_ops hasher ops t0 _ hw with h0 | h0
          · rw [hinit.1] at h0; simp at h0
          · exact hwf w h0
        · exact hvwf
      rw [distance_comm w v hws (wf_length c w v hwwf hvwf hws), hdw, hzero]

theorem run_append (hasher : Nat → Nat) (t : table) (l1 l2 : List Op) :
    table.run hasher t (l1 ++ l2) = table.run hasher (table.run hasher t l1) l2 := by
  simp [table.run, List.foldl_append]

theorem churn_run : ∀ (n k : Nat), 0 < k → k < 2 ^ 32 → k + n ≤ 2 ^ 32 →
    table.run id (wrapState k) (churn ⟨8, [1]⟩ n) = wrapState ((k + n) % 2 ^ 32) := by
  intro n
  induction n with
  | zero =>
    intro k _ h1 _
    have hmod : k % 4294967296 = k := Nat.mod_eq_of_lt (by omega)
    simp [churn, table.run, hmod]
  | succ n ih =>
    intro k h0 h1 h2
    have hc : churn ⟨8, [1]⟩ (n + 1)
        = [Op.insert ⟨8, [1]⟩, Op.erase ⟨8, [1]⟩] ++ churn ⟨8, [1]⟩ n := by
      simp [churn, List.replicate_succ]
    rw [hc, run_append, churn_step k h0 h1]
    by_cases hk : k + 1 < 2 ^ 32
    · rw [Nat.mod_eq_of_lt hk, ih (k + 1) (by omega) hk (by omega)]
      congr 2
      omega
    · have hn0 : n = 0 := by omega
      subst hn0
      simp [churn, table.run]

theorem wrap_reached (ops : List Op) :
    table.run id ⟨8, [⟨8, [0]⟩], [[]], [], 0⟩
        (Op.insert ⟨8, [170]⟩ :: churn ⟨8, [1]⟩ (2 ^ 32 - 1) ++ ops)
      = table.run id (wrapState 0) ops := by
  have h1 : table.run id ⟨8, [⟨8, [0]⟩], [[]], [], 0⟩ [Op.insert ⟨8, [170]⟩] = wrapState 1 := by
    decide
  have h2 := churn_run (2 ^ 32 - 1) 1 (by omega) (by omega) (by omega)
  have h3 : (1 + (2 ^ 32 - 1)) % 2 ^ 32 = 0 := by norm_num
  rw [h3] at h2
  have hsplit : Op.insert ⟨8, [170]⟩ :: churn ⟨8, [1]⟩ (2 ^ 32 - 1) ++ ops
      = [Op.insert ⟨8, [170]⟩] ++ (churn ⟨8, [1]⟩ (2 ^ 32 - 1) ++ ops) := rfl
  rw [hsplit, run_append, h1, run_append, h2]

/-- Witness of C1: the brute-force table of dimension 8 after `insert(10101010)`
and `erase(00000001)`, and the vector `10101010`. -/
theorem insert_then_query_self_witness :
    (table.insert id (table.run id ⟨8, [⟨8, [0]⟩], [[]], [], 0⟩
        [Op.insert ⟨8, [170]⟩, Op.erase ⟨8, [1]⟩]) ⟨8, [170]⟩).1 = .ok () ∧
    ∃ r, table.query id (table.insert id (table.run id ⟨8, [⟨8, [0]⟩], [[]], [], 0⟩
        [Op.insert ⟨8, [170]⟩, Op.erase ⟨8, [1]⟩]) ⟨8, [170]⟩).2 ⟨8, [170]⟩ = .ok r ∧
      r.size = 8 ∧ vector.distance r ⟨8, [170]⟩ = .ok 0 :=
  insert_then_query_self id 32 ⟨8, [⟨8, [0]⟩], [[]], [], 0⟩
    [Op.insert ⟨8, [170]⟩, Op.erase ⟨8, [1]⟩] ⟨8, [170]⟩
    (Or.inl ⟨8, by decide⟩) (by decide) (by decide)
    (by
      intro w hw
      simp only [List.mem_cons, Op.insert.injEq, List.mem_singleton, reduceCtorEq,
        List.not_mem_nil, or_false] at hw
      subst hw
      decide)
    (by decide) (by decide)

/-- C1 as stated fails after `2 ^ 32` insertions: the brute-force table of
dimension 8 holds `10101010` under identifier 0, the counter has wrapped to 0
after `2 ^ 32 - 1` rounds of `insert(00000001); erase(00000001)`, and then
`insert(00000001)` followed by `query(00000001)` returns `10101010`, at
distance 5 from the query. -/
theorem insert_then_query_after_wrap :
    table.brute 32 8 = some ⟨8, [⟨8, [0]⟩], [[]], [], 0⟩ ∧
    vector.ofBools 32 [true, false, true, false, true, false, true, false] = some ⟨8, [170]⟩ ∧
    vector.ofBools 32 [false, false, false, false, false, false, false, true] = some ⟨8, [1]⟩ ∧
    table.query id (table.insert id (table.run id ⟨8, [⟨8, [0]⟩], [[]], [], 0⟩
        (Op.insert ⟨8, [170]⟩ :: churn ⟨8, [1]⟩ (2 ^ 32 - 1))) ⟨8, [1]⟩).2 ⟨8, [1]⟩
      = .ok ⟨8, [170]⟩ ∧
    vector.distance ⟨8, [170]⟩ ⟨8, [1]⟩ = .ok 5 := by
  refine ⟨by decide, by decide, by decide, ?_, by decide⟩
  have h := wrap_reached []
  rw [List.append_nil] at h
  rw [h]
  decide

/-- C5 (as amended): in every state reached from a constructed table by a
sequence of calls with at most `2 ^ 32` insertions,
`stats().vectors = stats().partitions * size()`. -/
theorem stats_vectors_eq (hasher : Nat → Nat) (c : Nat) (t0 : table) (ops : List Op)
    (hb : table.Built c t0) (hn : inserts ops ≤ 2 ^ 32) :
    (table.stats (table.run hasher t0 ops)).vectors
      = (table.stats (table.run hasher t0 ops)).partitions
        * table.size (table.run hasher t0 ops) := by
  obtain ⟨_, _, hI, _⟩ := reach_inv hasher c t0 ops hb hn
  exact stats_of_inv hasher _ hI

/-- Witness of C5: the brute-force table of dimension 8 after two insertions and
the erasure of a vector that is not stored. -/
theorem stats_vectors_eq_witness :
    (table.stats (table.run id ⟨8, [⟨8, [0]⟩], [[]], [], 0⟩
        [Op.insert ⟨8, [170]⟩, Op.insert ⟨8, [15]⟩, Op.erase ⟨8, [1]⟩])).vectors
      = (table.stats (table.run id ⟨8, [⟨8, [0]⟩], [[]], [], 0⟩
        [Op.insert ⟨8, [170]⟩, Op.insert ⟨8, [15]⟩, Op.erase ⟨8, [1]⟩])).partitions
        * table.size (table.run id ⟨8, [⟨8, [0]⟩], [[]], [], 0⟩
          [Op.insert ⟨8, [170]⟩, Op.insert ⟨8, [15]⟩, Op.erase ⟨8, [1]⟩]) :=
  stats_vectors_eq id 32 ⟨8, [⟨8, [0]⟩], [[]], [], 0⟩
    [Op.insert ⟨8, [170]⟩, Op.insert ⟨8, [15]⟩, Op.erase ⟨8, [1]⟩]
    (Or.inl ⟨8, by decide⟩) (by decide)

/-- C5 as stated fails after `2 ^ 32 + 1` insertions: once the counter has
wrapped to 0 while identifier 0 is still stored, one more `insert` leaves one
stored vector and two bucket entries in the single partition. -/
theorem stats_after_wrap :
    table.brute 32 8 = some ⟨8, [⟨8, [0]⟩], [[]], [], 0⟩ ∧
    table.stats (table.run id ⟨8, [⟨8, [0]⟩], [[]], [], 0⟩
        (Op.insert ⟨8, [170]⟩ :: churn ⟨8, [1]⟩ (2 ^ 32 - 1) ++ [Op.insert ⟨8, [1]⟩]))
      = ⟨1, 1, 2⟩ ∧
    table.size (table.run id ⟨8, [⟨8, [0]⟩], [[]], [], 0⟩
        (Op.insert ⟨8, [170]⟩ :: churn ⟨8, [1]⟩ (2 ^ 32 - 1) ++ [Op.insert ⟨8, [1]⟩])) = 1 := by
  refine ⟨by decide, ?_, ?_⟩
  · rw [wrap_reached]; decide
  · rw [wrap_reached]; decide

/-- C8: for every table and every vector whose size differs from the table's
dimension, `insert`, `erase` and `query` fail with `invalid_argument`, and
`insert` and `erase` leave the table as it was. -/
theorem size_mismatch_atomic (hasher : Nat → Nat) (t : table) (v : vector)
    (h : v.size ≠ t.dimensions_) :
    table.insert hasher t v = (.error .invalid_argument, t) ∧
    table.erase t v = (.error .invalid_argument, t) ∧
    table.query hasher t v = .error .invalid_argument := by
  have hne : t.dimensions_ ≠ v.size := fun e => h e.symm
  simp [table.insert, table.erase, table.query, hne]

/-- Witness of C8: a table of dimension 8 holding one vector, and a vector of
size 3. -/
theorem size_mismatch_atomic_witness :
    (⟨3, [5]⟩ : vector).size ≠ (wrapState 1).dimensions_ ∧
    table.insert id (wrapState 1) ⟨3, [5]⟩ = (.error .invalid_argument, wrapState 1) ∧
    table.erase (wrapState 1) ⟨3, [5]⟩ = (.error .invalid_argument, wrapState 1) ∧
    table.query id (wrapState 1) ⟨3, [5]⟩ = .error .invalid_argument :=
  ⟨by decide, size_mismatch_atomic id (wrapState 1) ⟨3, [5]⟩ (by decide)⟩

/-- C4 (the not-found path of `erase`): in the brute-force table of dimension 8
that holds only `10101010`, `erase(00000001)` finds no equal vector and removes
identifier 0: the store becomes empty and `stats().vectors` drops from 1 to 0. -/
theorem erase_absent_removes_first :
    table.brute 32 8 = some ⟨8, [⟨8, [0]⟩], [[]], [], 0⟩ ∧
    table.run id ⟨8, [⟨8, [0]⟩], [[]], [], 0⟩ [Op.insert ⟨8, [170]⟩]
      = ⟨8, [⟨8, [0]⟩], [[(0, [0])]], [(0, ⟨8, [170]⟩)], 1⟩ ∧
    vector.eq ⟨8, [170]⟩ ⟨8, [1]⟩ = false ∧
    table.erase ⟨8, [⟨8, [0]⟩], [[(0, [0])]], [(0, ⟨8, [170]⟩)], 1⟩ ⟨8, [1]⟩
      = (.ok (), ⟨8, [⟨8, [0]⟩], [[(0, [])]], [], 1⟩) ∧
    table.size ⟨8, [⟨8, [0]⟩], [[(0, [0])]], [(0, ⟨8, [170]⟩)], 1⟩ = 1 ∧
    table.size ⟨8, [⟨8, [0]⟩], [[(0, [])]], [], 1⟩ = 0 ∧
    (table.stats ⟨8, [⟨8, [0]⟩], [[(0, [0])]], [(0, ⟨8, [170]⟩)], 1⟩).vectors = 1 ∧
    (table.stats ⟨8, [⟨8, [0]⟩], [[(0, [])]], [], 1⟩).vectors = 0 := by
  refine ⟨by decide, by decide, by decide, by decide, by decide, by decide, by decide, by decide⟩

/-! ## Erasing a stored vector -/

theorem findId_spec (vs : store) (v : vector)
    (h : ∃ it ∈ vs, vector.eq it.2 v = true) :
    ∃ w, (table.findId vs v, w) ∈ vs ∧ vector.eq w v = true := by
  unfold table.findId
  cases hf : vs.find? (fun it => vector.eq it.2 v) with
  | none =>
    obtain ⟨it, hit, he⟩ := h
    rw [List.find?_eq_none] at hf
    exact absurd he (hf it hit)
  | some it0 =>
    have h1 : (fun it : Nat × vector => vector.eq it.2 v) it0 = true :=
      List.find?_some (p := fun it : Nat × vector => vector.eq it.2 v) hf
    exact ⟨it0.2, List.mem_of_find?_eq_some hf, h1⟩

theorem store_erase_length (vs : store) (u : Nat) (w : vector)
    (hnd : (vs.map (fun it => it.1)).Nodup) (h : (u, w) ∈ vs) :
    (store.erase vs u).length + 1 = vs.length := by
  have hmem : u ∈ vs.map (fun it => it.1) := List.mem_map_of_mem (fun it => it.1) h
  have h1 : ((store.erase vs u).map (fun it => it.1)).length
      = ((vs.map (fun it => it.1)).erase u).length := by
    rw [erase_keys, List.Nodup.erase_eq_filter hnd]
  rw [List.length_map, List.length_erase_of_mem hmem, List.length_map] at h1
  have hpos : 0 < vs.length := List.length_pos_of_mem h
  omega

theorem erase_buckets_filter (hasher : Nat → Nat) (vs : store) (u : Nat)
    (hnd : (vs.map (fun it => it.1)).Nodup)
    (masks : List vector) (parts : List partition)
    (h : List.Forall₂ (partition.Inv hasher vs) masks parts) :
    parts.map (fun p => p.map (fun it => (it.1, it.2.erase u)))
      = parts.map (fun p => p.map (fun it => (it.1, it.2.filter (fun x => x != u)))) := by
  induction h with
  | nil => rfl
  | @cons m p ms ps hmp _ ih =>
    simp only [List.map_cons, ih]
    congr 1
    apply List.map_congr_left
    intro it hit
    have hids : (partition.ids p).Nodup := hmp.2.1.nodup_iff.mpr hnd
    have hsub : List.Sublist it.2 (partition.ids p) := by
      unfold partition.ids
      exact List.sublist_flatten_of_mem (List.mem_map_of_mem _ hit)
    rw [List.Nodup.erase_eq_filter (hsub.nodup hids)]

/-- C7 (as amended): in every state reached from a constructed table by a
sequence of calls with at most `2 ^ 32` insertions, and for every `v` of the
table's size equal to a stored vector, `erase(v)` succeeds; the identifier `u`
it picks holds a vector equal to `v`; the store is left as the old store
without the entry of `u`, so `size()` drops by exactly one; and every bucket of
every partition is left as the old bucket without `u`, the other identifiers
in their order. -/
theorem erase_present (hasher : Nat → Nat) (c : Nat) (t0 : table) (ops : List Op) (v : vector)
    (hb : table.Built c t0) (hn : inserts ops ≤ 2 ^ 32) (hv : v.size = t0.dimensions_)
    (hex : ∃ it ∈ (table.run hasher t0 ops).vectors_, vector.eq it.2 v = true) :
    (table.erase (table.run hasher t0 ops) v).1 = .ok () ∧
    (∃ w, (table.findId (table.run hasher t0 ops).vectors_ v, w)
        ∈ (table.run hasher t0 ops).vectors_ ∧ vector.eq w v = true) ∧
    (table.erase (table.run hasher t0 ops) v).2.vectors_
      = (table.run hasher t0 ops).vectors_.filter
          (fun it => it.1 != table.findId (table.run hasher t0 ops).vectors_ v) ∧
    table.size (table.erase (table.run hasher t0 ops) v).2 + 1
      = table.size (table.run hasher t0 ops) ∧
    (table.erase (table.run hasher t0 ops) v).2.partitions_
      = (table.run hasher t0 ops).partitions_.map (fun p => p.map (fun it =>
          (it.1, it.2.filter
            (fun x => x != table.findId (table.run hasher t0 ops).vectors_ v)))) ∧
    (∀ p ∈ (table.erase (table.run hasher t0 ops) v).2.partitions_, ∀ it ∈ p,
      table.findId (table.run hasher t0 ops).vectors_ v ∉ it.2) ∧
    (table.erase (table.run hasher t0 ops) v).2.masks_ = (table.run hasher t0 ops).masks_ ∧
    (table.erase (table.run hasher t0 ops) v).2.next_id_
      = (table.run hasher t0 ops).next_id_ := by
  obtain ⟨_, _, hI, _, _, _, hdim⟩ := reach_inv hasher c t0 ops hb hn
  obtain ⟨w, hw, hweq⟩ := findId_spec _ v hex
  have hne : ¬ (table.run hasher t0 ops).dimensions_ ≠ v.size := by
    rw [hdim, hv]; exact fun h => h rfl
  have hparts := erase_buckets_filter hasher _
    (table.findId (table.run hasher t0 ops).vectors_ v) hI.keys_nodup _ _ hI.parts
  have hlen := store_erase_length _ _ w hI.keys_nodup hw
  simp only [table.erase, hne, if_false, table.size]
  refine ⟨trivial, ⟨w, hw, hweq⟩, ?_, hlen, hparts, ?_, trivial, trivial⟩
  · simp [store.erase, bne]
  · rw [hparts]
    intro p hp it hit
    simp only [List.mem_map] at hp
    obtain ⟨p0, _, rfl⟩ := hp
    simp only [List.mem_map] at hit
    obtain ⟨it0, _, rfl⟩ := hit
    simp

/-- Witness of C7: the brute-force table of dimension 8 after the insertion of
`10101010`, `00001111` and `10101010` again, and the erasure of `10101010`. -/
theorem erase_present_witness :
    (table.erase (table.run id ⟨8, [⟨8, [0]⟩], [[]], [], 0⟩
        [Op.insert ⟨8, [170]⟩, Op.insert ⟨8, [15]⟩, Op.insert ⟨8, [170]⟩]) ⟨8, [170]⟩).2
      = ⟨8, [⟨8, [0]⟩], [[(0, [1, 2])]], [(1, ⟨8, [15]⟩), (2, ⟨8, [170]⟩)], 3⟩ ∧
    table.size (table.erase (table.run id ⟨8, [⟨8, [0]⟩], [[]], [], 0⟩
        [Op.insert ⟨8, [170]⟩, Op.insert ⟨8, [15]⟩, Op.insert ⟨8, [170]⟩]) ⟨8, [170]⟩).2 + 1
      = table.size (table.run id ⟨8, [⟨8, [0]⟩], [[]], [], 0⟩
        [Op.insert ⟨8, [170]⟩, Op.insert ⟨8, [15]⟩, Op.insert ⟨8, [170]⟩]) :=
  ⟨by decide,
    (erase_present id 32 ⟨8, [⟨8, [0]⟩], [[]], [], 0⟩
      [Op.insert ⟨8, [170]⟩, Op.insert ⟨8, [15]⟩, Op.insert ⟨8, [170]⟩] ⟨8, [170]⟩
      (Or.inl ⟨8, by decide⟩) (by decide) (by decide)
      ⟨(0, ⟨8, [170]⟩), by decide, by decide⟩).2.2.2.1⟩

/-- C7 as stated fails after `2 ^ 32 + 1` insertions: identifier 0 then sits
twice in the bucket of the brute-force table while the store holds it once, and
`erase(10101010)` empties the store but leaves identifier 0 in the bucket. -/
theorem erase_present_after_wrap :
    table.brute 32 8 = some ⟨8, [⟨8, [0]⟩], [[]], [], 0⟩ ∧
    table.run id ⟨8, [⟨8, [0]⟩], [[]], [], 0⟩
        (Op.insert ⟨8, [170]⟩ :: churn ⟨8, [1]⟩ (2 ^ 32 - 1) ++ [Op.insert ⟨8, [1]⟩])
      = ⟨8, [⟨8, [0]⟩], [[(0, [0, 0])]], [(0, ⟨8, [170]⟩)], 1⟩ ∧
    vector.eq ⟨8, [170]⟩ ⟨8, [170]⟩ = true ∧
    table.erase ⟨8, [⟨8, [0]⟩], [[(0, [0, 0])]], [(0, ⟨8, [170]⟩)], 1⟩ ⟨8, [170]⟩
      = (.ok (), ⟨8, [⟨8, [0]⟩], [[(0, [0])]], [], 1⟩) := by
  refine ⟨by decide, ?_, by decide, by decide⟩
  rw [wrap_reached]
  decide

/-! ## The brute-force table -/

theorem chunkWord_false (d i b : Nat) : chunkWord (List.replicate d false) i b = 0 := by
  unfold chunkWord
  have hget : ∀ j, (List.replicate d false).getD (i + j) false = false := by
    intro j
    rw [List.getD_eq_getElem?_getD]
    by_cases hj : i + j < d
    · simp [List.getElem?_replicate, hj]
    · simp [List.getElem?_replicate, hj]
  simp only [hget, Bool.toNat_false, Nat.zero_shiftLeft, Nat.zero_mod, Nat.or_zero]
  induction (List.range b) with
  | nil => rfl
  | cons _ _ ih => simp [ih]

theorem packLoop_mem (c : Nat) (cs : List Bool) :
    ∀ (fuel i : Nat) (acc ws : List Nat), packLoop c cs fuel i acc = some ws →
      ∀ x ∈ ws, x ∈ acc ∨ ∃ i0 b0, x = chunkWord cs i0 b0 := by
  intro fuel
  induction fuel with
  | zero =>
    intro i acc ws h x hx
    simp only [packLoop] at h
    split at h
    · simp at h
    · simp only [Option.some.injEq] at h
      subst h
      exact Or.inl hx
  | succ f ih =>
    intro i acc ws h x hx
    simp only [packLoop] at h
    split at h
    · rcases ih _ _ ws h x hx with h1 | h1
      · simp only [List.mem_append, List.mem_singleton] at h1
        rcases h1 with h1 | h1
        · exact Or.inl h1
        · exact Or.inr ⟨_, _, h1⟩
      · exact Or.inr h1
    · simp only [Option.some.injEq] at h
      subst h
      exact Or.inl hx

theorem brute_mask (c d : Nat) (t0 : table) (h : table.brute c d = some t0) :
    ∃ m, t0.masks_ = [m] ∧ t0.dimensions_ = d ∧ ∀ x ∈ m.components_, x = 0 := by
  simp only [table.brute, Option.map_eq_some'] at h
  obtain ⟨m, hm, rfl⟩ := h
  refine ⟨m, rfl, rfl, ?_⟩
  simp only [vector.ofBools, Option.map_eq_some'] at hm
  obtain ⟨ws, hws, rfl⟩ := hm
  intro x hx
  rcases packLoop_mem c _ _ _ _ ws hws x hx with h1 | ⟨i0, b0, h1⟩
  · simp at h1
  · rw [h1, chunkWord_false]

theorem and_zero (m v : vector) (hs : m.size = v.size) (hz : ∀ x ∈ m.components_, x = 0) :
    vector.and m v = .ok (vector.ofChunks (List.replicate m.components_.length 0) m.size_) := by
  rw [and_ok m v hs]
  congr 2
  apply List.ext_getElem
  · simp
  · intro n h1 h2
    simp only [List.length_map, List.length_range] at h1
    simp only [List.getElem_map, List.getElem_range, List.getElem_replicate]
    rw [List.getD_eq_getElem _ _ h1, hz _ (List.getElem_mem h1)]
    simp

theorem find_of_mem (p : partition) (k : Nat) (b : bucket)
    (hnd : (p.map (fun it => it.1)).Nodup) (h : (k, b) ∈ p) : partition.find p k = some b := by
  induction p with
  | nil => simp at h
  | cons hd tl ih =>
    simp only [List.map_cons, List.nodup_cons] at hnd
    simp only [List.mem_cons] at h
    rcases h with rfl | h
    · simp [partition.find]
    · have hne : ¬ hd.1 = k := by
        intro he
        exact hnd.1 (he ▸ List.mem_map_of_mem (fun it => it.1) h)
      have := ih hnd.2 h
      simp only [partition.find] at this ⊢
      simp [List.find?_cons, hne, this]

theorem popcount_le (x : Nat) : popcount x ≤ 32 := by
  unfold popcount
  exact (List.countP_le_length _).trans (by simp)

theorem distance_le_words (u v : vector) (d : Nat) (h : vector.distance u v = .ok d) :
    d ≤ 32 * u.components_.length := by
  unfold vector.distance at h
  split at h
  · simp at h
  · simp only [Except.ok.injEq] at h
    subst h
    have : ∀ (f : Nat → Nat) (n : Nat), (∀ i, f i ≤ 32) →
        (List.range n).foldl (fun d i => d + f i) 0 ≤ 32 * n := by
      intro f n hf
      induction n with
      | zero => simp
      | succ n ih =>
        simp only [List.range_succ, List.foldl_append, List.foldl_cons, List.foldl_nil]
        have := hf n
        omega
    exact this _ _ (fun i => popcount_le _)

theorem brute_candidates (hasher : Nat → Nat) (vs : store) (v m : vector) (p : partition)
    (d : Nat) (hm : m.size = d) (hz : ∀ x ∈ m.components_, x = 0) (hv : v.size = d)
    (hsz : ∀ it ∈ vs, it.2.size = d) (hp : partition.Inv hasher vs m p) :
    ∀ it ∈ vs, it.1 ∈ table.candidates hasher v [m] [p] := by
  intro it hit
  obtain ⟨hk, hper, hmem⟩ := hp
  have hu : it.1 ∈ partition.ids p := hper.mem_iff.mpr (List.mem_map_of_mem (fun it => it.1) hit)
  simp only [partition.ids, List.mem_flatten, List.mem_map] at hu
  obtain ⟨b, ⟨e, he, rfl⟩, hub⟩ := hu
  obtain ⟨w, k, hw, hand, hkey⟩ := hmem e he it.1 hub
  rw [and_zero m w (hm.trans (hsz _ hw).symm) hz] at hand
  cases hand
  have hfind := find_of_mem p e.1 e.2 hk he
  rw [hkey] at hfind
  simp [table.candidates, and_zero m v (hm.trans hv.symm) hz, hfind, hub]

/-- C2 (as amended): for the table built by `brute(d)`, in every state reached
by a sequence of calls with at most `2 ^ 32` insertions of vectors holding
`ceil(size / c)` words in which the store is not empty, and for every such query
`v` of size `d` with fewer than `2 ^ 27` words, `query(v)` returns a stored
vector `r` with `distance(r, v) <= distance(w, v)` for every stored `w`. -/
theorem brute_query_exact (hasher : Nat → Nat) (c d : Nat) (t0 : table) (ops : List Op)
    (v : vector) (hb : table.brute c d = some t0) (hn : inserts ops ≤ 2 ^ 32)
    (hwf : ∀ w, Op.insert w ∈ ops → vector.wf c w)
    (hv : v.size = d) (hvwf : vector.wf c v) (hwords : v.components_.length < 2 ^ 27)
    (hne : (table.run hasher t0 ops).vectors_ ≠ []) :
    ∃ r, table.query hasher (table.run hasher t0 ops) v = .ok r ∧
      (∃ u, (u, r) ∈ (table.run hasher t0 ops).vectors_) ∧
      ∀ u w, (u, w) ∈ (table.run hasher t0 ops).vectors_ →
        ∃ dr dw, vector.distance r v = .ok dr ∧ vector.distance w v = .ok dw ∧ dr ≤ dw := by
  have hbuilt : table.Built c t0 := Or.inl ⟨d, hb⟩
  obtain ⟨_, _, hI, _, _, hmasks, hdim⟩ := reach_inv hasher c t0 ops hbuilt hn
  have hinit := built_initial c t0 hbuilt
  obtain ⟨m, hm, hd0, hz⟩ := brute_mask c d t0 hb
  have hdim1 : (table.run hasher t0 ops).dimensions_ = d := by rw [hdim, hd0]
  have hv1 : v.size = (table.run hasher t0 ops).dimensions_ := by rw [hdim1, hv]
  have hstwf : ∀ u w, (u, w) ∈ (table.run hasher t0 ops).vectors_ → vector.wf c w := by
    intro u w hw
    rcases stored_from_ops hasher ops t0 _ hw with h0 | h0
    · rw [hinit.1] at h0; simp at h0
    · exact hwf w h0
  have hflip : ∀ u w, (u, w) ∈ (table.run hasher t0 ops).vectors_ →
      vector.distance w v = vector.distance v w := by
    intro u w hw
    have hs : w.size = v.size := by rw [hI.vec_size _ hw, hv1]
    exact distance_comm w v hs (wf_length c w v (hstwf u w hw) hvwf hs)
  obtain ⟨best, _, hq, hbest, hmin⟩ := query_spec hasher _ v hI hv1
  have hparts := hI.parts
  rw [hmasks, hm] at hparts
  have hcand : ∀ it ∈ (table.run hasher t0 ops).vectors_,
      it.1 ∈ table.candidates hasher v (table.run hasher t0 ops).masks_
        (table.run hasher t0 ops).partitions_ := by
    rw [hmasks, hm]
    revert hparts
    generalize (table.run hasher t0 ops).partitions_ = ps
    intro hparts
    cases hparts with
    | @cons _ p _ _ hmp htl =>
      cases htl
      exact brute_candidates hasher _ v m p d
        (by rw [← hdim1]; exact hI.masks_size m (by rw [hmasks, hm]; simp)) hz hv
        (fun it hit => (hI.vec_size it hit).trans hdim1) hmp
  have hall : ∀ u w, (u, w) ∈ (table.run hasher t0 ops).vectors_ →
      ∃ dw, vector.distance v w = .ok dw ∧ best.2 ≤ dw :=
    fun u w hw => hmin u (hcand (u, w) hw) w hw
  obtain ⟨it0, hit0⟩ := List.exists_mem_of_ne_nil _ hne
  obtain ⟨d0, hd0v, hle0⟩ := hall it0.1 it0.2 hit0
  have hd0le := distance_le_words v it0.2 d0 hd0v
  rcases hbest with ⟨_, hmax⟩ | ⟨u, r, hr, hbr, hdr⟩
  · rw [hmax] at hle0
    simp only [UINT_MAX] at hle0
    omega
  · refine ⟨r, by rw [hq, hbr], ⟨u, hr⟩, ?_⟩
    intro u1 w hw
    obtain ⟨dw, hdw, hle⟩ := hall u1 w hw
    exact ⟨best.2, dw, by rw [hflip u r hr, hdr], by rw [hflip u1 w hw, hdw], hle⟩

/-- Witness of C2: `brute(8)` with `A = 11110000`, `B = 00001111` and
`C = 11100000` inserted, and the query `11110001`, which returns `A`. -/
theorem brute_query_exact_witness :
    table.query id (table.run id ⟨8, [⟨8, [0]⟩], [[]], [], 0⟩
        [Op.insert ⟨8, [240]⟩, Op.insert ⟨8, [15]⟩, Op.insert ⟨8, [224]⟩]) ⟨8, [241]⟩
      = .ok ⟨8, [240]⟩ ∧
    ∃ r, table.query id (table.run id ⟨8, [⟨8, [0]⟩], [[]], [], 0⟩
        [Op.insert ⟨8, [240]⟩, Op.insert ⟨8, [15]⟩, Op.insert ⟨8, [224]⟩]) ⟨8, [241]⟩ = .ok r ∧
      (∃ u, (u, r) ∈ (table.run id ⟨8, [⟨8, [0]⟩], [[]], [], 0⟩
        [Op.insert ⟨8, [240]⟩, Op.insert ⟨8, [15]⟩, Op.insert ⟨8, [224]⟩]).vectors_) ∧
      ∀ u w, (u, w) ∈ (table.run id ⟨8, [⟨8, [0]⟩], [[]], [], 0⟩
        [Op.insert ⟨8, [240]⟩, Op.insert ⟨8, [15]⟩, Op.insert ⟨8, [224]⟩]).vectors_ →
        ∃ dr dw, vector.distance r ⟨8, [241]⟩ = .ok dr ∧
          vector.distance w ⟨8, [241]⟩ = .ok dw ∧ dr ≤ dw :=
  ⟨by decide,
    brute_query_exact id 32 8 ⟨8, [⟨8, [0]⟩], [[]], [], 0⟩
      [Op.insert ⟨8, [240]⟩, Op.insert ⟨8, [15]⟩, Op.insert ⟨8, [224]⟩] ⟨8, [241]⟩
      (by decide) (by decide)
      (by
        intro w hw
        simp only [List.mem_cons, Op.insert.injEq, List.mem_singleton, List.not_mem_nil,
          or_false] at hw
        rcases hw with rfl | rfl | rfl <;> decide)
      (by decide) (by decide) (by decide) (by decide)⟩

/-- C2 as stated fails after `2 ^ 32 + 1` insertions: once the counter has
wrapped, `insert(00000001)` reuses identifier 0, `erase(10101010)` then removes
identifier 0 from the store and one of its two bucket entries, and after
`insert(00001111)` the store is not empty but `query` throws `out_of_range` at
the bucket entry of identifier 0. -/
theorem brute_query_after_wrap :
    table.brute 32 8 = some ⟨8, [⟨8, [0]⟩], [[]], [], 0⟩ ∧
    table.run id ⟨8, [⟨8, [0]⟩], [[]], [], 0⟩
        (Op.insert ⟨8, [170]⟩ :: churn ⟨8, [1]⟩ (2 ^ 32 - 1)
          ++ [Op.insert ⟨8, [1]⟩, Op.erase ⟨8, [170]⟩, Op.insert ⟨8, [15]⟩])
      = ⟨8, [⟨8, [0]⟩], [[(0, [0, 1])]], [(1, ⟨8, [15]⟩)], 2⟩ ∧
    table.query id ⟨8, [⟨8, [0]⟩], [[(0, [0, 1])]], [(1, ⟨8, [15]⟩)], 2⟩ ⟨8, [15]⟩
      = .error .out_of_range := by
  refine ⟨by decide, ?_, by decide⟩
  rw [wrap_reached]
  decide

/-! ## The covering construction -/

theorem ofBools_packed (c : Nat) (hc : 0 < c) (bs : List Bool) :
    vector.ofBools c bs = some (packed c bs) := ofBools_eq c hc bs

theorem dot_packed (c : Nat) (hc : 0 < c) (hc32 : c ≤ 32) (a b : List Bool)
    (hab : a.length = b.length) :
    vector.dot (packed c a) (packed c b)
      = .ok ((List.range a.length).countP (fun i => a.getD i false && b.getD i false)) := by
  unfold vector.dot packed
  simp only [vector.size, hab, ne_eq, not_true_eq_false, if_false]
  rw [foldl_range_map (fun x y => popcount (x &&& y))]
  congr 1
  have hmap : (chunkList c b.length b.length 0).map
        (fun p => popcount (chunkWord a p.1 p.2 &&& chunkWord b p.1 p.2))
      = (chunkList c b.length b.length 0).map
        (fun p => (List.range p.2).countP
          (fun j => a.getD (p.1 + j) false && b.getD (p.1 + j) false)) := by
    apply List.map_congr_left
    intro p hp
    exact popcount_chunk_and a b p.1 p.2 (le_trans (chunkList_le c _ _ _ p hp) hc32)
  rw [hmap, chunkList_countP c b.length hc
    (fun j => a.getD j false && b.getD j false) b.length 0 (by omega)]
  simp

theorem coveringSelectors_eq (c : Nat) (hc : 0 < c) (x : Nat) (sel : Nat → Nat → Bool)
    (js : List Nat) :
    coveringSelectors c x sel js
      = some (js.map (fun j => packed c ((List.range x).map (sel j)))) := by
  induction js with
  | nil => rfl
  | cons j js ih =>
    simp [coveringSelectors, vector.random, ofBools_packed c hc, ih]

theorem getD_map_range (f : Nat → Bool) (x k : Nat) (hk : k < x) :
    ((List.range x).map f).getD k false = f k := by
  rw [List.getD_eq_getElem _ _ (by simpa using hk)]
  simp

theorem coveringRow_eq (c : Nat) (hc : 0 < c) (hc32 : c ≤ 32) (x : Nat)
    (sel : Nat → Nat → Bool) (i : Nat) (js : List Nat) :
    coveringRow c (coveringBits x i)
        (js.map (fun j => packed c ((List.range x).map (sel j))))
      = some (.ok (js.map (coveringEntry x sel i))) := by
  induction js with
  | nil => rfl
  | cons j js ih =>
    have hdot : vector.dot (packed c ((List.range x).map (sel j))) (packed c (coveringBits x i))
        = .ok ((List.range x).countP
            (fun k => sel j k && ((i >>> (x - k - 1)) % 2 == 1))) := by
      rw [dot_packed c hc hc32 _ _ (by simp [coveringBits])]
      congr 1
      simp only [List.length_map, List.length_range]
      apply List.countP_congr
      intro k hk
      simp only [List.mem_range] at hk
      rw [getD_map_range _ x k hk]
      unfold coveringBits
      rw [getD_map_range _ x k hk]
    simp only [List.map_cons, coveringRow, ofBools_packed c hc, hdot, ih, coveringEntry]

theorem coveringMasks_eq (c : Nat) (hc : 0 < c) (hc32 : c ≤ 32) (x : Nat)
    (sel : Nat → Nat → Bool) (js is : List Nat) :
    coveringMasks c x (js.map (fun j => packed c ((List.range x).map (sel j)))) is
      = some (.ok (is.map (fun i => packed c (js.map (coveringEntry x sel i))))) := by
  induction is with
  | nil => rfl
  | cons i is ih =>
    simp only [coveringMasks, coveringRow_eq c hc hc32, ofBools_packed c hc, ih, List.map_cons]

theorem covering_eq (c : Nat) (hc : 0 < c) (hc32 : c ≤ 32) (d r : Nat) (hr : r + 1 < 32)
    (sel : Nat → Nat → Bool) :
    table.covering c d r sel = some (.ok
      { dimensions_ := d
        masks_ := (List.range' 1 (2 ^ (r + 1) - 1)).map
          (fun i => packed c ((List.range d).map (coveringEntry (r + 1) sel i)))
        partitions_ := ((List.range' 1 (2 ^ (r + 1) - 1)).map
          (fun i => packed c ((List.range d).map (coveringEntry (r + 1) sel i)))).map
            (fun _ => [])
        vectors_ := []
        next_id_ := 0 }) := by
  have hn : (1 <<< (r + 1)) % 2 ^ 32 = 2 ^ (r + 1) := by
    rw [Nat.one_shiftLeft]
    exact Nat.mod_eq_of_lt (Nat.pow_lt_pow_right (by decide) hr)
  simp only [table.covering, hn, coveringSelectors_eq c hc, coveringMasks_eq c hc hc32,
    NEXT_ID_INIT]

theorem parity_xor (s p q : Nat → Bool) (L : List Nat) :
    L.countP (fun k => s k && (p k ^^ q k)) % 2
      = (L.countP (fun k => s k && p k) + L.countP (fun k => s k && q k)) % 2 := by
  induction L with
  | nil => rfl
  | cons k L ih =>
    simp only [List.countP_cons]
    cases s k <;> cases p k <;> cases q k <;> simp <;> omega

theorem shift_bit (i n : Nat) : ((i >>> n) % 2 == 1) = i.testBit n := by
  rw [Nat.testBit_to_div_mod, Nat.shiftRight_eq_div_pow]
  by_cases h : i / 2 ^ n % 2 = 1 <;> simp [h]

theorem coveringEntry_xor (x : Nat) (sel : Nat → Nat → Bool) (i1 i2 j : Nat) :
    coveringEntry x sel (i1 ^^^ i2) j
      = (coveringEntry x sel i1 j ^^ coveringEntry x sel i2 j) := by
  unfold coveringEntry
  simp only [shift_bit, Nat.testBit_xor]
  rw [parity_xor (sel j) (fun k => i1.testBit (x - k - 1)) (fun k => i2.testBit (x - k - 1))]
  rcases Nat.mod_two_eq_zero_or_one
      (List.countP (fun k => sel j k && i1.testBit (x - k - 1)) (List.range x)) with h1 | h1 <;>
    rcases Nat.mod_two_eq_zero_or_one
      (List.countP (fun k => sel j k && i2.testBit (x - k - 1)) (List.range x)) with h2 | h2 <;>
    simp [Nat.add_mod, h1, h2]

theorem covering_kernel (x : Nat) (sel : Nat → Nat → Bool) (D : List Nat) (hD : D.length < x) :
    ∃ i, 1 ≤ i ∧ i < 2 ^ x ∧ ∀ j ∈ D, coveringEntry x sel i j = false := by
  have hcard : Fintype.card (Fin D.length → Bool) < Fintype.card (Fin (2 ^ x)) := by
    simp only [Fintype.card_fun, Fintype.card_bool, Fintype.card_fin]
    exact Nat.pow_lt_pow_right (by decide) hD
  obtain ⟨i1, i2, hne, heq⟩ := Fintype.exists_ne_map_eq_of_card_lt
    (fun (i : Fin (2 ^ x)) (q : Fin D.length) => coveringEntry x sel i.val (D.get q)) hcard
  refine ⟨i1.val ^^^ i2.val, ?_, Nat.xor_lt_two_pow i1.isLt i2.isLt, ?_⟩
  · have h0 : i1.val ^^^ i2.val ≠ 0 := by
      intro h
      exact hne (Fin.ext (Nat.xor_eq_zero.mp h))
    omega
  · intro j hj
    obtain ⟨q, hq⟩ := List.mem_iff_get.mp hj
    have := congrFun heq q
    simp only [hq] at this
    rw [coveringEntry_xor, this]
    simp

theorem map_range_getD {α : Type} (g : Nat → Nat → Nat) (f1 f2 : α → Nat) (L : List α) :
    (List.range (L.map f1).length).map
        (fun i => g ((L.map f1).getD i 0) ((L.map f2).getD i 0))
      = L.map (fun p => g (f1 p) (f2 p)) := by
  apply List.ext_getElem
  · simp
  · intro n h1 h2
    simp only [List.length_map, List.length_range] at h1 h2
    simp [List.getD_eq_getElem, h1, h2]

theorem and_packed (c : Nat) (m a : List Bool) (h : m.length = a.length) :
    vector.and (packed c m) (packed c a)
      = .ok (vector.ofChunks
          ((chunkList c m.length m.length 0).map
            (fun p => chunkWord m p.1 p.2 &&& chunkWord a p.1 p.2)) m.length) := by
  rw [and_ok _ _ (by simp [packed, vector.size, h])]
  simp only [packed, ← h]
  rw [map_range_getD (fun x y => x &&& y)]

theorem and_packed_agree (c : Nat) (hc32 : c ≤ 32) (m a b : List Bool)
    (ha : m.length = a.length) (hb : m.length = b.length)
    (h : ∀ j, m.getD j false = true → a.getD j false = b.getD j false) :
    vector.and (packed c m) (packed c a) = vector.and (packed c m) (packed c b) := by
  rw [and_packed c m a ha, and_packed c m b hb]
  congr 2
  apply List.map_congr_left
  intro p hp
  have hp32 : p.2 ≤ 32 := le_trans (chunkList_le c _ _ _ p hp) hc32
  apply Nat.eq_of_testBit_eq
  intro k
  simp only [Nat.testBit_and, chunkWord_testBit _ _ _ _ hp32]
  by_cases hk : k < p.2
  · by_cases hm : m.getD (p.1 + (p.2 - 1 - k)) false = true
    · rw [h _ hm]
    · rw [Bool.not_eq_true] at hm
      simp only [hm, Bool.and_false, Bool.false_and]
  · simp [hk]

/-- C3: for a packing width `c` between 1 and 32, every dimension `d`, every
radius `r` with `r + 1 < 32` and every outcome `sel` of the random selectors,
the covering constructor returns a table, and for all `d`-bit vectors `u`, `v`
with `distance(u, v) <= r` there is a partition index `i` with
`hash(masks[i] AND u) = hash(masks[i] AND v)`. -/
theorem covering_collision (hasher : Nat → Nat) (c : Nat) (hc : 0 < c) (hc32 : c ≤ 32)
    (d r : Nat) (hr : r + 1 < 32) (sel : Nat → Nat → Bool) :
    ∃ t, table.covering c d r sel = some (.ok t) ∧
      ∀ (a b : List Bool) (u v : vector) (k : Nat), a.length = d → b.length = d →
        vector.ofBools c a = some u → vector.ofBools c b = some v →
        vector.distance u v = .ok k → k ≤ r →
        ∃ i m ku kv, i < t.partitions_.length ∧ t.masks_[i]? = some m ∧
          vector.and m u = .ok ku ∧ vector.and m v = .ok kv ∧
          vector.hash hasher ku = vector.hash hasher kv := by
  refine ⟨_, covering_eq c hc hc32 d r hr sel, ?_⟩
  intro a b u v k ha hb hu hv hduv hk
  rw [ofBools_packed c hc] at hu hv
  cases hu
  cases hv
  have hab : a.length = b.length := by rw [ha, hb]
  have hdist := distance_packed c hc hc32 a b hab
  have hkham : k = hamming a b := by
    have h1 : vector.distance (packed c a) (packed c b) = .ok (hamming a b) := hdist
    rw [hduv] at h1
    cases h1
    rfl
  have hDlen : ((List.range d).filter
      (fun j => a.getD j false != b.getD j false)).length < r + 1 := by
    rw [← List.countP_eq_length_filter]
    have : hamming a b = (List.range d).countP (fun j => a.getD j false != b.getD j false) := by
      simp [hamming, ha]
    omega
  obtain ⟨i, hi1, hi2, hker⟩ := covering_kernel (r + 1) sel _ hDlen
  have hagree : ∀ j, ((List.range d).map (coveringEntry (r + 1) sel i)).getD j false = true →
      a.getD j false = b.getD j false := by
    intro j hj
    by_cases hjd : j < d
    · rw [getD_map_range _ d j hjd] at hj
      by_contra hne
      have hmem : j ∈ (List.range d).filter (fun j => a.getD j false != b.getD j false) := by
        simp only [List.mem_filter, List.mem_range, hjd, true_and]
        simpa using hne
      rw [hker j hmem] at hj
      exact absurd hj (by decide)
    · rw [List.getD_eq_default _ _ (by simpa using hjd)] at hj
      exact absurd hj (by decide)
  have hlen1 : ((List.range d).map (coveringEntry (r + 1) sel i)).length = a.length := by
    simp [ha]
  have hlen2 : ((List.range d).map (coveringEntry (r + 1) sel i)).length = b.length := by
    simp [hb]
  refine ⟨i - 1, packed c ((List.range d).map (coveringEntry (r + 1) sel i)), _, _, ?_, ?_,
    and_packed c _ a hlen1, ?_, rfl⟩
  · simp only [List.length_map, List.length_range']
    omega
  · have hidx : i - 1 < 2 ^ (r + 1) - 1 := by omega
    simp only [List.getElem?_map]
    rw [List.getElem?_eq_getElem (by simpa using hidx), List.getElem_range']
    have h1 : 1 + (i - 1) = i := by omega
    simp [h1]
  · rw [← and_packed c _ a hlen1, and_packed_agree c hc32 _ a b hlen1 hlen2 hagree]

/-- Witness of C3: width 32, dimension 10, radius 1 and the selectors
`sel j k = (j + k) % 2 == 0`; the vectors `1111111111` and `1111011111` differ
in one bit. -/
theorem covering_collision_witness :
    (0 < 32 ∧ 32 ≤ 32 ∧ 1 + 1 < 32) ∧
    ∃ t, table.covering 32 10 1 (fun j k => (j + k) % 2 == 0) = some (.ok t) ∧
      ∀ (a b : List Bool) (u v : vector) (k : Nat), a.length = 10 → b.length = 10 →
        vector.ofBools 32 a = some u → vector.ofBools 32 b = some v →
        vector.distance u v = .ok k → k ≤ 1 →
        ∃ i m ku kv, i < t.partitions_.length ∧ t.masks_[i]? = some m ∧
          vector.and m u = .ok ku ∧ vector.and m v = .ok kv ∧
          vector.hash id ku = vector.hash id kv :=
  ⟨by decide,
    covering_collision id 32 (by decide) (by decide) 10 1 (by decide)
      (fun j k => (j + k) % 2 == 0)⟩

/-! ## The layout of the packed words -/

theorem valBE_snoc (l : List Bool) (x : Bool) : valBE (l ++ [x]) = 2 * valBE l + x.toNat := by
  simp [valBE, List.foldl_append]

theorem valBE_testBit (l : List Bool) :
    ∀ k, (valBE l).testBit k = (decide (k < l.length) && l.getD (l.length - 1 - k) false) := by
  induction l using List.reverseRecOn with
  | nil => intro k; simp [valBE]
  | append_singleton l x ih =>
    intro k
    rw [valBE_snoc]
    cases k with
    | zero =>
      rw [Nat.testBit_zero]
      have h1 : (l ++ [x]).length - 1 - 0 = l.length := by simp
      rw [h1, List.getD_append_right _ _ _ _ (le_refl _)]
      cases x
      · simp
      · simp; omega
    | succ k =>
      rw [Nat.testBit_succ]
      have h2 : (2 * valBE l + x.toNat) / 2 = valBE l := by
        cases x
        · simp
        · simp; omega
      rw [h2, ih k]
      by_cases hk : k < l.length
      · have h3 : (l ++ [x]).length - 1 - (k + 1) = l.length - 1 - k := by
          simp only [List.length_append, List.length_singleton]; omega
        rw [h3, List.getD_append _ _ _ _ (by omega)]
        simp [hk]
      · simp [hk]

theorem getD_zipWith_and (a b : List Bool) (j : Nat) :
    (List.zipWith (fun x y => x && y) a b).getD j false
      = (a.getD j false && b.getD j false) := by
  simp only [List.getD_eq_getElem?_getD, List.getElem?_zipWith]
  cases a[j]? <;> cases b[j]? <;> simp

theorem chunkWord_and (a b : List Bool) (i n : Nat) (hn : n ≤ 32) :
    chunkWord a i n &&& chunkWord b i n
      = chunkWord (List.zipWith (fun x y => x && y) a b) i n := by
  apply Nat.eq_of_testBit_eq
  intro k
  simp only [Nat.testBit_and, chunkWord_testBit _ _ _ _ hn, getD_zipWith_and]
  by_cases hk : k < n <;> simp [hk]

theorem and_packed_zip (c : Nat) (hc32 : c ≤ 32) (a b : List Bool) (hab : a.length = b.length) :
    vector.and (packed c a) (packed c b)
      = .ok (packed c (List.zipWith (fun x y => x && y) a b)) := by
  rw [and_packed c a b hab]
  have hl : (List.zipWith (fun x y => x && y) a b).length = a.length := by
    simp [hab]
  simp only [packed, vector.ofChunks, hl]
  congr 2
  apply List.map_congr_left
  intro p hp
  exact chunkWord_and a b p.1 p.2 (le_trans (chunkList_le c _ _ _ p hp) hc32)

theorem eq_self (v : vector) : vector.eq v v = true := by
  simp [vector.eq, distance_self]

theorem zipWith_and_self (a : List Bool) : List.zipWith (fun x y => x && y) a a = a := by
  induction a with
  | nil => rfl
  | cons x xs ih => simp [ih]

/-- C19: for a packing width `c` between 1 and 32 and boolean sequences `a`, `b`
of the same length, `vector(a) AND vector(b)` is the vector built from the
pointwise conjunction, word for word and by `==`; `u AND u == u` for the packed
`u`; and AND fails with `invalid_argument` for operands of different size. -/
theorem and_pointwise (c : Nat) (hc : 0 < c) (hc32 : c ≤ 32) (a b : List Bool)
    (hab : a.length = b.length) :
    ∃ u v r p, vector.ofBools c a = some u ∧ vector.ofBools c b = some v ∧
      vector.and u v = .ok r ∧
      vector.ofBools c (List.zipWith (fun x y => x && y) a b) = some p ∧
      r = p ∧ vector.eq r p = true ∧
      (∃ r2, vector.and u u = .ok r2 ∧ r2 = u ∧ vector.eq r2 u = true) ∧
      ∀ x y : vector, x.size ≠ y.size → vector.and x y = .error .invalid_argument := by
  refine ⟨_, _, _, _, ofBools_packed c hc a, ofBools_packed c hc b,
    and_packed_zip c hc32 a b hab, ofBools_packed c hc _, rfl, eq_self _, ?_, ?_⟩
  · refine ⟨packed c a, ?_, rfl, eq_self _⟩
    rw [and_packed_zip c hc32 a a rfl, zipWith_and_self]
  · intro x y hxy
    simp [vector.and, hxy]

/-- Witness of C19 at width 32: `1100...` AND `1010...` over 34 bits. -/
theorem and_pointwise_witness :
    (0 < 32 ∧ 32 ≤ 32 ∧
      ([true, true, false, false] ++ List.replicate 30 true).length
        = ([true, false, true, false] ++ List.replicate 30 true).length) ∧
    vector.and ⟨34, [3489660927, 3]⟩ ⟨34, [2952790015, 3]⟩ = .ok ⟨34, [2415919103, 3]⟩ ∧
    ∃ u v r p,
      vector.ofBools 32 ([true, true, false, false] ++ List.replicate 30 true) = some u ∧
      vector.ofBools 32 ([true, false, true, false] ++ List.replicate 30 true) = some v ∧
      vector.and u v = .ok r ∧
      vector.ofBools 32 (List.zipWith (fun x y => x && y)
        ([true, true, false, false] ++ List.replicate 30 true)
        ([true, false, true, false] ++ List.replicate 30 true)) = some p ∧
      r = p ∧ vector.eq r p = true ∧
      (∃ r2, vector.and u u = .ok r2 ∧ r2 = u ∧ vector.eq r2 u = true) ∧
      ∀ x y : vector, x.size ≠ y.size → vector.and x y = .error .invalid_argument :=
  ⟨by decide, by decide,
    and_pointwise 32 (by decide) (by decide) _ _ (by decide)⟩

/-! ## The classic and the covering masks -/

theorem classicMasks_eq (c : Nat) (hc : 0 < c) (d s : Nat) (draws : Nat → Nat → Nat)
    (is : List Nat) :
    classicMasks c d s draws is
      = some (is.map (fun i => packed c (classicBits d s (draws i)))) := by
  induction is with
  | nil => rfl
  | cons i is ih => simp [classicMasks, ofBools_packed c hc, ih]

theorem count_set_true_le (cs : List Bool) (i : Nat) :
    (cs.set i true).count true ≤ cs.count true + 1 := by
  by_cases h : i < cs.length
  · rw [List.count_set _ _ _ _ h]
    simp only [beq_self_eq_true, if_true]
    omega
  · rw [List.set_eq_of_length_le (by omega)]
    omega

theorem classicBits_count (d s : Nat) (draw : Nat → Nat) :
    (classicBits d s draw).count true ≤ s := by
  unfold classicBits
  have h : ∀ (L : List Nat) (cs : List Bool),
      (L.foldl (fun cs k => cs.set (draw k) true) cs).count true
        ≤ cs.count true + L.length := by
    intro L
    induction L with
    | nil => intro cs; simp
    | cons k L ih =>
      intro cs
      simp only [List.foldl_cons, List.length_cons]
      have h1 := ih (cs.set (draw k) true)
      have h2 := count_set_true_le cs (draw k)
      omega
  have h0 := h (List.range s) (List.replicate d false)
  have hz : (List.replicate d false).count true = 0 := by
    rw [List.count_replicate]; simp
  simpa [hz] using h0

theorem countP_range_getD (a : List Bool) :
    (List.range a.length).countP (fun j => a.getD j false) = a.count true := by
  induction a with
  | nil => rfl
  | cons x xs ih =>
    rw [List.length_cons, List.range_succ_eq_map, List.countP_cons, List.countP_map]
    have h1 : List.countP ((fun j => (x :: xs).getD j false) ∘ Nat.succ) (List.range xs.length)
        = List.countP (fun j => xs.getD j false) (List.range xs.length) := by
      apply List.countP_congr
      intro j _
      simp
    rw [h1, ih, List.count_cons]
    cases x <;> simp

theorem popcount_packed (c : Nat) (hc : 0 < c) (hc32 : c ≤ 32) (a : List Bool) :
    ((packed c a).components_.map popcount).sum = a.count true := by
  unfold packed
  simp only [List.map_map]
  have hmap : (chunkList c a.length a.length 0).map
        (popcount ∘ fun p => chunkWord a p.1 p.2)
      = (chunkList c a.length a.length 0).map
        (fun p => (List.range p.2).countP (fun j => a.getD (p.1 + j) false)) := by
    apply List.map_congr_left
    intro p hp
    have h := popcount_chunk_and a a p.1 p.2 (le_trans (chunkList_le c _ _ _ p hp) hc32)
    simp only [Nat.and_self, Bool.and_self] at h
    exact h
  rw [hmap, chunkList_countP c a.length hc (fun j => a.getD j false) a.length 0 (by omega)]
  simp only [Nat.sub_zero, Nat.zero_add]
  exact countP_range_getD a

theorem classic_eq (c : Nat) (hc : 0 < c) (d s p : Nat) (draws : Nat → Nat → Nat) :
    table.classic c d s p draws = some
      { dimensions_ := d
        masks_ := (List.range p).map (fun i => packed c (classicBits d s (draws i)))
        partitions_ := ((List.range p).map
          (fun i => packed c (classicBits d s (draws i)))).map (fun _ => [])
        vectors_ := []
        next_id_ := 0 } := by
  simp only [table.classic, classicMasks_eq c hc, Option.map_some', NEXT_ID_INIT]

/-- C13: for a packing width `c` between 1 and 32, every `d >= 1`, `s`, `p` and
every outcome `draws` of the position draws in `[0, d)`, `classic(d, s, p)`
returns a table of dimension `d` with exactly `p` masks and `p` empty
partitions; every mask has size `d` and at most `s` one-bits in its words. -/
theorem classic_construction (c : Nat) (hc : 0 < c) (hc32 : c ≤ 32) (d s p : Nat)
    (hd : 1 ≤ d) (draws : Nat → Nat → Nat) (hdr : ∀ i k, draws i k < d) :
    ∃ t, table.classic c d s p draws = some t ∧ t.dimensions_ = d ∧
      t.masks_.length = p ∧ t.partitions_.length = p ∧ (∀ q ∈ t.partitions_, q = []) ∧
      t.vectors_ = [] ∧
      ∀ m ∈ t.masks_, m.size = d ∧ (m.components_.map popcount).sum ≤ s := by
  have _hd := hd
  have _hdr := hdr
  refine ⟨_, classic_eq c hc d s p draws, rfl, by simp, by simp, ?_, rfl, ?_⟩
  · intro q hq
    simp only [List.mem_map] at hq
    obtain ⟨_, _, rfl⟩ := hq
    rfl
  · intro m hm
    simp only [List.mem_map, List.mem_range] at hm
    obtain ⟨i, _, rfl⟩ := hm
    refine ⟨?_, ?_⟩
    · simp [packed, vector.size, classicBits_length]
    · rw [popcount_packed c hc hc32]
      exact classicBits_count d s (draws i)

/-- Witness of C13: `classic(16, 4, 5)` at width 32 with the draws
`(7 i + 3 k) mod 16`. -/
theorem classic_construction_witness :
    (0 < 32 ∧ 32 ≤ 32 ∧ 1 ≤ 16 ∧ ∀ i k, (i * 7 + k * 3) % 16 < 16) ∧
    ∃ t, table.classic 32 16 4 5 (fun i k => (i * 7 + k * 3) % 16) = some t ∧
      t.dimensions_ = 16 ∧ t.masks_.length = 5 ∧ t.partitions_.length = 5 ∧
      (∀ q ∈ t.partitions_, q = []) ∧ t.vectors_ = [] ∧
      ∀ m ∈ t.masks_, m.size = 16 ∧ (m.components_.map popcount).sum ≤ 4 :=
  ⟨⟨by decide, by decide, by decide, fun i k => Nat.mod_lt _ (by decide)⟩,
    classic_construction 32 (by decide) (by decide) 16 4 5 (by decide)
      (fun i k => (i * 7 + k * 3) % 16) (fun i k => Nat.mod_lt _ (by decide))⟩

theorem dot_selector (c : Nat) (hc : 0 < c) (hc32 : c ≤ 32) (x : Nat)
    (sel : Nat → Nat → Bool) (i j : Nat) :
    vector.dot (packed c ((List.range x).map (sel j))) (packed c (coveringBits x i))
      = .ok ((List.range x).countP (fun k => sel j k && ((i >>> (x - k - 1)) % 2 == 1))) := by
  rw [dot_packed c hc hc32 _ _ (by simp [coveringBits])]
  congr 1
  simp only [List.length_map, List.length_range]
  apply List.countP_congr
  intro k hk
  simp only [List.mem_range] at hk
  rw [getD_map_range _ x k hk]
  unfold coveringBits
  rw [getD_map_range _ x k hk]

theorem valBE_coveringBits (x i : Nat) (hi : i < 2 ^ x) : valBE (coveringBits x i) = i := by
  apply Nat.eq_of_testBit_eq
  intro k
  have hlen : (coveringBits x i).length = x := by simp [coveringBits]
  rw [valBE_testBit, hlen]
  by_cases hk : k < x
  · unfold coveringBits
    rw [getD_map_range _ x _ (by omega), shift_bit]
    have : x - (x - 1 - k) - 1 = k := by omega
    simp [hk, this]
  · have h1 : i < 2 ^ k := lt_of_lt_of_le hi (Nat.pow_le_pow_right (by decide) (by omega))
    simp [hk, Nat.testBit_lt_two_pow h1]

/-- C14: for a packing width `c` between 1 and 32, every `d`, every radius `r`
with `r + 1 < 32` and every outcome `sel` of the random selectors,
`covering(d, r)` returns a table of dimension `d` with exactly `2 ^ (r + 1) - 1`
masks of size `d` and as many empty partitions; for `i` in `[1, 2 ^ (r + 1))`,
mask number `i - 1` is built from a sequence whose bit `j` is the parity of the
dot product of selector `j` with the `(r + 1)`-bit most-significant-bit-first
representation of `i`. -/
theorem covering_construction (c : Nat) (hc : 0 < c) (hc32 : c ≤ 32) (d r : Nat)
    (hr : r + 1 < 32) (sel : Nat → Nat → Bool) :
    ∃ t, table.covering c d r sel = some (.ok t) ∧ t.dimensions_ = d ∧
      t.masks_.length = 2 ^ (r + 1) - 1 ∧ t.partitions_.length = 2 ^ (r + 1) - 1 ∧
      (∀ q ∈ t.partitions_, q = []) ∧ t.vectors_ = [] ∧ (∀ m ∈ t.masks_, m.size = d) ∧
      ∀ i, 1 ≤ i → i < 2 ^ (r + 1) →
        (coveringBits (r + 1) i).length = r + 1 ∧ valBE (coveringBits (r + 1) i) = i ∧
        ∃ bits, bits.length = d ∧ vector.ofBools c bits = t.masks_[i - 1]? ∧
          ∀ j, j < d → ∃ mj vi k, vector.random c (r + 1) (sel j) = some mj ∧
            vector.ofBools c (coveringBits (r + 1) i) = some vi ∧
            vector.dot mj vi = .ok k ∧ bits.getD j false = (k % 2 == 1) := by
  refine ⟨_, covering_eq c hc hc32 d r hr sel, rfl, by simp, by simp, ?_, rfl, ?_, ?_⟩
  · intro q hq
    simp only [List.mem_map] at hq
    obtain ⟨_, _, rfl⟩ := hq
    rfl
  · intro m hm
    simp only [List.mem_map] at hm
    obtain ⟨i, _, rfl⟩ := hm
    simp [packed, vector.size]
  · intro i hi1 hi2
    refine ⟨by simp [coveringBits], valBE_coveringBits _ i hi2,
      (List.range d).map (coveringEntry (r + 1) sel i), by simp, ?_, ?_⟩
    · have hidx : i - 1 < 2 ^ (r + 1) - 1 := by omega
      have h1 : 1 + (i - 1) = i := by omega
      simp only [List.getElem?_map]
      rw [List.getElem?_eq_getElem (by simpa using hidx), List.getElem_range',
        ofBools_packed c hc]
      simp [h1]
    · intro j hj
      refine ⟨_, _, _, ofBools_packed c hc _, ofBools_packed c hc _,
        dot_selector c hc hc32 (r + 1) sel i j, ?_⟩
      rw [getD_map_range _ d j hj]
      rfl

/-- Witness of C14: `covering(10, 1)` at width 32 with the selectors
`sel j k = (j + k) % 2 == 0`; the three masks are `0101010101`, `1010101010`
and `1111111111`. -/
theorem covering_construction_witness :
    (0 < 32 ∧ 32 ≤ 32 ∧ 1 + 1 < 32) ∧
    table.covering 32 10 1 (fun j k => (j + k) % 2 == 0)
      = some (.ok ⟨10, [⟨10, [341]⟩, ⟨10, [682]⟩, ⟨10, [1023]⟩], [[], [], []], [], 0⟩) ∧
    ∃ t, table.covering 32 10 1 (fun j k => (j + k) % 2 == 0) = some (.ok t) ∧
      t.dimensions_ = 10 ∧
      t.masks_.length = 2 ^ (1 + 1) - 1 ∧ t.partitions_.length = 2 ^ (1 + 1) - 1 ∧
      (∀ q ∈ t.partitions_, q = []) ∧ t.vectors_ = [] ∧ (∀ m ∈ t.masks_, m.size = 10) ∧
      ∀ i, 1 ≤ i → i < 2 ^ (1 + 1) →
        (coveringBits (1 + 1) i).length = 1 + 1 ∧ valBE (coveringBits (1 + 1) i) = i ∧
        ∃ bits, bits.length = 10 ∧ vector.ofBools 32 bits = t.masks_[i - 1]? ∧
          ∀ j, j < 10 → ∃ mj vi k,
            vector.random 32 (1 + 1) ((fun j k => (j + k) % 2 == 0) j) = some mj ∧
            vector.ofBools 32 (coveringBits (1 + 1) i) = some vi ∧
            vector.dot mj vi = .ok k ∧ bits.getD j false = (k % 2 == 1) :=
  ⟨by decide, by decide,
    covering_construction 32 (by decide) (by decide) 10 1 (by decide)
      (fun j k => (j + k) % 2 == 0)⟩

/-! ## Fresh identifiers -/

theorem push_find_self (p : partition) (k u : Nat) :
    partition.find (partition.push p k u) k
      = some ((partition.find p k).getD [] ++ [u]) := by
  induction p with
  | nil => simp [partition.push, partition.find]
  | cons hd tl ih =>
    obtain ⟨k0, b⟩ := hd
    by_cases h : k0 = k
    · subst h; simp [partition.push, partition.find]
    · simp only [partition.find] at ih
      simp [partition.push, partition.find, h, ih]

theorem push_find_other (p : partition) (k u key : Nat) (hne : key ≠ k) :
    partition.find (partition.push p k u) key = partition.find p key := by
  induction p with
  | nil =>
    have h : ¬ k = key := fun e => hne e.symm
    simp [partition.push, partition.find, h]
  | cons hd tl ih =>
    obtain ⟨k0, b⟩ := hd
    by_cases h : k0 = k
    · subst h
      have h1 : ¬ k0 = key := fun e => hne e.symm
      simp [partition.push, partition.find, h1]
    · simp only [partition.find] at ih
      by_cases h2 : k0 = key
      · subst h2
        simp [partition.push, partition.find, h]
      · simp [partition.push, partition.find, h, h2, ih]

theorem insertLoop_index (hasher : Nat → Nat) (v : vector) (u : Nat) :
    ∀ (masks : List vector) (parts : List partition), masks.length = parts.length →
      (∀ m ∈ masks, m.size = v.size) →
      (table.insertLoop hasher v u masks parts).2.length = parts.length ∧
      ∀ i m p, masks[i]? = some m → parts[i]? = some p →
        ∃ k, vector.and m v = .ok k ∧
          List.get? (table.insertLoop hasher v u masks parts).2 i
            = some (partition.push p (vector.hash hasher k) u) := by
  intro masks
  induction masks with
  | nil =>
    intro parts hl _
    cases parts with
    | nil => simp [table.insertLoop]
    | cons p ps => simp at hl
  | cons m0 ms ih =>
    intro parts hl hs
    cases parts with
    | nil => simp at hl
    | cons p0 ps =>
      have hm : m0.size = v.size := hs m0 (by simp)
      obtain ⟨ih1, ih2⟩ := ih ps (by simpa using hl) (fun m hm => hs m (by simp [hm]))
      simp only [table.insertLoop, and_ok m0 v hm]
      refine ⟨by simp [ih1], ?_⟩
      intro i m p hmi hpi
      cases i with
      | zero =>
        simp only [List.getElem?_cons_zero, Option.some.injEq] at hmi hpi
        subst hmi
        subst hpi
        exact ⟨_, and_ok m0 v hm, rfl⟩
      | succ i =>
        simp only [List.getElem?_cons_succ] at hmi hpi
        exact ih2 i m p hmi hpi

theorem insert_fields (hasher : Nat → Nat) (t : table) (w : vector)
    (h : w.size = t.dimensions_) :
    (table.insert hasher t w).2.next_id_ = (t.next_id_ + 1) % 2 ^ 32 ∧
      (table.insert hasher t w).2.dimensions_ = t.dimensions_ ∧
      (table.insert hasher t w).2.masks_ = t.masks_ := by
  have hne : ¬ t.dimensions_ ≠ w.size := fun e => e h.symm
  simp [table.insert, hne]

theorem insert_mismatch (hasher : Nat → Nat) (t : table) (w : vector)
    (h : ¬ w.size = t.dimensions_) : (table.insert hasher t w).2 = t := by
  have hne : t.dimensions_ ≠ w.size := fun e => h e.symm
  simp [table.insert, hne]

theorem next_id_run (hasher : Nat → Nat) :
    ∀ (ops : List Op) (t : table), t.next_id_ < 2 ^ 32 →
      (table.run hasher t ops).next_id_
        = (t.next_id_ + successes t.dimensions_ ops) % 2 ^ 32 ∧
      (table.run hasher t ops).dimensions_ = t.dimensions_ := by
  intro ops
  induction ops with
  | nil =>
    intro t ht
    have hmod : t.next_id_ % 4294967296 = t.next_id_ := Nat.mod_eq_of_lt (by omega)
    simp [table.run, successes, hmod]
  | cons op ops ih =>
    intro t ht
    cases op with
    | insert w =>
      by_cases hw : w.size = t.dimensions_
      · obtain ⟨e1, e2, _⟩ := insert_fields hasher t w hw
        obtain ⟨h1, h2⟩ := ih (table.insert hasher t w).2
          (by rw [e1]; exact Nat.mod_lt _ (by decide))
        have hs : successes t.dimensions_ (Op.insert w :: ops)
            = successes t.dimensions_ ops + 1 := by
          simp [successes, List.countP_cons, hw]
        simp only [table.run, List.foldl_cons, table.step] at h1 h2 ⊢
        rw [h1, h2, e1, e2, hs]
        exact ⟨by omega, rfl⟩
      · have hs : successes t.dimensions_ (Op.insert w :: ops)
            = successes t.dimensions_ ops := by
          simp [successes, List.countP_cons, hw]
        obtain ⟨h1, h2⟩ := ih t ht
        simp only [table.run, List.foldl_cons, table.step, insert_mismatch hasher t w hw,
          hs] at h1 h2 ⊢
        exact ⟨h1, h2⟩
    | erase w =>
      obtain ⟨_, e2, e3, _⟩ := erase_fields t w
      obtain ⟨h1, h2⟩ := ih (table.erase t w).2 (by rw [e3]; exact ht)
      have hs : successes t.dimensions_ (Op.erase w :: ops)
          = successes t.dimensions_ ops := by
        simp [successes, List.countP_cons]
      simp only [table.run, List.foldl_cons, table.step] at h1 h2 ⊢
      rw [h1, h2, e2, e3, hs]
      exact ⟨rfl, rfl⟩

theorem successes_le_inserts (d : Nat) (ops : List Op) : successes d ops ≤ inserts ops := by
  unfold successes inserts
  apply List.countP_mono_left
  intro op _ h
  cases op <;> simp_all

theorem successes_append (d : Nat) (l1 l2 : List Op) :
    successes d (l1 ++ l2) = successes d l1 + successes d l2 := by
  simp [successes, List.countP_append]

theorem inserts_append (l1 l2 : List Op) : inserts (l1 ++ l2) = inserts l1 + inserts l2 := by
  simp [inserts, List.countP_append]

/-- C17: for a constructed table (counter at 0) and every sequence of calls with
fewer than `2 ^ 32` insertions, `insert(v)` of a vector of the table's size
succeeds and stores `v` under the identifier `u` equal to the number of
successful insertions so far; `size()` grows by one; in every partition `u` is
appended at the end of the bucket keyed by the hash of the masked vector and
every other bucket is untouched; every stored identifier is smaller than `u`;
and every earlier successful insertion received the number of successful
insertions before it, which is smaller than `u`. -/
theorem insert_fresh_identifier (hasher : Nat → Nat) (c : Nat) (t0 : table) (ops : List Op)
    (v : vector) (hb : table.Built c t0) (hn : inserts ops < 2 ^ 32)
    (hv : v.size = t0.dimensions_) :
    (table.run hasher t0 ops).next_id_ = successes t0.dimensions_ ops ∧
    (table.insert hasher (table.run hasher t0 ops) v).1 = .ok () ∧
    (table.insert hasher (table.run hasher t0 ops) v).2.vectors_
      = (table.run hasher t0 ops).vectors_ ++ [(successes t0.dimensions_ ops, v)] ∧
    table.size (table.insert hasher (table.run hasher t0 ops) v).2
      = table.size (table.run hasher t0 ops) + 1 ∧
    (table.insert hasher (table.run hasher t0 ops) v).2.partitions_.length
      = (table.run hasher t0 ops).partitions_.length ∧
    (∀ (i : Nat) (m : vector) (p : partition),
      (table.run hasher t0 ops).masks_[i]? = some m →
      (table.run hasher t0 ops).partitions_[i]? = some p →
      ∃ k p1, vector.and m v = .ok k ∧
        (table.insert hasher (table.run hasher t0 ops) v).2.partitions_[i]? = some p1 ∧
        partition.find p1 (vector.hash hasher k)
          = some ((partition.find p (vector.hash hasher k)).getD []
              ++ [successes t0.dimensions_ ops]) ∧
        ∀ key, key ≠ vector.hash hasher k → partition.find p1 key = partition.find p key) ∧
    (∀ it ∈ (table.run hasher t0 ops).vectors_, it.1 < successes t0.dimensions_ ops) ∧
    (∀ ops1 w ops2, ops = ops1 ++ Op.insert w :: ops2 → w.size = t0.dimensions_ →
      (table.run hasher t0 ops1).next_id_ = successes t0.dimensions_ ops1 ∧
      successes t0.dimensions_ ops1 < successes t0.dimensions_ ops) := by
  have hinit := built_initial c t0 hb
  have h0 : t0.next_id_ < 2 ^ 32 := by rw [hinit.2.1]; decide
  have hcount : ∀ l, inserts l < 2 ^ 32 →
      (table.run hasher t0 l).next_id_ = successes t0.dimensions_ l := by
    intro l hl
    rw [(next_id_run hasher l t0 h0).1, hinit.2.1, Nat.zero_add]
    exact Nat.mod_eq_of_lt (lt_of_le_of_lt (successes_le_inserts _ l) hl)
  have hnext := hcount ops hn
  obtain ⟨k, _, hI, hlt, hk, hmasks, hdim⟩ := reach_inv hasher c t0 ops hb (by omega)
  have hkeq : k = successes t0.dimensions_ ops := by
    have hk32 : k < 2 ^ 32 := by omega
    rw [Nat.mod_eq_of_lt hk32] at hk
    rw [← hnext, hk]
  have hfresh : (table.run hasher t0 ops).next_id_
      ∉ (table.run hasher t0 ops).vectors_.map (fun it => it.1) := by
    intro hmem
    simp only [List.mem_map] at hmem
    obtain ⟨it, hit, he⟩ := hmem
    have := hlt it hit
    omega
  have hv1 : v.size = (table.run hasher t0 ops).dimensions_ := by rw [hdim, hv]
  obtain ⟨h1, _, hvs1, _, _, _, _⟩ :=
    insert_inv hasher (table.run hasher t0 ops) v hI hv1 hfresh
  have hne : ¬ (table.run hasher t0 ops).dimensions_ ≠ v.size := fun e => e hv1.symm
  obtain ⟨hl1, hidx⟩ := insertLoop_index hasher v (table.run hasher t0 ops).next_id_
    (table.run hasher t0 ops).masks_ (table.run hasher t0 ops).partitions_
    hI.parts.length_eq (fun m hm => (hI.masks_size m hm).trans hv1.symm)
  have hparts : (table.insert hasher (table.run hasher t0 ops) v).2.partitions_
      = (table.insertLoop hasher v (table.run hasher t0 ops).next_id_
          (table.run hasher t0 ops).masks_ (table.run hasher t0 ops).partitions_).2 := by
    simp [table.insert, hne]
  refine ⟨hnext, h1, by rw [hvs1, hnext], ?_, by rw [hparts, hl1], ?_, ?_, ?_⟩
  · simp [table.size, hvs1]
  · intro i m p hm hp
    obtain ⟨k1, hand, hget⟩ := hidx i m p hm hp
    refine ⟨k1, partition.push p (vector.hash hasher k1)
      (table.run hasher t0 ops).next_id_, hand, ?_, ?_, ?_⟩
    · rw [hparts, ← List.get?_eq_getElem?]
      exact hget
    · rw [push_find_self, hnext]
    · intro key hkey
      exact push_find_other p _ _ key hkey
  · intro it hit
    have := hlt it hit
    omega
  · intro ops1 w ops2 hops hw
    have hi1 : inserts ops1 < 2 ^ 32 := by
      have : inserts ops = inserts ops1 + inserts (Op.insert w :: ops2) := by
        rw [hops, inserts_append]
      omega
    refine ⟨hcount ops1 hi1, ?_⟩
    have hs : successes t0.dimensions_ (Op.insert w :: ops2)
        = successes t0.dimensions_ ops2 + 1 := by
      simp [successes, List.countP_cons, hw]
    rw [hops, successes_append, hs]
    omega

/-- Witness of C17: the brute-force table of dimension 8 after two insertions,
one failed insertion of a vector of size 3 and the erasure of the first vector;
the next insertion receives identifier 2. -/
theorem insert_fresh_identifier_witness :
    (table.insert id (table.run id ⟨8, [⟨8, [0]⟩], [[]], [], 0⟩
        [Op.insert ⟨8, [170]⟩, Op.insert ⟨3, [5]⟩, Op.insert ⟨8, [15]⟩, Op.erase ⟨8, [170]⟩])
        ⟨8, [240]⟩).2
      = ⟨8, [⟨8, [0]⟩], [[(0, [1, 2])]], [(1, ⟨8, [15]⟩), (2, ⟨8, [240]⟩)], 3⟩ ∧
    (table.run id ⟨8, [⟨8, [0]⟩], [[]], [], 0⟩
        [Op.insert ⟨8, [170]⟩, Op.insert ⟨3, [5]⟩, Op.insert ⟨8, [15]⟩,
          Op.erase ⟨8, [170]⟩]).next_id_
      = successes 8
        [Op.insert ⟨8, [170]⟩, Op.insert ⟨3, [5]⟩, Op.insert ⟨8, [15]⟩, Op.erase ⟨8, [170]⟩] :=
  ⟨by decide,
    (insert_fresh_identifier id 32 ⟨8, [⟨8, [0]⟩], [[]], [], 0⟩
      [Op.insert ⟨8, [170]⟩, Op.insert ⟨3, [5]⟩, Op.insert ⟨8, [15]⟩, Op.erase ⟨8, [170]⟩]
      ⟨8, [240]⟩ (Or.inl ⟨8, by decide⟩) (by decide) (by decide)).1⟩

/-! ## The bucket count of `stats` -/

theorem push_nonempty (p : partition) (k u : Nat) (h : ∀ it ∈ p, it.2 ≠ []) :
    ∀ it ∈ partition.push p k u, it.2 ≠ [] := by
  intro it hit
  induction p with
  | nil =>
    simp only [partition.push, List.mem_singleton] at hit
    subst hit
    simp
  | cons hd tl ih =>
    obtain ⟨k0, b⟩ := hd
    by_cases hk : k0 = k
    · simp only [partition.push, hk, if_true, List.mem_cons] at hit
      rcases hit with rfl | hit
      · simp
      · exact h it (by simp [hit])
    · simp only [partition.push, hk, if_false, List.mem_cons] at hit
      rcases hit with rfl | hit
      · exact h _ (by simp)
      · exact ih (fun it0 h0 => h it0 (by simp [h0])) hit

theorem insertLoop_nonempty (hasher : Nat → Nat) (v : vector) (u : Nat) :
    ∀ (masks : List vector) (parts : List partition),
      (∀ p ∈ parts, ∀ it ∈ p, it.2 ≠ []) →
      ∀ p ∈ (table.insertLoop hasher v u masks parts).2, ∀ it ∈ p, it.2 ≠ [] := by
  intro masks
  induction masks with
  | nil =>
    intro parts h
    cases parts with
    | nil => simp [table.insertLoop]
    | cons p0 ps => simpa [table.insertLoop] using h
  | cons m0 ms ih =>
    intro parts h
    cases parts with
    | nil => simp [table.insertLoop]
    | cons p0 ps =>
      simp only [table.insertLoop]
      cases vector.and m0 v with
      | error e => simpa using h
      | ok k =>
        intro p hp
        simp only [List.mem_cons] at hp
        rcases hp with rfl | hp
        · exact push_nonempty p0 _ u (h p0 (by simp))
        · exact ih ps (fun q hq => h q (by simp [hq])) p hp

theorem run_inserts_nonempty (hasher : Nat → Nat) :
    ∀ (ops : List Op) (t : table), (∀ op ∈ ops, ∃ w, op = Op.insert w) →
      (∀ p ∈ t.partitions_, ∀ it ∈ p, it.2 ≠ []) →
      ∀ p ∈ (table.run hasher t ops).partitions_, ∀ it ∈ p, it.2 ≠ [] := by
  intro ops
  induction ops with
  | nil => intro t _ h; exact h
  | cons op ops ih =>
    intro t hops h
    obtain ⟨w, rfl⟩ := hops op (by simp)
    simp only [table.run, List.foldl_cons, table.step]
    apply ih _ (fun o ho => hops o (by simp [ho]))
    unfold table.insert
    split
    · exact h
    · exact insertLoop_nonempty hasher w t.next_id_ t.masks_ t.partitions_ h

theorem occupied_le (ps : List partition) :
    (ps.map (fun p => p.countP (fun it => !it.2.isEmpty))).sum ≤ (ps.map List.length).sum := by
  induction ps with
  | nil => simp
  | cons p ps ih =>
    simp only [List.map_cons, List.sum_cons]
    have := List.countP_le_length (fun it : Nat × bucket => !it.2.isEmpty) (l := p)
    omega

theorem occupied_eq (ps : List partition) (h : ∀ p ∈ ps, ∀ it ∈ p, it.2 ≠ []) :
    (ps.map (fun p => p.countP (fun it => !it.2.isEmpty))).sum = (ps.map List.length).sum := by
  induction ps with
  | nil => simp
  | cons p ps ih =>
    simp only [List.map_cons, List.sum_cons]
    rw [ih (fun q hq => h q (by simp [hq]))]
    congr 1
    rw [List.countP_eq_length]
    intro it hit
    have := h p (by simp) it hit
    cases hb : it.2 with
    | nil => exact absurd hb this
    | cons _ _ => simp

/-- C15 (as amended): in every state reached from a constructed table,
`stats().buckets` is the number of buckets held by the partition maps, summed
over the partitions; the number of buckets that hold at least one identifier is
at most that, and the two are equal in every state reached by insertions
alone. -/
theorem stats_buckets_eq (hasher : Nat → Nat) (c : Nat) (t0 : table) (ops : List Op)
    (hb : table.Built c t0) :
    (table.stats (table.run hasher t0 ops)).buckets
      = ((table.run hasher t0 ops).partitions_.map List.length).sum ∧
    table.occupied (table.run hasher t0 ops)
      ≤ (table.stats (table.run hasher t0 ops)).buckets ∧
    ((∀ op ∈ ops, ∃ w, op = Op.insert w) →
      (table.stats (table.run hasher t0 ops)).buckets
        = table.occupied (table.run hasher t0 ops)) := by
  have hst : (table.stats (table.run hasher t0 ops)).buckets
      = ((table.run hasher t0 ops).partitions_.map List.length).sum := by
    simp only [table.stats, stats_fold, Nat.zero_add]
  refine ⟨hst, ?_, ?_⟩
  · rw [hst]
    exact occupied_le _
  · intro hops
    rw [hst]
    have hinit := built_initial c t0 hb
    have h0 : ∀ p ∈ t0.partitions_, ∀ it ∈ p, it.2 ≠ [] := by
      intro p hp it hit
      rw [hinit.2.2.1] at hp
      simp only [List.mem_map] at hp
      obtain ⟨_, _, rfl⟩ := hp
      simp at hit
    exact (occupied_eq _ (run_inserts_nonempty hasher ops t0 hops h0)).symm

/-- Witness of C15: the brute-force table of dimension 8 after three insertions
holds one bucket, which is occupied. -/
theorem stats_buckets_eq_witness :
    (table.stats (table.run id ⟨8, [⟨8, [0]⟩], [[]], [], 0⟩
        [Op.insert ⟨8, [240]⟩, Op.insert ⟨8, [15]⟩, Op.insert ⟨8, [224]⟩])).buckets = 1 ∧
    (table.stats (table.run id ⟨8, [⟨8, [0]⟩], [[]], [], 0⟩
        [Op.insert ⟨8, [240]⟩, Op.insert ⟨8, [15]⟩, Op.insert ⟨8, [224]⟩])).buckets
      = table.occupied (table.run id ⟨8, [⟨8, [0]⟩], [[]], [], 0⟩
        [Op.insert ⟨8, [240]⟩, Op.insert ⟨8, [15]⟩, Op.insert ⟨8, [224]⟩]) :=
  ⟨by decide,
    (stats_buckets_eq id 32 ⟨8, [⟨8, [0]⟩], [[]], [], 0⟩
      [Op.insert ⟨8, [240]⟩, Op.insert ⟨8, [15]⟩, Op.insert ⟨8, [224]⟩]
      (Or.inl ⟨8, by decide⟩)).2.2
      (by
        intro op hop
        simp only [List.mem_cons, List.mem_singleton, List.not_mem_nil, or_false] at hop
        rcases hop with rfl | rfl | rfl <;> exact ⟨_, rfl⟩)⟩

/-- C15 as stated fails once `erase` has emptied a bucket: in the brute-force
table of dimension 8, after `insert(10101010)` and `erase(10101010)` the single
partition still maps key 0 to an empty bucket, so `stats().buckets` is 1 while
no bucket holds an identifier. -/
theorem stats_buckets_after_erase :
    table.brute 32 8 = some ⟨8, [⟨8, [0]⟩], [[]], [], 0⟩ ∧
    table.run id ⟨8, [⟨8, [0]⟩], [[]], [], 0⟩ [Op.insert ⟨8, [170]⟩, Op.erase ⟨8, [170]⟩]
      = ⟨8, [⟨8, [0]⟩], [[(0, [])]], [], 1⟩ ∧
    (table.stats ⟨8, [⟨8, [0]⟩], [[(0, [])]], [], 1⟩).buckets = 1 ∧
    table.occupied ⟨8, [⟨8, [0]⟩], [[(0, [])]], [], 1⟩ = 0 := by
  refine ⟨by decide, by decide, by decide, by decide⟩

/-! ## The table invariant in reachable states -/

theorem forall₂_index {α β : Type} (R : α → β → Prop) (l1 : List α) (l2 : List β)
    (h : List.Forall₂ R l1 l2) :
    ∀ (i : Nat) (a : α) (b : β), l1[i]? = some a → l2[i]? = some b → R a b := by
  induction h with
  | nil => intro i a b ha; simp at ha
  | @cons a0 b0 l1 l2 hab _ ih =>
    intro i a b ha hb
    cases i with
    | zero =>
      simp only [List.getElem?_cons_zero, Option.some.injEq] at ha hb
      subst ha
      subst hb
      exact hab
    | succ i =>
      simp only [List.getElem?_cons_succ] at ha hb
      exact ih i a b ha hb

theorem forall₂_mem_right {α β : Type} (R : α → β → Prop) (l1 : List α) (l2 : List β)
    (h : List.Forall₂ R l1 l2) : ∀ b ∈ l2, ∃ a ∈ l1, R a b := by
  induction h with
  | nil => intro b hb; simp at hb
  | @cons a0 b0 l1 l2 hab _ ih =>
    intro b hb
    simp only [List.mem_cons] at hb
    rcases hb with rfl | hb
    · exact ⟨a0, by simp, hab⟩
    · obtain ⟨a, ha, hr⟩ := ih b hb
      exact ⟨a, by simp [ha], hr⟩

/-- C16 (as amended): in every state reached from a constructed table by a
sequence of calls with at most `2 ^ 32` insertions, there are as many masks as
partitions, the store holds one entry per identifier, and for every partition
`i` the buckets have distinct keys, the identifiers in the buckets are those of
the store, each exactly once, and each lies in the bucket keyed by
`hash(masks[i] AND vectors[u])`; every identifier in a bucket is found in the
store, and `query` returns for every vector of the table's size. -/
theorem table_invariant (hasher : Nat → Nat) (c : Nat) (t0 : table) (ops : List Op)
    (hb : table.Built c t0) (hn : inserts ops ≤ 2 ^ 32) :
    (table.run hasher t0 ops).masks_.length = (table.run hasher t0 ops).partitions_.length ∧
    ((table.run hasher t0 ops).vectors_.map (fun it => it.1)).Nodup ∧
    (∀ (i : Nat) (m : vector) (p : partition),
      (table.run hasher t0 ops).masks_[i]? = some m →
      (table.run hasher t0 ops).partitions_[i]? = some p →
      (p.map (fun it => it.1)).Nodup ∧
      (partition.ids p).Nodup ∧
      (partition.ids p).Perm ((table.run hasher t0 ops).vectors_.map (fun it => it.1)) ∧
      ∀ it ∈ p, ∀ u ∈ it.2, ∃ w k, (u, w) ∈ (table.run hasher t0 ops).vectors_ ∧
        vector.and m w = .ok k ∧ it.1 = vector.hash hasher k) ∧
    (∀ p ∈ (table.run hasher t0 ops).partitions_, ∀ it ∈ p, ∀ u ∈ it.2,
      ∃ w, store.at (table.run hasher t0 ops).vectors_ u = .ok w) ∧
    (∀ v : vector, v.size = (table.run hasher t0 ops).dimensions_ →
      ∃ r, table.query hasher (table.run hasher t0 ops) v = .ok r) := by
  obtain ⟨_, _, hI, _⟩ := reach_inv hasher c t0 ops hb hn
  refine ⟨hI.parts.length_eq, hI.keys_nodup, ?_, ?_, ?_⟩
  · intro i m p hm hp
    obtain ⟨h1, h2, h3⟩ := forall₂_index _ _ _ hI.parts i m p hm hp
    exact ⟨h1, h2.nodup_iff.mpr hI.keys_nodup, h2, h3⟩
  · intro p hp it hit u hu
    obtain ⟨m, _, _, _, h3⟩ := forall₂_mem_right _ _ _ hI.parts p hp
    obtain ⟨w, _, hw, _⟩ := h3 it hit u hu
    exact ⟨w, store_at_of_mem _ u w hI.keys_nodup hw⟩
  · intro v hv
    obtain ⟨best, _, hq, _⟩ := query_spec hasher _ v hI hv
    exact ⟨_, hq⟩

/-- Witness of C16: the brute-force table of dimension 8 after three insertions
and two erasures, one of them of a vector that is not stored. -/
theorem table_invariant_witness :
    table.run id ⟨8, [⟨8, [0]⟩], [[]], [], 0⟩
        [Op.insert ⟨8, [240]⟩, Op.insert ⟨8, [15]⟩, Op.erase ⟨8, [15]⟩,
          Op.insert ⟨8, [224]⟩, Op.erase ⟨8, [1]⟩]
      = ⟨8, [⟨8, [0]⟩], [[(0, [2])]], [(2, ⟨8, [224]⟩)], 3⟩ ∧
    ∀ v : vector, v.size = (table.run id ⟨8, [⟨8, [0]⟩], [[]], [], 0⟩
        [Op.insert ⟨8, [240]⟩, Op.insert ⟨8, [15]⟩, Op.erase ⟨8, [15]⟩,
          Op.insert ⟨8, [224]⟩, Op.erase ⟨8, [1]⟩]).dimensions_ →
      ∃ r, table.query id (table.run id ⟨8, [⟨8, [0]⟩], [[]], [], 0⟩
        [Op.insert ⟨8, [240]⟩, Op.insert ⟨8, [15]⟩, Op.erase ⟨8, [15]⟩,
          Op.insert ⟨8, [224]⟩, Op.erase ⟨8, [1]⟩]) v = .ok r :=
  ⟨by decide,
    (table_invariant id 32 ⟨8, [⟨8, [0]⟩], [[]], [], 0⟩
      [Op.insert ⟨8, [240]⟩, Op.insert ⟨8, [15]⟩, Op.erase ⟨8, [15]⟩,
        Op.insert ⟨8, [224]⟩, Op.erase ⟨8, [1]⟩]
      (Or.inl ⟨8, by decide⟩) (by decide)).2.2.2.2⟩

/-- C16 as stated fails after `2 ^ 32 + 1` insertions: once the counter has
wrapped, `insert(00000001)` puts identifier 0 into the bucket a second time, and
after `erase(10101010)` the bucket still holds identifier 0 while the store is
empty, so the lookup of identifier 0 and with it `query` throw
`out_of_range`. -/
theorem table_invariant_after_wrap :
    table.brute 32 8 = some ⟨8, [⟨8, [0]⟩], [[]], [], 0⟩ ∧
    table.run id ⟨8, [⟨8, [0]⟩], [[]], [], 0⟩
        (Op.insert ⟨8, [170]⟩ :: churn ⟨8, [1]⟩ (2 ^ 32 - 1)
          ++ [Op.insert ⟨8, [1]⟩, Op.erase ⟨8, [170]⟩])
      = ⟨8, [⟨8, [0]⟩], [[(0, [0])]], [], 1⟩ ∧
    partition.ids [(0, [0])] = [0] ∧
    store.at [] 0 = .error .out_of_range ∧
    table.query id ⟨8, [⟨8, [0]⟩], [[(0, [0])]], [], 1⟩ ⟨8, [1]⟩ = .error .out_of_range := by
  refine ⟨by decide, ?_, by decide, by decide, by decide⟩
  rw [wrap_reached]
  decide

/-! ## The not-found path of `erase` -/

theorem findId_none (vs : store) (v : vector) (h : ∀ it ∈ vs, vector.eq it.2 v = false) :
    table.findId vs v = 0 := by
  unfold table.findId
  have hf : vs.find? (fun it => vector.eq it.2 v) = none := by
    rw [List.find?_eq_none]
    intro it hit
    simp [h it hit]
  rw [hf]

theorem store_erase_absent (vs : store) (u : Nat) (h : ∀ w, (u, w) ∉ vs) :
    store.erase vs u = vs := by
  unfold store.erase
  rw [List.filter_eq_self]
  intro it hit
  have hne : ¬ it.1 = u := by
    intro e
    exact h it.2 (by rw [← e]; exact hit)
  simp [hne]

theorem erase_buckets_absent (u : Nat) (parts : List partition)
    (h : ∀ p ∈ parts, ∀ it ∈ p, u ∉ it.2) :
    parts.map (fun p => p.map (fun it => (it.1, it.2.erase u))) = parts := by
  have h1 : ∀ p ∈ parts, p.map (fun it => (it.1, it.2.erase u)) = p := by
    intro p hp
    have h2 : ∀ it ∈ p, (fun it : Nat × bucket => (it.1, it.2.erase u)) it = id it := by
      intro it hit
      simp [List.erase_of_not_mem (h p hp it hit)]
    rw [List.map_congr_left h2, List.map_id]
  have h3 : ∀ p ∈ parts,
      (fun p : partition => p.map (fun it => (it.1, it.2.erase u))) p = id p := h1
  rw [List.map_congr_left h3, List.map_id]

/-- C20 (as amended): in every state reached from a constructed table by a
sequence of calls with at most `2 ^ 32` insertions, and for every `v` of the
table's size equal to no stored vector, `erase(v)` succeeds with `u = 0`; when
identifier 0 is stored, it leaves the store without the entry of identifier 0,
so `size()` drops by one, and every bucket without identifier 0, which was in
exactly one bucket of each partition; when identifier 0 is not stored, the call
leaves the table as it was. -/
theorem erase_absent (hasher : Nat → Nat) (c : Nat) (t0 : table) (ops : List Op) (v : vector)
    (hb : table.Built c t0) (hn : inserts ops ≤ 2 ^ 32) (hv : v.size = t0.dimensions_)
    (hno : ∀ it ∈ (table.run hasher t0 ops).vectors_, vector.eq it.2 v = false) :
    table.findId (table.run hasher t0 ops).vectors_ v = 0 ∧
    (table.erase (table.run hasher t0 ops) v).1 = .ok () ∧
    ((∃ w, (0, w) ∈ (table.run hasher t0 ops).vectors_) →
      (table.erase (table.run hasher t0 ops) v).2.vectors_
        = (table.run hasher t0 ops).vectors_.filter (fun it => it.1 != 0) ∧
      table.size (table.erase (table.run hasher t0 ops) v).2 + 1
        = table.size (table.run hasher t0 ops) ∧
      (table.erase (table.run hasher t0 ops) v).2.partitions_
        = (table.run hasher t0 ops).partitions_.map (fun p => p.map (fun it =>
            (it.1, it.2.filter (fun x => x != 0)))) ∧
      (∀ p ∈ (table.run hasher t0 ops).partitions_, (partition.ids p).count 0 = 1) ∧
      (∀ p ∈ (table.erase (table.run hasher t0 ops) v).2.partitions_, ∀ it ∈ p,
        0 ∉ it.2)) ∧
    ((∀ w, (0, w) ∉ (table.run hasher t0 ops).vectors_) →
      (table.erase (table.run hasher t0 ops) v).2 = table.run hasher t0 ops) := by
  obtain ⟨_, _, hI, _, _, _, hdim⟩ := reach_inv hasher c t0 ops hb hn
  have hid := findId_none _ v hno
  have hne : ¬ (table.run hasher t0 ops).dimensions_ ≠ v.size := by
    rw [hdim, hv]; exact fun h => h rfl
  refine ⟨hid, by simp [table.erase, hne], ?_, ?_⟩
  · rintro ⟨w, hw⟩
    have hparts := erase_buckets_filter hasher _ 0 hI.keys_nodup _ _ hI.parts
    have hlen := store_erase_length _ _ w hI.keys_nodup hw
    simp only [table.erase, hne, if_false, table.size, hid]
    refine ⟨by simp [store.erase, bne], hlen, hparts, ?_, ?_⟩
    · intro p hp
      obtain ⟨m, _, _, hper, _⟩ := forall₂_mem_right _ _ _ hI.parts p hp
      rw [hper.count_eq]
      exact List.count_eq_one_of_mem hI.keys_nodup
        (List.mem_map_of_mem (fun it => it.1) hw)
    · rw [hparts]
      intro p hp it hit
      simp only [List.mem_map] at hp
      obtain ⟨p0, _, rfl⟩ := hp
      simp only [List.mem_map] at hit
      obtain ⟨it0, _, rfl⟩ := hit
      simp
  · intro h0
    have hb0 : ∀ p ∈ (table.run hasher t0 ops).partitions_, ∀ it ∈ p, 0 ∉ it.2 := by
      intro p hp it hit hmem
      obtain ⟨m, _, _, _, h3⟩ := forall₂_mem_right _ _ _ hI.parts p hp
      obtain ⟨w, _, hw, _⟩ := h3 it hit 0 hmem
      exact h0 w hw
    simp only [table.erase, hne, if_false, hid, store_erase_absent _ 0 h0,
      erase_buckets_absent 0 _ hb0]

/-- Witness of C20: in the brute-force table of dimension 8 holding `11110000`
and `00001111`, `erase(00000001)` removes identifier 0; a second
`erase(00000001)` changes nothing. -/
theorem erase_absent_witness :
    (table.erase (table.run id ⟨8, [⟨8, [0]⟩], [[]], [], 0⟩
        [Op.insert ⟨8, [240]⟩, Op.insert ⟨8, [15]⟩]) ⟨8, [1]⟩).2
      = ⟨8, [⟨8, [0]⟩], [[(0, [1])]], [(1, ⟨8, [15]⟩)], 2⟩ ∧
    table.erase ⟨8, [⟨8, [0]⟩], [[(0, [1])]], [(1, ⟨8, [15]⟩)], 2⟩ ⟨8, [1]⟩
      = (.ok (), ⟨8, [⟨8, [0]⟩], [[(0, [1])]], [(1, ⟨8, [15]⟩)], 2⟩) ∧
    table.findId (table.run id ⟨8, [⟨8, [0]⟩], [[]], [], 0⟩
        [Op.insert ⟨8, [240]⟩, Op.insert ⟨8, [15]⟩]).vectors_ ⟨8, [1]⟩ = 0 :=
  ⟨by decide, by decide,
    (erase_absent id 32 ⟨8, [⟨8, [0]⟩], [[]], [], 0⟩
      [Op.insert ⟨8, [240]⟩, Op.insert ⟨8, [15]⟩] ⟨8, [1]⟩
      (Or.inl ⟨8, by decide⟩) (by decide) (by decide) (by decide)).1⟩

/-- C20 as stated fails after `2 ^ 32 + 1` insertions: a bucket then holds
identifier 0 although the store does not, and `erase(11111111)`, equal to no
stored vector, removes identifier 0 from the bucket instead of changing
nothing. -/
theorem erase_absent_after_wrap :
    table.brute 32 8 = some ⟨8, [⟨8, [0]⟩], [[]], [], 0⟩ ∧
    table.run id ⟨8, [⟨8, [0]⟩], [[]], [], 0⟩
        (Op.insert ⟨8, [170]⟩ :: churn ⟨8, [1]⟩ (2 ^ 32 - 1)
          ++ [Op.insert ⟨8, [1]⟩, Op.erase ⟨8, [170]⟩, Op.insert ⟨8, [15]⟩])
      = ⟨8, [⟨8, [0]⟩], [[(0, [0, 1])]], [(1, ⟨8, [15]⟩)], 2⟩ ∧
    vector.eq ⟨8, [15]⟩ ⟨8, [255]⟩ = false ∧
    table.erase ⟨8, [⟨8, [0]⟩], [[(0, [0, 1])]], [(1, ⟨8, [15]⟩)], 2⟩ ⟨8, [255]⟩
      = (.ok (), ⟨8, [⟨8, [0]⟩], [[(0, [1])]], [(1, ⟨8, [15]⟩)], 2⟩) := by
  refine ⟨by decide, ?_, by decide, by decide⟩
  rw [wrap_reached]
  decide

/-! ## Query after erase -/

theorem scan_result (vs : store) (v : vector) (L : List Nat) :
    ∀ best best1, table.scanBucket vs v L best = .ok best1 →
      best1.1 = best.1 ∨ ∃ u w, store.at vs u = .ok w ∧ best1.1 = some w := by
  induction L with
  | nil =>
    intro best best1 h
    simp only [table.scanBucket, Except.ok.injEq] at h
    subst h
    exact Or.inl rfl
  | cons u us ih =>
    intro best best1 h
    simp only [table.scanBucket] at h
    cases hat : store.at vs u with
    | error e => simp [hat] at h
    | ok w =>
      simp only [hat] at h
      cases hd : vector.distance v w with
      | error e => simp [hd] at h
      | ok d =>
        simp only [hd] at h
        split at h
        · rcases ih _ _ h with h1 | h1
          · exact Or.inr ⟨u, w, hat, h1⟩
          · exact Or.inr h1
        · exact ih _ _ h

theorem queryLoop_result (hasher : Nat → Nat) (vs : store) (v : vector) :
    ∀ (masks : List vector) (parts : List partition) best best1,
      table.queryLoop hasher vs v masks parts best = .ok best1 →
      best1.1 = best.1 ∨ ∃ u w, store.at vs u = .ok w ∧ best1.1 = some w := by
  intro masks
  induction masks with
  | nil =>
    intro parts best best1 h
    cases parts with
    | nil =>
      simp only [table.queryLoop, Except.ok.injEq] at h
      subst h
      exact Or.inl rfl
    | cons p ps => simp [table.queryLoop] at h
  | cons m ms ih =>
    intro parts best best1 h
    cases parts with
    | nil =>
      simp only [table.queryLoop, Except.ok.injEq] at h
      subst h
      exact Or.inl rfl
    | cons p ps =>
      simp only [table.queryLoop] at h
      cases hand : vector.and m v with
      | error e => simp [hand] at h
      | ok k =>
        simp only [hand] at h
        cases hf : partition.find p (vector.hash hasher k) with
        | none =>
          simp only [hf] at h
          exact ih ps _ _ h
        | some b =>
          simp only [hf] at h
          cases hs : table.scanBucket vs v b best with
          | error e => simp [hs] at h
          | ok best2 =>
            simp only [hs] at h
            rcases ih ps _ _ h with h1 | h1
            · rcases scan_result vs v b _ _ hs with h2 | h2
              · exact Or.inl (h1.trans h2)
              · obtain ⟨u, w, hu, hw⟩ := h2
                exact Or.inr ⟨u, w, hu, h1.trans hw⟩
            · exact Or.inr h1

theorem at_mem (vs : store) (u : Nat) (w : vector) (h : store.at vs u = .ok w) :
    (u, w) ∈ vs := by
  unfold store.at at h
  split at h
  · rename_i it hf
    simp only [Except.ok.injEq] at h
    subst h
    have h1 : (fun it : Nat × vector => it.1 == u) it = true :=
      List.find?_some (p := fun it : Nat × vector => it.1 == u) hf
    simp only [beq_iff_eq] at h1
    subst h1
    exact List.mem_of_find?_eq_some hf
  · simp at h

theorem query_result (hasher : Nat → Nat) (t : table) (v r : vector)
    (h : table.query hasher t v = .ok r) :
    r = vector.ofChunks [] 0 ∨ ∃ u, (u, r) ∈ t.vectors_ := by
  unfold table.query at h
  split at h
  · simp at h
  · split at h
    · simp at h
    · rename_i c0 d0 hq
      simp only [Except.ok.injEq] at h
      subst h
      rcases queryLoop_result hasher _ v _ _ _ _ hq with h1 | ⟨u, w, hu, hw⟩
      · simp at h1
      · simp only [Option.some.injEq] at hw
        subst hw
        exact Or.inr ⟨u, at_mem _ u _ hu⟩
    · simp only [Except.ok.injEq] at h
      exact Or.inl h.symm

theorem run_sizes (hasher : Nat → Nat) :
    ∀ (ops : List Op) (t : table), (∀ it ∈ t.vectors_, it.2.size = t.dimensions_) →
      (table.run hasher t ops).dimensions_ = t.dimensions_ ∧
      ∀ it ∈ (table.run hasher t ops).vectors_, it.2.size = t.dimensions_ := by
  intro ops
  induction ops with
  | nil => intro t h; exact ⟨rfl, h⟩
  | cons op ops ih =>
    intro t h
    cases op with
    | insert w =>
      by_cases hw : w.size = t.dimensions_
      · obtain ⟨_, e2, _⟩ := insert_fields hasher t w hw
        have hst : ∀ it ∈ (table.insert hasher t w).2.vectors_,
            it.2.size = (table.insert hasher t w).2.dimensions_ := by
          intro it hit
          rw [e2]
          have hne : ¬ t.dimensions_ ≠ w.size := fun e => e hw.symm
          simp only [table.insert, hne, if_false, store.insert] at hit
          split at hit
          · exact h it hit
          · simp only [List.mem_append, List.mem_singleton] at hit
            rcases hit with hit | rfl
            · exact h it hit
            · exact hw
        obtain ⟨h1, h2⟩ := ih _ hst
        simp only [table.run, List.foldl_cons, table.step] at h1 h2 ⊢
        rw [e2] at h1 h2
        exact ⟨h1, h2⟩
      · obtain ⟨h1, h2⟩ := ih t h
        simp only [table.run, List.foldl_cons, table.step, insert_mismatch hasher t w hw]
          at h1 h2 ⊢
        exact ⟨h1, h2⟩
    | erase w =>
      obtain ⟨_, e2, _, e4⟩ := erase_fields t w
      obtain ⟨h1, h2⟩ := ih (table.erase t w).2
        (fun it hit => by rw [e2]; exact h it (e4 it hit))
      simp only [table.run, List.foldl_cons, table.step] at h1 h2 ⊢
      rw [e2] at h1 h2
      exact ⟨h1, h2⟩

theorem eq_false_distance (r v : vector) (hs : r.size = v.size)
    (h : vector.eq r v = false) : ∃ d, vector.distance r v = .ok d ∧ 0 < d := by
  have hne : ¬ r.size ≠ v.size := fun e => e hs
  simp only [vector.eq, hne, if_false, distance_ok r v hs] at h
  refine ⟨_, distance_ok r v hs, ?_⟩
  simp only [beq_eq_false_iff_ne, ne_eq] at h
  omega

/-- C12 (as amended): in every state reached from a constructed table, for every
`v` of the table's size that equals exactly one stored vector (so that no other
copy is stored), `erase(v)` succeeds and leaves no stored vector equal to `v`;
whatever `query(v)` returns afterwards is the zero-size vector or a stored
vector that is not equal to `v` and lies at a distance above 0 from `v`; and
when the sequence of calls holds at most `2 ^ 32` insertions, `size()` has
dropped by one and `query(v)` does return. -/
theorem erase_then_query (hasher : Nat → Nat) (c : Nat) (t0 : table) (ops : List Op)
    (v : vector) (hb : table.Built c t0) (hv : v.size = t0.dimensions_)
    (hex : ∃ it ∈ (table.run hasher t0 ops).vectors_, vector.eq it.2 v = true)
    (huniq : ∀ it1 ∈ (table.run hasher t0 ops).vectors_,
      ∀ it2 ∈ (table.run hasher t0 ops).vectors_,
      vector.eq it1.2 v = true → vector.eq it2.2 v = true → it1 = it2) :
    (table.erase (table.run hasher t0 ops) v).1 = .ok () ∧
    (∀ it ∈ (table.erase (table.run hasher t0 ops) v).2.vectors_,
      vector.eq it.2 v = false) ∧
    (∀ r, table.query hasher (table.erase (table.run hasher t0 ops) v).2 v = .ok r →
      r = vector.ofChunks [] 0 ∨
      ((∃ u, (u, r) ∈ (table.erase (table.run hasher t0 ops) v).2.vectors_) ∧
        vector.eq r v = false ∧ ∃ d, vector.distance r v = .ok d ∧ 0 < d)) ∧
    (inserts ops ≤ 2 ^ 32 →
      table.size (table.erase (table.run hasher t0 ops) v).2 + 1
        = table.size (table.run hasher t0 ops) ∧
      ∃ r, table.query hasher (table.erase (table.run hasher t0 ops) v).2 v = .ok r) := by
  have hinit := built_initial c t0 hb
  obtain ⟨hd, hsz⟩ := run_sizes hasher ops t0 (by rw [hinit.1]; simp)
  obtain ⟨_, e2, _, e4⟩ := erase_fields (table.run hasher t0 ops) v
  obtain ⟨w, hw, hweq⟩ := findId_spec _ v hex
  have hne : ¬ (table.run hasher t0 ops).dimensions_ ≠ v.size := by
    rw [hd, hv]; exact fun h => h rfl
  have hstore : (table.erase (table.run hasher t0 ops) v).2.vectors_
      = store.erase (table.run hasher t0 ops).vectors_
          (table.findId (table.run hasher t0 ops).vectors_ v) := by
    simp [table.erase, hne]
  have hno : ∀ it ∈ (table.erase (table.run hasher t0 ops) v).2.vectors_,
      vector.eq it.2 v = false := by
    intro it hit
    rw [hstore] at hit
    simp only [store.erase, List.mem_filter, Bool.not_eq_true', beq_eq_false_iff_ne,
      ne_eq] at hit
    cases heq : vector.eq it.2 v with
    | false => rfl
    | true =>
      have h1 := huniq it hit.1 _ hw heq hweq
      exact absurd (congrArg Prod.fst h1) hit.2
  refine ⟨by simp [table.erase, hne], hno, ?_, ?_⟩
  · intro r hr
    rcases query_result hasher _ v r hr with h1 | ⟨u, hu⟩
    · exact Or.inl h1
    · have hrv := hno _ hu
      have hs : r.size = v.size := by
        have := hsz _ (e4 _ hu)
        simp only at this
        rw [this, hv]
      exact Or.inr ⟨⟨u, hu⟩, hrv, eq_false_distance r v hs hrv⟩
  · intro hn
    obtain ⟨_, _, hI, _⟩ := reach_inv hasher c t0 ops hb hn
    have hI1 := erase_inv hasher _ v hI
    obtain ⟨best, _, hq, _⟩ := query_spec hasher _ v hI1 (by rw [e2, hd, hv])
    refine ⟨?_, _, hq⟩
    simp only [table.size, hstore]
    exact store_erase_length _ _ w hI.keys_nodup hw

/-- Witness of C12: the brute-force table of dimension 8 holding `11110000` and
`00001111`; after `erase(11110000)` the store holds `00001111` alone and the
query `11110000` returns it, at distance 8. -/
theorem erase_then_query_witness :
    (table.erase (table.run id ⟨8, [⟨8, [0]⟩], [[]], [], 0⟩
        [Op.insert ⟨8, [240]⟩, Op.insert ⟨8, [15]⟩]) ⟨8, [240]⟩).2
      = ⟨8, [⟨8, [0]⟩], [[(0, [1])]], [(1, ⟨8, [15]⟩)], 2⟩ ∧
    table.query id (table.erase (table.run id ⟨8, [⟨8, [0]⟩], [[]], [], 0⟩
        [Op.insert ⟨8, [240]⟩, Op.insert ⟨8, [15]⟩]) ⟨8, [240]⟩).2 ⟨8, [240]⟩
      = .ok ⟨8, [15]⟩ ∧
    vector.distance ⟨8, [15]⟩ ⟨8, [240]⟩ = .ok 8 ∧
    (∀ it ∈ (table.erase (table.run id ⟨8, [⟨8, [0]⟩], [[]], [], 0⟩
        [Op.insert ⟨8, [240]⟩, Op.insert ⟨8, [15]⟩]) ⟨8, [240]⟩).2.vectors_,
      vector.eq it.2 ⟨8, [240]⟩ = false) :=
  ⟨by decide, by decide, by decide,
    (erase_then_query id 32 ⟨8, [⟨8, [0]⟩], [[]], [], 0⟩
      [Op.insert ⟨8, [240]⟩, Op.insert ⟨8, [15]⟩] ⟨8, [240]⟩
      (Or.inl ⟨8, by decide⟩) (by decide) ⟨(0, ⟨8, [240]⟩), by decide, by decide⟩
      (by decide)).2.1⟩

/-- C12 as stated fails after `2 ^ 32 + 1` insertions: once the counter has
wrapped, `insert(00000001)` puts identifier 0 into the bucket a second time; the
store holds `10101010` alone, `erase(10101010)` empties the store but leaves
identifier 0 in the bucket, and `query(10101010)` then has no result: it throws
`out_of_range`. -/
theorem erase_then_query_after_wrap :
    table.brute 32 8 = some ⟨8, [⟨8, [0]⟩], [[]], [], 0⟩ ∧
    table.run id ⟨8, [⟨8, [0]⟩], [[]], [], 0⟩
        (Op.insert ⟨8, [170]⟩ :: churn ⟨8, [1]⟩ (2 ^ 32 - 1) ++ [Op.insert ⟨8, [1]⟩])
      = ⟨8, [⟨8, [0]⟩], [[(0, [0, 0])]], [(0, ⟨8, [170]⟩)], 1⟩ ∧
    vector.eq ⟨8, [170]⟩ ⟨8, [170]⟩ = true ∧
    table.erase ⟨8, [⟨8, [0]⟩], [[(0, [0, 0])]], [(0, ⟨8, [170]⟩)], 1⟩ ⟨8, [170]⟩
      = (.ok (), ⟨8, [⟨8, [0]⟩], [[(0, [0])]], [], 1⟩) ∧
    table.query id ⟨8, [⟨8, [0]⟩], [[(0, [0])]], [], 1⟩ ⟨8, [170]⟩
      = .error .out_of_range := by
  refine ⟨by decide, ?_, by decide, by decide, by decide⟩
  rw [wrap_reached]
  decide

/-! ## The first nearest candidate -/

theorem scan_first_min (vs : store) (v : vector) (L : List Nat)
    (hL : ∀ u ∈ L, ∃ w, store.at vs u = .ok w ∧ w.size = v.size) :
    ∀ best, ∃ best1, table.scanBucket vs v L best = .ok best1 ∧
      ((best1 = best ∧
          ∀ u ∈ L, ∀ w d, store.at vs u = .ok w → vector.distance v w = .ok d → best.2 ≤ d) ∨
        ∃ (i u : Nat) (w : vector) (d : Nat), L[i]? = some u ∧ store.at vs u = .ok w ∧
          vector.distance v w = .ok d ∧ best1 = (some w, d) ∧ d < best.2 ∧
          ∀ (j uj : Nat), L[j]? = some uj → ∃ wj dj, store.at vs uj = .ok wj ∧
            vector.distance v wj = .ok dj ∧ d ≤ dj ∧ (j < i → d < dj)) := by
  induction L with
  | nil =>
    intro best
    exact ⟨best, by simp [table.scanBucket], Or.inl ⟨rfl, by simp⟩⟩
  | cons u us ih =>
    intro best
    obtain ⟨w, hat, hw⟩ := hL u (by simp)
    have hd := distance_ok v w hw.symm
    have ih1 := ih (fun x hx => hL x (by simp [hx]))
    simp only [table.scanBucket, hat, hd]
    split
    · rename_i hlt
      obtain ⟨best1, h1, h2⟩ := ih1 (some w, _)
      refine ⟨best1, h1, Or.inr ?_⟩
      rcases h2 with ⟨hb, hall⟩ | ⟨i, u1, w1, d1, hi, hu1, hd1, hb, hlt1, hall⟩
      · refine ⟨0, u, w, _, by simp, hat, hd, hb, hlt, ?_⟩
        intro j uj hj
        cases j with
        | zero =>
          simp only [List.getElem?_cons_zero, Option.some.injEq] at hj
          subst hj
          exact ⟨w, _, hat, hd, le_refl _, fun h => absurd h (by omega)⟩
        | succ j =>
          simp only [List.getElem?_cons_succ] at hj
          have hmem : uj ∈ us := List.getElem?_mem hj
          obtain ⟨wj, hatj, hwj⟩ := hL uj (by simp [hmem])
          have hdj := distance_ok v wj hwj.symm
          exact ⟨wj, _, hatj, hdj, hall uj hmem wj _ hatj hdj, fun h => absurd h (by omega)⟩
      · simp only at hlt1
        refine ⟨i + 1, u1, w1, d1, by simpa using hi, hu1, hd1, hb, by omega, ?_⟩
        intro j uj hj
        cases j with
        | zero =>
          simp only [List.getElem?_cons_zero, Option.some.injEq] at hj
          subst hj
          exact ⟨w, _, hat, hd, by omega, fun _ => hlt1⟩
        | succ j =>
          simp only [List.getElem?_cons_succ] at hj
          obtain ⟨wj, dj, h3, h4, h5, h6⟩ := hall j uj hj
          exact ⟨wj, dj, h3, h4, h5, fun h => h6 (by omega)⟩
    · rename_i hge
      obtain ⟨best1, h1, h2⟩ := ih1 best
      refine ⟨best1, h1, ?_⟩
      rcases h2 with ⟨hb, hall⟩ | ⟨i, u1, w1, d1, hi, hu1, hd1, hb, hlt1, hall⟩
      · refine Or.inl ⟨hb, ?_⟩
        intro x hx w0 d0 hx1 hx2
        simp only [List.mem_cons] at hx
        rcases hx with rfl | hx
        · rw [hat] at hx1
          cases hx1
          rw [hd] at hx2
          cases hx2
          omega
        · exact hall x hx w0 d0 hx1 hx2
      · refine Or.inr ⟨i + 1, u1, w1, d1, by simpa using hi, hu1, hd1, hb, hlt1, ?_⟩
        intro j uj hj
        cases j with
        | zero =>
          simp only [List.getElem?_cons_zero, Option.some.injEq] at hj
          subst hj
          exact ⟨w, _, hat, hd, by omega, fun _ => by omega⟩
        | succ j =>
          simp only [List.getElem?_cons_succ] at hj
          obtain ⟨wj, dj, h3, h4, h5, h6⟩ := hall j uj hj
          exact ⟨wj, dj, h3, h4, h5, fun h => h6 (by omega)⟩

/-- C11 (as amended): in every state reached from a constructed table by a
sequence of calls with at most `2 ^ 32` insertions, and for every `v` of the
table's size with fewer than `2 ^ 27` words, let the candidate list be the
concatenation, in partition order, of the bucket keyed by `hash(masks[i] AND v)`
in bucket order. If the list is empty `query(v)` returns the zero-size vector;
otherwise it returns the stored vector of the candidate at some position `i`
whose distance to `v` is at most the distance of every candidate and smaller
than the distance of every candidate before position `i`. -/
theorem query_first_nearest (hasher : Nat → Nat) (c : Nat) (t0 : table) (ops : List Op)
    (v : vector) (hb : table.Built c t0) (hn : inserts ops ≤ 2 ^ 32)
    (hv : v.size = t0.dimensions_) (hwords : v.components_.length < 2 ^ 27) :
    (table.candidates hasher v (table.run hasher t0 ops).masks_
        (table.run hasher t0 ops).partitions_ = [] →
      table.query hasher (table.run hasher t0 ops) v = .ok (vector.ofChunks [] 0)) ∧
    (table.candidates hasher v (table.run hasher t0 ops).masks_
        (table.run hasher t0 ops).partitions_ ≠ [] →
      ∃ (i u : Nat) (w : vector) (d : Nat),
        (table.candidates hasher v (table.run hasher t0 ops).masks_
          (table.run hasher t0 ops).partitions_)[i]? = some u ∧
        store.at (table.run hasher t0 ops).vectors_ u = .ok w ∧
        vector.distance v w = .ok d ∧
        table.query hasher (table.run hasher t0 ops) v = .ok w ∧
        ∀ (j uj : Nat),
          (table.candidates hasher v (table.run hasher t0 ops).masks_
            (table.run hasher t0 ops).partitions_)[j]? = some uj →
          ∃ wj dj, store.at (table.run hasher t0 ops).vectors_ uj = .ok wj ∧
            vector.distance v wj = .ok dj ∧ d ≤ dj ∧ (j < i → d < dj)) := by
  obtain ⟨_, _, hI, _, _, _, hdim⟩ := reach_inv hasher c t0 ops hb hn
  have hv1 : v.size = (table.run hasher t0 ops).dimensions_ := by rw [hdim, hv]
  have hne : ¬ (table.run hasher t0 ops).dimensions_ ≠ v.size := fun e => e hv1.symm
  have hL : ∀ u ∈ table.candidates hasher v (table.run hasher t0 ops).masks_
      (table.run hasher t0 ops).partitions_,
      ∃ w, store.at (table.run hasher t0 ops).vectors_ u = .ok w ∧ w.size = v.size := by
    intro u hu
    obtain ⟨w, hw⟩ := candidates_stored hasher _ v _ _ hI.parts u hu
    exact ⟨w, store_at_of_mem _ u w hI.keys_nodup hw, (hI.vec_size _ hw).trans hv1.symm⟩
  have hloop : ∀ best, table.queryLoop hasher (table.run hasher t0 ops).vectors_ v
      (table.run hasher t0 ops).masks_ (table.run hasher t0 ops).partitions_ best
      = table.scanBucket (table.run hasher t0 ops).vectors_ v
        (table.candidates hasher v (table.run hasher t0 ops).masks_
          (table.run hasher t0 ops).partitions_) best :=
    queryLoop_eq_scan hasher _ v _ _ hI.parts.length_eq
      (fun m hm => (hI.masks_size m hm).trans hv1.symm)
  refine ⟨?_, ?_⟩
  · intro hnil
    simp only [table.query, hne, if_false, hloop, hnil, table.scanBucket]
  · intro hcand
    obtain ⟨best1, hscan, hcase⟩ := scan_first_min _ v _ hL (none, UINT_MAX)
    rcases hcase with ⟨_, hall⟩ | ⟨i, u, w, d, hi, hu, hd, hb1, _, hall⟩
    · obtain ⟨u0, hu0⟩ := List.exists_mem_of_ne_nil _ hcand
      obtain ⟨w0, hat0, hw0⟩ := hL u0 hu0
      have hd0 := distance_ok v w0 hw0.symm
      have h1 := hall u0 hu0 w0 _ hat0 hd0
      have h2 := distance_le_words v w0 _ hd0
      simp only [UINT_MAX] at h1
      omega
    · refine ⟨i, u, w, d, hi, hu, hd, ?_, hall⟩
      simp only [table.query, hne, if_false, hloop, hscan, hb1]

/-- Witness of C11: the brute-force table of dimension 8 holding `11110000`,
`00001111` and `11110011`; the query `11110001` is at distance 1 from the first
and the third, and `query` returns the first. -/
theorem query_first_nearest_witness :
    table.candidates id ⟨8, [241]⟩
        (table.run id ⟨8, [⟨8, [0]⟩], [[]], [], 0⟩
          [Op.insert ⟨8, [240]⟩, Op.insert ⟨8, [15]⟩, Op.insert ⟨8, [243]⟩]).masks_
        (table.run id ⟨8, [⟨8, [0]⟩], [[]], [], 0⟩
          [Op.insert ⟨8, [240]⟩, Op.insert ⟨8, [15]⟩, Op.insert ⟨8, [243]⟩]).partitions_
      = [0, 1, 2] ∧
    vector.distance ⟨8, [241]⟩ ⟨8, [240]⟩ = .ok 1 ∧
    vector.distance ⟨8, [241]⟩ ⟨8, [243]⟩ = .ok 1 ∧
    table.query id (table.run id ⟨8, [⟨8, [0]⟩], [[]], [], 0⟩
        [Op.insert ⟨8, [240]⟩, Op.insert ⟨8, [15]⟩, Op.insert ⟨8, [243]⟩]) ⟨8, [241]⟩
      = .ok ⟨8, [240]⟩ ∧
    (table.candidates id ⟨8, [241]⟩
        (table.run id ⟨8, [⟨8, [0]⟩], [[]], [], 0⟩
          [Op.insert ⟨8, [240]⟩, Op.insert ⟨8, [15]⟩, Op.insert ⟨8, [243]⟩]).masks_
        (table.run id ⟨8, [⟨8, [0]⟩], [[]], [], 0⟩
          [Op.insert ⟨8, [240]⟩, Op.insert ⟨8, [15]⟩, Op.insert ⟨8, [243]⟩]).partitions_ = [] →
      table.query id (table.run id ⟨8, [⟨8, [0]⟩], [[]], [], 0⟩
          [Op.insert ⟨8, [240]⟩, Op.insert ⟨8, [15]⟩, Op.insert ⟨8, [243]⟩]) ⟨8, [241]⟩
        = .ok (vector.ofChunks [] 0)) ∧
    (table.candidates id ⟨8, [241]⟩
        (table.run id ⟨8, [⟨8, [0]⟩], [[]], [], 0⟩
          [Op.insert ⟨8, [240]⟩, Op.insert ⟨8, [15]⟩, Op.insert ⟨8, [243]⟩]).masks_
        (table.run id ⟨8, [⟨8, [0]⟩], [[]], [], 0⟩
          [Op.insert ⟨8, [240]⟩, Op.insert ⟨8, [15]⟩, Op.insert ⟨8, [243]⟩]).partitions_ ≠ [] →
      ∃ (i u : Nat) (w : vector) (d : Nat),
        (table.candidates id ⟨8, [241]⟩
            (table.run id ⟨8, [⟨8, [0]⟩], [[]], [], 0⟩
              [Op.insert ⟨8, [240]⟩, Op.insert ⟨8, [15]⟩, Op.insert ⟨8, [243]⟩]).masks_
            (table.run id ⟨8, [⟨8, [0]⟩], [[]], [], 0⟩
              [Op.insert ⟨8, [240]⟩, Op.insert ⟨8, [15]⟩, Op.insert ⟨8, [243]⟩]).partitions_)[i]?
          = some u ∧
        store.at (table.run id ⟨8, [⟨8, [0]⟩], [[]], [], 0⟩
            [Op.insert ⟨8, [240]⟩, Op.insert ⟨8, [15]⟩, Op.insert ⟨8, [243]⟩]).vectors_ u
          = .ok w ∧
        vector.distance ⟨8, [241]⟩ w = .ok d ∧
        table.query id (table.run id ⟨8, [⟨8, [0]⟩], [[]], [], 0⟩
            [Op.insert ⟨8, [240]⟩, Op.insert ⟨8, [15]⟩, Op.insert ⟨8, [243]⟩]) ⟨8, [241]⟩
          = .ok w ∧
        ∀ (j uj : Nat),
          (table.candidates id ⟨8, [241]⟩
              (table.run id ⟨8, [⟨8, [0]⟩], [[]], [], 0⟩
                [Op.insert ⟨8, [240]⟩, Op.insert ⟨8, [15]⟩, Op.insert ⟨8, [243]⟩]).masks_
              (table.run id ⟨8, [⟨8, [0]⟩], [[]], [], 0⟩
                [Op.insert ⟨8, [240]⟩, Op.insert ⟨8, [15]⟩, Op.insert ⟨8, [243]⟩]).partitions_)[j]?
            = some uj →
          ∃ wj dj,
            store.at (table.run id ⟨8, [⟨8, [0]⟩], [[]], [], 0⟩
                [Op.insert ⟨8, [240]⟩, Op.insert ⟨8, [15]⟩, Op.insert ⟨8, [243]⟩]).vectors_ uj
              = .ok wj ∧
            vector.distance ⟨8, [241]⟩ wj = .ok dj ∧ d ≤ dj ∧ (j < i → d < dj)) :=
  ⟨by decide, by decide, by decide, by decide,
    query_first_nearest id 32 ⟨8, [⟨8, [0]⟩], [[]], [], 0⟩
      [Op.insert ⟨8, [240]⟩, Op.insert ⟨8, [15]⟩, Op.insert ⟨8, [243]⟩] ⟨8, [241]⟩
      (Or.inl ⟨8, by decide⟩) (by decide) (by decide) (by decide)⟩

/-- C11 as stated fails after `2 ^ 32 + 1` insertions: the candidate list of
the query `00000001` is then `[0, 1]`, identifier 0 is no longer stored, and
`query` throws `out_of_range` instead of returning the stored vector of a
candidate. -/
theorem query_first_nearest_after_wrap :
    table.brute 32 8 = some ⟨8, [⟨8, [0]⟩], [[]], [], 0⟩ ∧
    table.run id ⟨8, [⟨8, [0]⟩], [[]], [], 0⟩
        (Op.insert ⟨8, [170]⟩ :: churn ⟨8, [1]⟩ (2 ^ 32 - 1)
          ++ [Op.insert ⟨8, [1]⟩, Op.erase ⟨8, [170]⟩, Op.insert ⟨8, [15]⟩])
      = ⟨8, [⟨8, [0]⟩], [[(0, [0, 1])]], [(1, ⟨8, [15]⟩)], 2⟩ ∧
    table.candidates id ⟨8, [1]⟩ [⟨8, [0]⟩] [[(0, [0, 1])]] = [0, 1] ∧
    store.at [(1, ⟨8, [15]⟩)] 0 = .error .out_of_range ∧
    table.query id ⟨8, [⟨8, [0]⟩], [[(0, [0, 1])]], [(1, ⟨8, [15]⟩)], 2⟩ ⟨8, [1]⟩
      = .error .out_of_range := by
  refine ⟨by decide, ?_, by decide, by decide, by decide⟩
  rw [wrap_reached]
  decide

end lsh
